import Mathlib

/-!
# libsmbios: the SMBIOS table decoder and the entry point scanner

A shallow embedding of `src/libsmbios_c/smbios/smbios_obj.c`.

Memory is a list of bytes (`Nat`, a byte is below 256) that starts at the base
address of the table buffer (`table->table`); a pointer into it is the offset
from that base, and the null pointer is `none`.  Every function that
dereferences a pointer also returns the list of offsets it has read, in the
order of the reads, so that statements on what the code reads are statements on
that list.  A byte that lies outside the list is not part of the buffer: it
reads as 0 and the access is in the list of reads like any other.
-/

namespace Smbios

/-! ## Memory -/

/-- The byte at offset `i` from the table base (`((u8*)table->table)[i]`). -/
def peek (mem : List Nat) (i : Nat) : Nat := mem.getD i 0

/-- The `n` bytes at offsets `start .. start + n - 1`. -/
def read_bytes (mem : List Nat) (start n : Nat) : List Nat :=
  (List.range n).map (fun k => peek mem (start + k))

/-- The offsets a copy of `n` bytes from `start` reads. -/
def span (start n : Nat) : List Nat :=
  (List.range n).map (fun k => start + k)

/-- The libc `memcpy(dest, src, n)` seen from the destination: the first `n`
bytes of `dest` become the `n` source bytes, what follows stays. -/
def memcpy (dest src : List Nat) : List Nat :=
  src ++ dest.drop src.length

/-- The libc `strlen`: the number of bytes before the first zero byte at or
after `p`. -/
def strlen (mem : List Nat) (p : Nat) : Nat :=
  ((mem.drop p).takeWhile (fun b => b != 0)).length

/-- The C string that starts at `p`: the bytes before its terminating zero. -/
def cstring (mem : List Nat) (p : Nat) : List Nat :=
  (mem.drop p).takeWhile (fun b => b != 0)

/-- The range of `size_t` (64 bits on the Linux targets of the library). -/
def SIZE_MODULUS : Nat := 2 ^ 64

/-! ## The table handle

`struct smbios_table` and the entry point structures are declared in
`smbios_impl.h`, which is not among the sources; the layout below is the packed
SMBIOS 2.x entry point the code casts to `u8*`.
-/

/-- Modelled from the spec: `struct smbios_table` (declared in the absent
`smbios_impl.h`): the initialized flag, the entry point `tep` as its 32 bytes
lie in memory, and the owned table buffer (`none` is the null pointer). -/
structure smbios_table where
  initialized : Int
  tep : List Nat
  table : Option (List Nat)

/-- Modelled from the spec: `tep.dmi.table_length`, the little-endian `u16` at
bytes 22 and 23 of the modern entry point (bytes 6 and 7 of the embedded legacy
entry point, which starts at byte 16). -/
def dmi_table_length (tep : List Nat) : Nat :=
  tep.getD 22 0 + 256 * tep.getD 23 0

/-- Modelled from the spec: `tep.dmi.table_address`, the little-endian `u32` at
bytes 24 to 27 of the modern entry point. -/
def dmi_table_address (tep : List Nat) : Nat :=
  tep.getD 24 0 + 256 * tep.getD 25 0 + 65536 * tep.getD 26 0 + 16777216 * tep.getD 27 0

/-- The declared length of the table of a handle: `table->tep.dmi.table_length`. -/
def smbios_table.table_length (t : smbios_table) : Nat :=
  dmi_table_length t.tep

/-- A handle on the buffer `mem` whose entry point declares the table length
`tl` (bytes 22 and 23 of the entry point) and nothing else. -/
def table_of (mem : List Nat) (tl : Nat) : smbios_table :=
  ⟨1, List.replicate 22 0 ++ [tl % 256, tl / 256] ++ List.replicate 8 0, some mem⟩

/-! ## Structure accessors -/

/-- `smbios_struct_get_type`: `s->type`, the first byte of the structure. -/
def smbios_struct_get_type (mem : List Nat) (s : Nat) : Nat :=
  peek mem s

/-- `smbios_struct_get_length`: `s->length`, the second byte of the structure. -/
def smbios_struct_get_length (mem : List Nat) (s : Nat) : Nat :=
  peek mem (s + 1)

/-- `smbios_struct_get_handle`: `s->handle`, the little-endian `u16` at bytes 2
and 3 of the structure. -/
def smbios_struct_get_handle (mem : List Nat) (s : Nat) : Nat :=
  peek mem (s + 2) + 256 * peek mem (s + 3)

/-- What `smbios_struct_get_data` leaves behind: its return value, the
destination buffer, and the offsets it read. -/
structure get_data_result where
  retval : Int
  dest : List Nat
  reads : List Nat

/-- `smbios_struct_get_data(s, dest, offset, len)`: `offset` is a `u8`, `len` a
`size_t`, and `offset + len` is computed in `size_t`. -/
def smbios_struct_get_data (mem : List Nat) (s : Nat) (dest : List Nat)
    (offset len : Nat) : get_data_result :=
  if offset > smbios_struct_get_length mem s then
    ⟨-1, dest, [s + 1]⟩
  else if (offset + len) % SIZE_MODULUS < offset then
    ⟨-1, dest, [s + 1]⟩
  else if (offset + len) % SIZE_MODULUS > smbios_struct_get_length mem s then
    ⟨-1, dest, [s + 1, s + 1]⟩
  else
    ⟨0, memcpy dest (read_bytes mem (s + offset) len), [s + 1, s + 1] ++ span (s + offset) len⟩

/-! ## Iteration over the structures of a table -/

/-- The string-skipping loop of `smbios_table_get_next_struct`,
`while (((data - table) < (table_length - 3)) && (*data || data[1])) data++;`
from the offset `data`: the offset at which the loop stops and the offsets it
has read (`data[1]` is read only when `*data` is zero).  The comparison is a
signed one, as in C (`ptrdiff_t` against `int`).  The first argument bounds the
number of iterations; `skip_strings_step` shows that the bound `tl`, which the
caller passes, is never reached. -/
def skip_strings (mem : List Nat) (tl : Nat) : Nat → Nat → Nat × List Nat
  | 0, data => (data, [])
  | fuel + 1, data =>
    if (data : Int) < (tl : Int) - 3 then
      if peek mem data ≠ 0 then
        ((skip_strings mem tl fuel (data + 1)).1,
          data :: (skip_strings mem tl fuel (data + 1)).2)
      else if peek mem (data + 1) ≠ 0 then
        ((skip_strings mem tl fuel (data + 1)).1,
          data :: (data + 1) :: (skip_strings mem tl fuel (data + 1)).2)
      else (data, [data, data + 1])
    else (data, [])

/-- `smbios_table_get_next_struct(table, cur)`: the structure after `cur` (the
first one when `cur` is absent) or `none`, with the offsets read. -/
def smbios_table_get_next_struct (t : smbios_table) (cur : Option Nat) :
    Option Nat × List Nat :=
  match t.table with
  | none => (none, [])
  | some mem =>
    match cur with
    | none => (some 0, [])
    | some c =>
      if smbios_struct_get_type mem c = 0x7f then (none, [c])
      else
        if (((skip_strings mem t.table_length t.table_length
                (c + smbios_struct_get_length mem c)).1 + 2 : Nat) : Int)
            > (t.table_length : Int) - 4 then
          (none, c :: (c + 1) :: (skip_strings mem t.table_length t.table_length
                (c + smbios_struct_get_length mem c)).2)
        else
          (some ((skip_strings mem t.table_length t.table_length
                (c + smbios_struct_get_length mem c)).1 + 2),
            c :: (c + 1) :: (skip_strings mem t.table_length t.table_length
                (c + smbios_struct_get_length mem c)).2)

/-- The `k`-th result (from 0) of calling `smbios_table_get_next_struct`
again and again, each time on the structure the call before returned, after a
first call on `cur`; once a call has returned `none` the iteration is over. -/
def seq_after (t : smbios_table) (cur : Option Nat) : Nat → Option Nat
  | 0 => (smbios_table_get_next_struct t cur).1
  | k + 1 =>
    match seq_after t cur k with
    | none => none
    | some s => (smbios_table_get_next_struct t (some s)).1

/-- The `k`-th structure (from 0) of the iteration that starts with `cur`
absent. -/
def nth_struct (t : smbios_table) (k : Nat) : Option Nat :=
  seq_after t none k

/-- The loop of `smbios_table_get_next_struct_by_type`:
`do { cur = next(table, cur); if (cur && cur->type == type) break; } while (cur);`
The first argument bounds the number of iterations; `by_type_unfold` shows that
the bound the caller passes is never reached. -/
def by_type_loop (t : smbios_table) (type : Nat) : Nat → Option Nat → Option Nat
  | 0, _ => none
  | fuel + 1, cur =>
    match (smbios_table_get_next_struct t cur).1 with
    | none => none
    | some s =>
      if smbios_struct_get_type (t.table.getD []) s = type then some s
      else by_type_loop t type fuel (some s)

/-- `smbios_table_get_next_struct_by_type(table, cur, type)`. -/
def smbios_table_get_next_struct_by_type (t : smbios_table) (cur : Option Nat)
    (type : Nat) : Option Nat :=
  by_type_loop t type (t.table_length + 2) cur

/-- The loop of `smbios_table_get_next_struct_by_handle`:
`do { cur = next(table, cur); if (cur && cur->handle == handle) break; } while (cur);`
The first argument bounds the number of iterations; `by_handle_unfold` shows
that the bound the caller passes is never reached. -/
def by_handle_loop (t : smbios_table) (handle : Nat) : Nat → Option Nat → Option Nat
  | 0, _ => none
  | fuel + 1, cur =>
    match (smbios_table_get_next_struct t cur).1 with
    | none => none
    | some s =>
      if smbios_struct_get_handle (t.table.getD []) s = handle then some s
      else by_handle_loop t handle fuel (some s)

/-- `smbios_table_get_next_struct_by_handle(table, cur, handle)`. -/
def smbios_table_get_next_struct_by_handle (t : smbios_table) (cur : Option Nat)
    (handle : Nat) : Option Nat :=
  by_handle_loop t handle (t.table_length + 2) cur

/-- The common shape of the two search loops: call
`smbios_table_get_next_struct` until it returns `none` or a structure that
satisfies `p`.  The first argument bounds the number of iterations. -/
def first_match (t : smbios_table) (p : Nat → Bool) : Nat → Option Nat → Option Nat
  | 0, _ => none
  | fuel + 1, cur =>
    match (smbios_table_get_next_struct t cur).1 with
    | none => none
    | some s => if p s then some s else first_match t p fuel (some s)

/-- The number of calls the iteration can still make before it must have
returned `none`. -/
def calls_left (t : smbios_table) : Option Nat → Nat
  | none => t.table_length + 2
  | some o => t.table_length - o + 1

/-! ## Strings -/

/-- The loop of `smbios_struct_get_string_number`,
`for (; which > 1; which--) { p += strlen(p) + 1; if (!*p) goto out; }`
followed by `retval = p`: the string pointer or `none`, and the offsets read
(`strlen` reads the string and its terminator). -/
def string_loop (mem : List Nat) : Nat → Nat → Option Nat × List Nat
  | 0, p => (some p, [])
  | 1, p => (some p, [])
  | which + 2, p =>
    if peek mem (p + strlen mem p + 1) = 0 then
      (none, span p (strlen mem p + 1) ++ [p + strlen mem p + 1])
    else
      ((string_loop mem (which + 1) (p + strlen mem p + 1)).1,
        span p (strlen mem p + 1) ++ [p + strlen mem p + 1]
          ++ (string_loop mem (which + 1) (p + strlen mem p + 1)).2)

/-- `smbios_struct_get_string_number(s, which)`: the offset of the string with
the 1-based number `which` (a `u8`), or `none` (the null pointer), and the
offsets read. -/
def smbios_struct_get_string_number (mem : List Nat) (s : Nat) (which : Nat) :
    Option Nat × List Nat :=
  if which = 0 then (none, [])
  else
    ((string_loop mem which (s + smbios_struct_get_length mem s)).1,
      (s + 1) :: (string_loop mem which (s + smbios_struct_get_length mem s)).2)

/-- `smbios_struct_get_string_from_offset(s, offset)`: the string whose number
is the byte at `offset` of the structure, read through
`smbios_struct_get_data` into the one-byte variable `strnum` (initially 0). -/
def smbios_struct_get_string_from_offset (mem : List Nat) (s : Nat) (offset : Nat) :
    Option Nat × List Nat :=
  if (smbios_struct_get_data mem s [0] offset 1).retval ≥ 0 then
    ((smbios_struct_get_string_number mem s
        ((smbios_struct_get_data mem s [0] offset 1).dest.getD 0 0)).1,
      (smbios_struct_get_data mem s [0] offset 1).reads ++
        (smbios_struct_get_string_number mem s
          ((smbios_struct_get_data mem s [0] offset 1).dest.getD 0 0)).2)
  else (none, (smbios_struct_get_data mem s [0] offset 1).reads)

/-- The structure of the spec's example: a 4-byte header and the string table
`"Dell Inc.\0System\0\0"`. -/
def dell_struct : List Nat :=
  [1, 4, 0, 0, 68, 101, 108, 108, 32, 73, 110, 99, 46, 0, 83, 121, 115, 116, 101, 109, 0, 0]

/-! ## Well-formed records (the table layout of section 6 of the spec) -/

/-- A table record: type, handle, the type-specific fields that follow the
4-byte header, and the strings. -/
structure record where
  type : Nat
  handle : Nat
  fields : List Nat
  strings : List (List Nat)

/-- A string table with at least one string: every string followed by a zero
byte, then one more zero byte. -/
def string_table (strs : List (List Nat)) : List Nat :=
  strs.flatMap (fun s => s ++ [0]) ++ [0]

/-- The bytes after the formatted section: two zero bytes when there is no
string, else the string table. -/
def encode_strings (strs : List (List Nat)) : List Nat :=
  if strs = [] then [0, 0] else string_table strs

/-- The bytes of a record: type, formatted length, handle (little-endian),
fields, strings. -/
def encode (r : record) : List Nat :=
  [r.type, 4 + r.fields.length, r.handle % 256, r.handle / 256] ++ r.fields
    ++ encode_strings r.strings

/-- Strings are non-empty and hold no zero byte. -/
def strings_ok (strs : List (List Nat)) : Prop :=
  ∀ s ∈ strs, s ≠ [] ∧ ∀ b ∈ s, b ≠ 0

/-- A well-formed record: the type is a byte, the handle a 16-bit value, the
formatted length fits a byte, fields and strings are bytes, and the strings are
non-empty without a zero byte. -/
def well_formed (r : record) : Prop :=
  r.type < 256 ∧ r.handle < 65536 ∧ 4 + r.fields.length < 256 ∧ (∀ b ∈ r.fields, b < 256)
    ∧ strings_ok r.strings ∧ ∀ s ∈ r.strings, ∀ b ∈ s, b < 256

instance (strs : List (List Nat)) : Decidable (strings_ok strs) := by
  unfold strings_ok; infer_instance

instance (r : record) : Decidable (well_formed r) := by
  unfold well_formed; infer_instance

/-- The bytes of a table made of the records `rs`, one after the other. -/
def encode_table (rs : List record) : List Nat :=
  rs.flatMap encode

/-- The offset of the record number `k` (from 0) in `encode_table rs`: the sum
of the encoded sizes of the records before it. -/
def record_offset (rs : List record) (k : Nat) : Nat :=
  (encode_table (rs.take k)).length

/-- Three records for the spec's example: one string, two zero field bytes and
no string, two strings. -/
def sample_records : List record :=
  [⟨0, 0, [], [[65, 66]]⟩, ⟨1, 1, [0, 0], []⟩, ⟨2, 2, [], [[65], [66]]⟩]

/-- The end marker: a record of type `0x7F` with no field and no string. -/
def end_marker : record := ⟨0x7f, 3, [], []⟩

/-! ## The entry point scanner

`memory_read` lives in `memory_obj.c`, which is not among the sources, and the
block constants `E_BLOCK_START` and `F_BLOCK_END` are defined in the absent
`smbios_impl.h`: the scanner takes them as arguments.
-/

/-- The range of `unsigned long` (64 bits on the Linux targets of the library). -/
def ULONG_MODULUS : Nat := 2 ^ 64

/-- The anchor `"_DMI_"` of the legacy entry point. -/
def DMI_ANCHOR : List Nat := [95, 68, 77, 73, 95]

/-- The anchor `"_SM_"` of the modern entry point. -/
def SM_ANCHOR : List Nat := [95, 83, 77, 95]

/-- Modelled from the spec: `sizeof(struct smbios_table_entry_point)`, the
packed modern entry point followed by one byte of padding (the structure is
declared in the absent `smbios_impl.h`). -/
def TEP_SIZE : Nat := 32

/-- Modelled from the spec: `sizeof(struct dmi_table_entry_point)`: anchor (5),
checksum (1), table length (2), table address (4), structure count (2), BCD
revision (1). -/
def DMI_TEP_SIZE : Nat := 15

/-- Modelled from the spec: the offset of the member `dmi` in
`struct smbios_table_entry_point`. -/
def DMI_OFFSET : Nat := 16

/-- A `memory_read(buffer, offset, length)`: the bytes it puts into the buffer,
or `none` when it fails. -/
abbrev reader := Nat → Nat → Option (List Nat)

/-- A backing image whose reads all succeed: `img a` is the byte at address `a`. -/
def image_reader (img : Nat → Nat) : reader :=
  fun offset length => some ((List.range length).map (fun k => img (offset + k)))

/-- The checksum loop `checksum = (checksum + ptr[i]) & 0xFF` for `i` from 0 to
`n - 1`. -/
def checksum (ptr : List Nat) (n : Nat) : Nat :=
  (List.range n).foldl (fun c i => (c + ptr.getD i 0) % 256) 0

/-- `validate_dmi_tep(dmiTEP, strict)` on the bytes `dmiTEP` points to. -/
def validate_dmi_tep (dmiTEP : List Nat) (strict : Bool) : Bool :=
  let retval := true
  let sum := checksum dmiTEP DMI_TEP_SIZE
  let retval := if dmiTEP.take 5 ≠ DMI_ANCHOR then false else retval
  let retval := if sum ≠ 0 then false else retval
  retval

/-- The member `eps_length` of the modern entry point (byte 5). -/
def eps_length (tep : List Nat) : Nat := tep.getD 5 0

/-- The member `major_ver` of the modern entry point (byte 6). -/
def major_ver (tep : List Nat) : Nat := tep.getD 6 0

/-- `validate_smbios_tep(tempTEP, strict)` on the bytes of the entry point.  The
call of `validate_dmi_tep` on the embedded legacy entry point is there as in the
source, which does not use its result. -/
def validate_smbios_tep (tempTEP : List Nat) (strict : Bool) : Bool :=
  let retval := true
  let sum := checksum tempTEP (min (eps_length tempTEP) TEP_SIZE)
  let _unused := validate_dmi_tep ((tempTEP.drop DMI_OFFSET).take DMI_TEP_SIZE) strict
  let retval := if sum ≠ 0 then false else retval
  let retval := if major_ver tempTEP ≠ 0x02 then false else retval
  let retval := if eps_length tempTEP < 0x0f then false else retval
  retval

/-- What the `_DMI_` branch of the scan does to `tempTEP` before it validates:
`memmove(&(tempTEP.dmi), &dmiTEP, 15)` overwrites bytes 16 to 30 with the 15
bytes found at the address of the local pointer variable `dmiTEP` (`ptr_bytes`),
then `major_ver = 2` and `minor_ver = 0` overwrite bytes 6 and 7. -/
def legacy_fixup (tempTEP ptr_bytes : List Nat) : List Nat :=
  ((tempTEP.take DMI_OFFSET ++ (List.range DMI_TEP_SIZE).map (fun i => ptr_bytes.getD i 0)
      ++ tempTEP.drop (DMI_OFFSET + DMI_TEP_SIZE)).set 6 2).set 7 0

/-- `tempTEP` after `memory_read(&tempTEP, fp, sizeof(tempTEP))`, whose return
value the scan does not look at; a read that fails is taken to leave the buffer
as it was. -/
def read_tep (rd : reader) (fp : Nat) (tempTEP : List Nat) : List Nat :=
  match rd fp TEP_SIZE with
  | some bytes => bytes
  | none => tempTEP

/-- `tempTEP` at the end of one round of the scan loop. -/
def round_tep (rd : reader) (ptr_bytes : List Nat) (fp : Nat) (tempTEP : List Nat) : List Nat :=
  if (read_tep rd fp tempTEP).take 5 = DMI_ANCHOR then
    legacy_fixup (read_tep rd fp tempTEP) ptr_bytes
  else read_tep rd fp tempTEP

/-- Whether one round of the scan loop leaves the loop through one of its two
`break`s: the `_DMI_` branch with `validate_dmi_tep(dmiTEP)`, where `dmiTEP`
points to the start of `tempTEP`, then the `_SM_` branch with
`validate_smbios_tep(&tempTEP)`. -/
def round_breaks (rd : reader) (ptr_bytes : List Nat) (strict : Bool) (fp : Nat)
    (tempTEP : List Nat) : Bool :=
  if (read_tep rd fp tempTEP).take 5 = DMI_ANCHOR
      ∧ validate_dmi_tep ((round_tep rd ptr_bytes fp tempTEP).take DMI_TEP_SIZE) strict = true then
    true
  else if (round_tep rd ptr_bytes fp tempTEP).take 4 = SM_ANCHOR
      ∧ validate_smbios_tep (round_tep rd ptr_bytes fp tempTEP) strict = true then
    true
  else false

/-- The scan loop of `smbios_get_tep_memory`,
`while ((fp + sizeof(tempTEP)) < F_BLOCK_END) { memory_read; ...; fp += 16; }`,
in `unsigned long` arithmetic: the final `fp`, the final `tempTEP`, and the
offsets handed to `memory_read` (each for `sizeof(tempTEP)` bytes).  The first
argument bounds the number of iterations; `tep_scan_loop_fuel` shows that the
bound `F_BLOCK_END`, which the caller passes, is never reached. -/
def tep_scan_loop (rd : reader) (ptr_bytes : List Nat) (strict : Bool) (f_block_end : Nat) :
    Nat → Nat → List Nat → Nat × List Nat × List Nat
  | 0, fp, tempTEP => (fp, tempTEP, [])
  | fuel + 1, fp, tempTEP =>
    if (fp + TEP_SIZE) % ULONG_MODULUS < f_block_end then
      if round_breaks rd ptr_bytes strict fp tempTEP then
        (fp, round_tep rd ptr_bytes fp tempTEP, [fp])
      else
        ((tep_scan_loop rd ptr_bytes strict f_block_end fuel ((fp + 16) % ULONG_MODULUS)
            (round_tep rd ptr_bytes fp tempTEP)).1,
          (tep_scan_loop rd ptr_bytes strict f_block_end fuel ((fp + 16) % ULONG_MODULUS)
            (round_tep rd ptr_bytes fp tempTEP)).2.1,
          fp :: (tep_scan_loop rd ptr_bytes strict f_block_end fuel ((fp + 16) % ULONG_MODULUS)
            (round_tep rd ptr_bytes fp tempTEP)).2.2)
    else (fp, tempTEP, [])

/-- What `smbios_get_tep_memory` leaves behind: its return value, the handle,
and the offsets it handed to `memory_read`. -/
structure tep_memory_result where
  retval : Int
  table : smbios_table
  reads : List Nat

/-- `smbios_get_tep_memory(table, strict)` with the block constants
`E_BLOCK_START` and `F_BLOCK_END` as arguments. -/
def smbios_get_tep_memory (rd : reader) (ptr_bytes : List Nat) (e_block_start f_block_end : Nat)
    (table : smbios_table) (strict : Bool) : tep_memory_result :=
  if ((tep_scan_loop rd ptr_bytes strict f_block_end f_block_end e_block_start
        (List.replicate TEP_SIZE 0)).1 + TEP_SIZE) % ULONG_MODULUS ≥ f_block_end then
    ⟨0, table,
      (tep_scan_loop rd ptr_bytes strict f_block_end f_block_end e_block_start
        (List.replicate TEP_SIZE 0)).2.2⟩
  else
    ⟨1, ⟨table.initialized,
        (tep_scan_loop rd ptr_bytes strict f_block_end f_block_end e_block_start
          (List.replicate TEP_SIZE 0)).2.1, table.table⟩,
      (tep_scan_loop rd ptr_bytes strict f_block_end f_block_end e_block_start
        (List.replicate TEP_SIZE 0)).2.2⟩

/-- The `sizeof(tempTEP)` bytes of a backing image at address `fp`. -/
def image_bytes (img : Nat → Nat) (fp : Nat) : List Nat :=
  (List.range TEP_SIZE).map (fun k => img (fp + k))

/-- `tempTEP` after the round of the scan loop at `fp`, on an image whose reads
succeed. -/
def candidate_tep (img : Nat → Nat) (ptr_bytes : List Nat) (fp : Nat) : List Nat :=
  round_tep (image_reader img) ptr_bytes fp []

/-- Whether the scan stops at the candidate at `fp`: the round of the scan loop
at `fp` leaves the loop, on an image whose reads succeed. -/
def accepts (img : Nat → Nat) (ptr_bytes : List Nat) (strict : Bool) (fp : Nat) : Bool :=
  round_breaks (image_reader img) ptr_bytes strict fp []

/-- What the scan makes of the candidate at `fp`, stated on the image bytes
(`accepts_eq_validates`).  This is not the validator of the anchor on the bytes
as they lie in the image (that is `passes_validation`): for a candidate with
the anchor `_DMI_` the scan calls `validate_dmi_tep` on the 15 bytes with bytes
6 and 7 overwritten by 2 and 0, because it sets `major_ver` and `minor_ver` of
`tempTEP`, which the legacy pointer aliases, before the call.  For a candidate
with the anchor `_SM_` it calls `validate_smbios_tep` on the 32 bytes. -/
def scan_validates (img : Nat → Nat) (strict : Bool) (fp : Nat) : Bool :=
  if (image_bytes img fp).take 5 = DMI_ANCHOR then
    validate_dmi_tep ((((image_bytes img fp).take DMI_TEP_SIZE).set 6 2).set 7 0) strict
  else if (image_bytes img fp).take 4 = SM_ANCHOR then
    validate_smbios_tep (image_bytes img fp) strict
  else false

/-- Whether the candidate at `fp` of a backing image passes validation: the
validator of its anchor accepts the bytes as they lie in the image,
`validate_dmi_tep` the 15 bytes of a candidate with the anchor `_DMI_`,
`validate_smbios_tep` the 32 bytes of a candidate with the anchor `_SM_`; a
candidate without anchor does not pass. -/
def passes_validation (img : Nat → Nat) (strict : Bool) (fp : Nat) : Bool :=
  if (image_bytes img fp).take 5 = DMI_ANCHOR then
    validate_dmi_tep ((image_bytes img fp).take DMI_TEP_SIZE) strict
  else if (image_bytes img fp).take 4 = SM_ANCHOR then
    validate_smbios_tep (image_bytes img fp) strict
  else false

/-- A modern entry point for the examples: anchor `_SM_`, checksum byte `0x7a`,
length `0x1f`, version 2.4, and an embedded legacy entry point that declares a
table of `0x0123` bytes at address `0x000e1000`. -/
def sample_tep : List Nat :=
  [95, 83, 77, 95, 0x7a, 0x1f, 2, 4, 0, 0, 0, 0, 0, 0, 0, 0,
   95, 68, 77, 73, 95, 0, 0x23, 0x01, 0x00, 0x10, 0x0e, 0x00, 5, 0, 0x24, 0]

/-- A backing image that holds `sample_tep` at address 48 and zero bytes
elsewhere. -/
def sample_image : Nat → Nat :=
  fun a => if 48 ≤ a then sample_tep.getD (a - 48) 0 else 0

/-- The sum of the bytes at offsets 0 to `n - 1`, in exact arithmetic. -/
def byte_sum (ptr : List Nat) (n : Nat) : Nat :=
  ((List.range n).map (fun i => ptr.getD i 0)).sum

/-- The embedded legacy entry point of a modern entry point: the member `dmi`,
15 bytes from byte 16 on. -/
def embedded_dmi (tep : List Nat) : List Nat :=
  (tep.drop DMI_OFFSET).take DMI_TEP_SIZE

/-- A backing image with the byte at address `p` replaced by `v`. -/
def poke (img : Nat → Nat) (p v : Nat) : Nat → Nat :=
  fun a => if a = p then v else img a

/-- The index of the checksum byte of a candidate: 5 under the anchor `_DMI_`,
4 otherwise (the anchor `_SM_`). -/
def checksum_index (bytes : List Nat) : Nat :=
  if bytes.take 5 = DMI_ANCHOR then 5 else 4

/-- The image `sample_image` with 16 more bytes at address 32: the anchor
`_SM_`, the checksum byte `0x83`, length `0x1f`, major version 2.  The 32 bytes
of the candidate at 32 run into the entry point at 48. -/
def overlap_image : Nat → Nat :=
  fun a => if 32 ≤ a ∧ a < 48 then
    [95, 83, 77, 95, 0x83, 0x1f, 2, 0, 0, 0, 0, 0, 0, 0, 0, 0].getD (a - 32) 0
  else sample_image a

/-- A legacy entry point: anchor `_DMI_`, checksum byte `0xfd`, table length
`0x0123`, table address `0x000e1000`, 5 structures, revision `0x24`; its 15
bytes sum to 0 modulo 256. -/
def legacy_tep : List Nat :=
  [95, 68, 77, 73, 95, 0xfd, 0x23, 0x01, 0x00, 0x10, 0x0e, 0x00, 5, 0, 0x24]

/-- A backing image that holds `legacy_tep` at address 48 and zero bytes
elsewhere. -/
def legacy_image : Nat → Nat :=
  fun a => if 48 ≤ a then legacy_tep.getD (a - 48) 0 else 0

/-- A backing image that holds `legacy_tep` at address 48, `sample_tep` at
address 64, and zero bytes elsewhere. -/
def legacy_below_modern_image : Nat → Nat :=
  fun a => if 64 ≤ a then sample_tep.getD (a - 64) 0
    else if 48 ≤ a then legacy_tep.getD (a - 48) 0 else 0

/-! ## Acquisition: `smbios_get_table_memory`, `init_smbios_struct`, the factory

The strategies `smbios_get_table_efi`, `smbios_get_table_wmi` and
`smbios_get_table_firm_tables`, the function `do_smbios_fixups` and the flag
constants live in files that are not among the sources: they are arguments.
-/

/-- A handle as `calloc` or the zero-initialised static `singleton` gives it:
flag 0, an entry point of zero bytes, no table buffer. -/
def fresh_table : smbios_table :=
  ⟨0, List.replicate TEP_SIZE 0, none⟩

/-- What `smbios_get_table_memory` leaves behind: its return value and the
handle. -/
structure table_memory_result where
  retval : Int
  table : smbios_table

/-- `smbios_get_table_memory(m)`: the scan for the entry point, then the copy
of the table bytes with `memory_read`.  A `memory_read` that fails returns -1
(the error value of `copy_mmap`); `calloc` is taken to succeed. -/
def smbios_get_table_memory (rd : reader) (ptr_bytes : List Nat)
    (e_block_start f_block_end : Nat) (m : smbios_table) : table_memory_result :=
  if (smbios_get_tep_memory rd ptr_bytes e_block_start f_block_end m false).retval = 0 then
    ⟨-1, (smbios_get_tep_memory rd ptr_bytes e_block_start f_block_end m false).table⟩
  else
    match rd
      (dmi_table_address
        (smbios_get_tep_memory rd ptr_bytes e_block_start f_block_end m false).table.tep)
      (dmi_table_length
        (smbios_get_tep_memory rd ptr_bytes e_block_start f_block_end m false).table.tep) with
    | some bytes =>
      ⟨0, ⟨(smbios_get_tep_memory rd ptr_bytes e_block_start f_block_end m false).table.initialized,
        (smbios_get_tep_memory rd ptr_bytes e_block_start f_block_end m false).table.tep,
        some bytes⟩⟩
    | none =>
      ⟨-1, ⟨(smbios_get_tep_memory rd ptr_bytes e_block_start f_block_end m false).table.initialized,
        (smbios_get_tep_memory rd ptr_bytes e_block_start f_block_end m false).table.tep,
        none⟩⟩

/-- A reader over a backing image whose reads succeed up to address 4096 and
fail beyond. -/
def low_reader (img : Nat → Nat) : reader :=
  fun offset length => if offset + length ≤ 4096 then image_reader img offset length else none

/-- An acquisition strategy: its return value (negative on failure) and the
handle afterwards. -/
abbrev strategy := smbios_table → Int × smbios_table

/-- The memory-scan strategy as a `strategy`. -/
def memory_strategy (rd : reader) (ptr_bytes : List Nat) (e_block_start f_block_end : Nat) :
    strategy :=
  fun m => ((smbios_get_table_memory rd ptr_bytes e_block_start f_block_end m).retval,
    (smbios_get_table_memory rd ptr_bytes e_block_start f_block_end m).table)

/-- A strategy that fails and leaves the handle as it was. -/
def failing_strategy : strategy := fun m => (-1, m)

/-- A strategy that always fails, keeps the flag of the handle, and gives no
table buffer to a handle that has none. -/
def fails_clean (s : strategy) : Prop :=
  ∀ h, (s h).1 < 0 ∧ (s h).2.initialized = h.initialized
    ∧ (h.table = none → (s h).2.table = none)

/-- `init_smbios_struct(m)`: `m->initialized = 1`, then the four strategies in
order until one returns a value `>= 0`. -/
def init_smbios_struct (efi mem wmi firm : strategy) (m : smbios_table) : smbios_table :=
  match efi ⟨1, m.tep, m.table⟩ with
  | (r1, m1) =>
    if r1 ≥ 0 then m1
    else
      match mem m1 with
      | (r2, m2) =>
        if r2 ≥ 0 then m2
        else
          match wmi m2 with
          | (r3, m3) =>
            if r3 ≥ 0 then m3
            else (firm m3).2

/-- `smbios_table_factory(flags)`: the handle it returns, given the state of
the static `singleton`; `defaults` and `get_singleton` stand for the constants
`SMBIOS_DEFAULTS` and `SMBIOS_GET_SINGLETON`. -/
def smbios_table_factory (efi mem wmi firm : strategy)
    (do_smbios_fixups : smbios_table → smbios_table) (defaults get_singleton : Nat)
    (singleton : smbios_table) (flags : Nat) : smbios_table :=
  if (if (if flags = defaults then get_singleton else flags) &&& get_singleton ≠ 0
        then singleton else fresh_table).initialized ≠ 0 then
    (if (if flags = defaults then get_singleton else flags) &&& get_singleton ≠ 0
        then singleton else fresh_table)
  else
    do_smbios_fixups (init_smbios_struct efi mem wmi firm
      (if (if flags = defaults then get_singleton else flags) &&& get_singleton ≠ 0
        then singleton else fresh_table))

/-! ## The visitor walk -/

/-- The loop of `smbios_table_walk`,
`do { fn(s, userdata); s = smbios_table_get_next_struct(table, s); } while (s);`
from `s`: the arguments `fn` is called with, in order (`none` is the null
pointer).  The first argument bounds the number of iterations. -/
def walk_loop (t : smbios_table) : Nat → Option Nat → List (Option Nat)
  | 0, _ => []
  | fuel + 1, s =>
    s :: (match (smbios_table_get_next_struct t s).1 with
          | none => []
          | some s1 => walk_loop t fuel (some s1))

/-- `smbios_table_walk(table, fn, userdata)`: the structures `fn` is called
with, in order. -/
def smbios_table_walk (t : smbios_table) : List (Option Nat) :=
  walk_loop t (t.table_length + 3) (smbios_table_get_next_struct t none).1

/-! ## The memory accessor of `memory_linux.c`

The backing store is a function from file offsets to bytes.  A mapping made
with `MAP_SHARED` is a window onto it, so a `memcpy` through the mapping reads
or writes the store itself; a window keeps the protection it was mapped with
(`PROT_WRITE` or `PROT_READ`), and a `memcpy` the protection does not allow is
a fault of the process.  `fopen` and `mmap` may fail; what they answer, whether
a page mapped with `PROT_WRITE` alone can be read, and the `errno` that
`perror` leaves are arguments (`os_calls`).  The file name and the debug output
are not modelled.  `memory_obj_should_close` lives in the absent `memory_obj.c`
and is an argument (`should_close`).
-/

/-- The range of `u64` and of `size_t`. -/
def U64_MODULUS : Nat := 2 ^ 64

/-- The sentinel `(u64)-1` of `lastMappedOffset`. -/
def INVALID_OFFSET : Nat := 2 ^ 64 - 1

/-- The pointer `lastMapping`: null, `(void *)-1` (what a failed `mmap`
returns), or a window of `mappingSize` bytes of the backing store that starts
at the file offset `base` and was mapped with `PROT_WRITE` (`writable`) or
with `PROT_READ`. -/
inductive mapping where
  | null : mapping
  | failed : mapping
  | window (base : Nat) (writable : Bool) : mapping
  deriving DecidableEq

/-- `struct linux_data` without the file name: `fd` says whether a file is
open. -/
structure linux_data where
  fd : Bool
  mem_errno : Int
  rw : Bool
  lastMapping : mapping
  lastMappedOffset : Nat
  mappingSize : Nat
  deriving DecidableEq

/-- What the operating system and the C library answer: whether `fopen`
succeeds (by mode, true for `"r+b"`), whether `mmap` succeeds (by file offset
and by protection, true for `PROT_WRITE`), the `errno` each leaves when it
fails, whether a page mapped with `PROT_WRITE` alone can be read (it can on
i386 and x86-64), and the `errno` that the `perror` call of the error path
leaves, given the `errno` it is entered with (a library call may change
`errno`). -/
structure os_calls where
  fopen_ok : Bool → Bool
  mmap_ok : Nat → Bool → Bool
  fopen_errno : Int
  mmap_errno : Int
  write_implies_read : Bool
  perror_errno : Int → Int

/-- `closefds(private_data)`. -/
def closefds (d : linux_data) : linux_data :=
  ⟨false, d.mem_errno, d.rw, mapping.null, INVALID_OFFSET, d.mappingSize⟩

/-- `reopen(private_data, rw)`: the accessor afterwards; `fd` is null when
`fopen` fails. -/
def reopen (os : os_calls) (d : linux_data) (rw : Bool) : linux_data :=
  ⟨os.fopen_ok rw, d.mem_errno, rw, mapping.null, INVALID_OFFSET, d.mappingSize⟩

/-- `remap(private_data, offset, rw)`: nothing when the window of `offset` is
the one last mapped, whatever protection it was mapped with, else a new `mmap`
at `offset - offset % mappingSize` with the protection `flags` of this call,
`rw ? PROT_WRITE : PROT_READ`. -/
def remap (os : os_calls) (d : linux_data) (offset : Nat) (rw : Bool) : linux_data :=
  if offset - offset % d.mappingSize = d.lastMappedOffset then d
  else
    ⟨d.fd, d.mem_errno, d.rw,
      if os.mmap_ok (offset - offset % d.mappingSize) rw then
        mapping.window (offset - offset % d.mappingSize) rw
      else mapping.failed,
      offset - offset % d.mappingSize, d.mappingSize⟩

/-- The value of `errno` after `remap`. -/
def remap_errno (os : os_calls) (d : linux_data) (offset : Nat) (rw : Bool) (errno : Int) : Int :=
  if offset - offset % d.mappingSize = d.lastMappedOffset then errno
  else if os.mmap_ok (offset - offset % d.mappingSize) rw then errno
  else os.mmap_errno

/-- The number of bytes one `trycopy` copies: `length`, clipped to the end of
the window (`length + mmoff` is computed in `size_t`). -/
def chunk_length (mappingSize offset length : Nat) : Nat :=
  if (length + offset % mappingSize) % U64_MODULUS > mappingSize then
    mappingSize - offset % mappingSize
  else length

/-- Whether the `memcpy` of `trycopy` can go through a window: a write (`rw`)
needs a window mapped with `PROT_WRITE`; a read needs one mapped with
`PROT_READ`, or one mapped with `PROT_WRITE` where that lets the page be
read. -/
def can_access (os : os_calls) (writable rw : Bool) : Bool :=
  if rw then writable else (!writable || os.write_implies_read)

/-- The store after `memcpy(mapping + mmoff, buffer + bufpos, n)` with
`mapping + mmoff` at the file offset `pos`. -/
def store_write (store : Nat → Nat) (pos : Nat) (buffer : List Nat) (bufpos n : Nat) :
    Nat → Nat :=
  fun a => if pos ≤ a ∧ a < pos + n then buffer.getD (bufpos + (a - pos)) 0 else store a

/-- The `n` bytes of the store from the file offset `pos` on. -/
def store_read (store : Nat → Nat) (pos n : Nat) : List Nat :=
  (List.range n).map (fun k => store (pos + k))

/-- The buffer after `memcpy(buffer + bufpos, ..., n)` of the given bytes. -/
def buffer_write (buffer : List Nat) (bufpos : Nat) (bytes : List Nat) : List Nat :=
  buffer.take bufpos ++ bytes ++ buffer.drop (bufpos + bytes.length)

/-- The variables of the copy loop of `copy_mmap`: the accessor, the store, the
caller's buffer, `bytesCopied`, `errno`, and the chunks copied so far, each as
its file offset and its length. -/
structure copy_state where
  data : linux_data
  store : Nat → Nat
  buffer : List Nat
  bytesCopied : Nat
  errno : Int
  chunks : List (Nat × Nat)

/-- How the copy loop ends: the range is copied, a `goto err_out`, or a fault
of the process: a `memcpy` through a null mapping or through a window whose
protection does not allow it, or the division by zero of
`offset % mappingSize` when `mappingSize` is 0. -/
inductive loop_exit where
  | done : loop_exit
  | err_out : loop_exit
  | fault : loop_exit
  deriving DecidableEq

/-- The copy loop of `copy_mmap`,
`while (bytesCopied < length) { remap(...); if (lastMapping == (void *)-1) goto err_out;
bytesCopied += trycopy(...); }`, with `offset + bytesCopied` computed in `u64`.
The first argument bounds the number of iterations; `length` rounds are enough
(`copy_loop_fuel`). -/
def copy_loop (os : os_calls) (offset length : Nat) (rw : Bool) :
    Nat → copy_state → loop_exit × copy_state
  | 0, st => (loop_exit.done, st)
  | fuel + 1, st =>
    if st.bytesCopied < length then
      if st.data.mappingSize = 0 then (loop_exit.fault, st)
      else
      match (remap os st.data ((offset + st.bytesCopied) % U64_MODULUS) rw).lastMapping with
      | mapping.failed =>
        (loop_exit.err_out,
          ⟨remap os st.data ((offset + st.bytesCopied) % U64_MODULUS) rw, st.store, st.buffer,
            st.bytesCopied,
            remap_errno os st.data ((offset + st.bytesCopied) % U64_MODULUS) rw st.errno,
            st.chunks⟩)
      | mapping.null =>
        (loop_exit.fault,
          ⟨remap os st.data ((offset + st.bytesCopied) % U64_MODULUS) rw, st.store, st.buffer,
            st.bytesCopied,
            remap_errno os st.data ((offset + st.bytesCopied) % U64_MODULUS) rw st.errno,
            st.chunks⟩)
      | mapping.window base writable =>
        if can_access os writable rw then
        copy_loop os offset length rw fuel
          ⟨remap os st.data ((offset + st.bytesCopied) % U64_MODULUS) rw,
            if rw then
              store_write st.store
                (base + ((offset + st.bytesCopied) % U64_MODULUS) % st.data.mappingSize)
                st.buffer st.bytesCopied
                (chunk_length st.data.mappingSize ((offset + st.bytesCopied) % U64_MODULUS)
                  (length - st.bytesCopied))
            else st.store,
            if rw then st.buffer
            else
              buffer_write st.buffer st.bytesCopied
                (store_read st.store
                  (base + ((offset + st.bytesCopied) % U64_MODULUS) % st.data.mappingSize)
                  (chunk_length st.data.mappingSize ((offset + st.bytesCopied) % U64_MODULUS)
                    (length - st.bytesCopied))),
            st.bytesCopied
              + chunk_length st.data.mappingSize ((offset + st.bytesCopied) % U64_MODULUS)
                  (length - st.bytesCopied),
            remap_errno os st.data ((offset + st.bytesCopied) % U64_MODULUS) rw st.errno,
            st.chunks ++
              [(base + ((offset + st.bytesCopied) % U64_MODULUS) % st.data.mappingSize,
                chunk_length st.data.mappingSize ((offset + st.bytesCopied) % U64_MODULUS)
                  (length - st.bytesCopied))]⟩
        else
        (loop_exit.fault,
          ⟨remap os st.data ((offset + st.bytesCopied) % U64_MODULUS) rw, st.store, st.buffer,
            st.bytesCopied,
            remap_errno os st.data ((offset + st.bytesCopied) % U64_MODULUS) rw st.errno,
            st.chunks⟩)
    else (loop_exit.done, st)

/-- What `copy_mmap` leaves behind: its return value, the accessor, the store,
the caller's buffer, `errno`, and the chunks it copied. -/
structure copy_result where
  retval : Int
  data : linux_data
  store : Nat → Nat
  buffer : List Nat
  errno : Int
  chunks : List (Nat × Nat)

/-- The end of `copy_mmap` from the labels `err_out` and `out`: on `err_out`,
`perror("ERR_OUT: ")` runs, then `mem_errno = errno` with the `errno` that
`perror` left, and a `lastMapping` of `(void *)-1` becomes null; then
`closefds` when the close hint is set or the return value is not 0.  A fault
gives no result. -/
def copy_finish (os : os_calls) (should_close : Bool) (exit : loop_exit) (st : copy_state) :
    Option copy_result :=
  match exit with
  | loop_exit.done =>
    some ⟨0, if should_close then closefds st.data else st.data, st.store, st.buffer, st.errno,
      st.chunks⟩
  | loop_exit.err_out =>
    some ⟨-1,
      closefds ⟨st.data.fd, os.perror_errno st.errno, st.data.rw,
        if st.data.lastMapping = mapping.failed then mapping.null else st.data.lastMapping,
        st.data.lastMappedOffset, st.data.mappingSize⟩,
      st.store, st.buffer, os.perror_errno st.errno, st.chunks⟩
  | loop_exit.fault => none

/-- `copy_mmap(this, buffer, offset, length, rw)`: `mem_errno = errno = 0`, a
`reopen` when the file is not open or not open for writing as needed, the copy
loop, and the end from `err_out` or `out`. -/
def copy_mmap (os : os_calls) (should_close : Bool) (d : linux_data) (store : Nat → Nat)
    (buffer : List Nat) (offset length : Nat) (rw : Bool) : Option copy_result :=
  if (rw && !d.rw) || !d.fd then
    if (reopen os ⟨d.fd, 0, d.rw, d.lastMapping, d.lastMappedOffset, d.mappingSize⟩ rw).fd
        = false then
      copy_finish os should_close loop_exit.err_out
        ⟨reopen os ⟨d.fd, 0, d.rw, d.lastMapping, d.lastMappedOffset, d.mappingSize⟩ rw,
          store, buffer, 0, os.fopen_errno, []⟩
    else
      copy_finish os should_close
        (copy_loop os offset length rw length
          ⟨reopen os ⟨d.fd, 0, d.rw, d.lastMapping, d.lastMappedOffset, d.mappingSize⟩ rw,
            store, buffer, 0, 0, []⟩).1
        (copy_loop os offset length rw length
          ⟨reopen os ⟨d.fd, 0, d.rw, d.lastMapping, d.lastMappedOffset, d.mappingSize⟩ rw,
            store, buffer, 0, 0, []⟩).2
  else
    copy_finish os should_close
      (copy_loop os offset length rw length
        ⟨⟨d.fd, 0, d.rw, d.lastMapping, d.lastMappedOffset, d.mappingSize⟩,
          store, buffer, 0, 0, []⟩).1
      (copy_loop os offset length rw length
        ⟨⟨d.fd, 0, d.rw, d.lastMapping, d.lastMappedOffset, d.mappingSize⟩,
          store, buffer, 0, 0, []⟩).2

/-- The accessor as `init_mem_struct_filename` makes it, with the window size
`mappingSize` as an argument: no file open, no mapping. -/
def init_linux_data (mappingSize : Nat) : linux_data :=
  ⟨false, 0, false, mapping.null, INVALID_OFFSET, mappingSize⟩

/-- The state of the accessor between two calls: a window is the one of
`lastMappedOffset`, and without mapping `lastMappedOffset` is the sentinel. -/
def accessor_ok (d : linux_data) : Prop :=
  match d.lastMapping with
  | mapping.window base _ => d.lastMappedOffset = base
  | mapping.null => d.lastMappedOffset = INVALID_OFFSET
  | mapping.failed => False

/-- The window the accessor holds, if it holds one, has a protection that
allows a copy in the direction `rw`. -/
def window_fits (os : os_calls) (rw : Bool) (d : linux_data) : Prop :=
  match d.lastMapping with
  | mapping.window _ writable => can_access os writable rw = true
  | _ => True

/-- The chunks of the spec for a range of `remaining` bytes at `offset` with
windows of `W` bytes: each chunk is `min(remaining, W - offset % W)` bytes and
the next one starts where it ends.  The first argument bounds the number of
chunks. -/
def spec_chunks (W : Nat) : Nat → Nat → Nat → List (Nat × Nat)
  | 0, _, _ => []
  | fuel + 1, offset, remaining =>
    if remaining = 0 then []
    else
      (offset, min remaining (W - offset % W))
        :: spec_chunks W fuel (offset + min remaining (W - offset % W))
            (remaining - min remaining (W - offset % W))

/-- An operating system whose `fopen` and `mmap` always succeed; a page mapped
with `PROT_WRITE` can be read, and `perror` leaves `errno` as it is. -/
def os_ok : os_calls := ⟨fun _ => true, fun _ _ => true, 2, 12, true, fun e => e⟩

/-- A backing store for the examples: the byte at `a` is `a % 7`. -/
def sample_store : Nat → Nat := fun a => a % 7

/-- An operating system whose `fopen` succeeds and whose `mmap` fails with
`ENOMEM` (12) at the file offset `base` only; `perror` leaves the `errno`
`after_perror`. -/
def os_fails_at (base : Nat) (after_perror : Int) : os_calls :=
  ⟨fun _ => true, fun b _ => b != base, 2, 12, true, fun _ => after_perror⟩

/-! ## Examples for the table length and the entry point length -/

/-- A modern entry point like `sample_tep` whose embedded legacy entry point
declares a table of 2 bytes at address `0x60`, with one structure; its checksum
byte is `0x5e`. -/
def short_table_tep : List Nat :=
  [95, 83, 77, 95, 0x5e, 0x1f, 2, 4, 0, 0, 0, 0, 0, 0, 0, 0,
   95, 68, 77, 73, 95, 0, 0x02, 0x00, 0x60, 0x00, 0x00, 0x00, 1, 0, 0x24, 0]

/-- A backing image that holds `short_table_tep` at address 48, the bytes 1 and
4 at addresses 96 and 97, and zero bytes elsewhere. -/
def short_table_image : Nat → Nat :=
  fun a => if 96 ≤ a then [1, 4].getD (a - 96) 0
    else if 48 ≤ a then short_table_tep.getD (a - 48) 0 else 0

/-- A modern entry point whose Entry Point Length field is `0x0f`: the first 15
bytes sum to 0 modulo 256 (checksum byte `0x8d`), and the embedded legacy entry
point of `sample_tep` follows. -/
def short_eps_tep : List Nat :=
  [95, 83, 77, 95, 0x8d, 0x0f, 2, 4, 0, 0, 0, 0, 0, 0, 0, 0,
   95, 68, 77, 73, 95, 0, 0x23, 0x01, 0x00, 0x10, 0x0e, 0x00, 5, 0, 0x24, 0]

/-- A backing image that holds `short_eps_tep` at address 48 and zero bytes
elsewhere. -/
def short_eps_image : Nat → Nat :=
  fun a => if 48 ≤ a then short_eps_tep.getD (a - 48) 0 else 0

/-! ## Field access: `smbios_struct_get_data` -/

theorem read_bytes_length (mem : List Nat) (start n : Nat) :
    (read_bytes mem start n).length = n := by
  simp [read_bytes]

theorem memcpy_take (dest src : List Nat) :
    (memcpy dest src).take src.length = src := by
  simp [memcpy]

theorem memcpy_drop (dest src : List Nat) :
    (memcpy dest src).drop src.length = dest.drop src.length := by
  simp [memcpy]

/-- C1: `smbios_struct_get_data` returns 0 exactly when `offset + len` does not
exceed the formatted length `L` (the second byte of the structure, a byte) in
exact arithmetic, for every `u8` offset and every `size_t` length; on success the first `len` bytes of the destination are the bytes
`offset .. offset + len - 1` of the structure and the rest of the destination is
as before; otherwise it returns -1 and the destination is unchanged. -/
theorem get_data_contract (mem : List Nat) (s : Nat) (dest : List Nat) (offset len : Nat)
    (hL : smbios_struct_get_length mem s < 256)
    (hoff : offset < 256) (hlen : len < SIZE_MODULUS) :
    ((smbios_struct_get_data mem s dest offset len).retval = 0
        ↔ offset + len ≤ smbios_struct_get_length mem s)
    ∧ ((smbios_struct_get_data mem s dest offset len).retval = 0 →
        (smbios_struct_get_data mem s dest offset len).dest.take len
            = read_bytes mem (s + offset) len
        ∧ (smbios_struct_get_data mem s dest offset len).dest.drop len = dest.drop len)
    ∧ ((smbios_struct_get_data mem s dest offset len).retval ≠ 0 →
        (smbios_struct_get_data mem s dest offset len).retval = -1
        ∧ (smbios_struct_get_data mem s dest offset len).dest = dest) := by
  have hmod : SIZE_MODULUS = 18446744073709551616 := by norm_num [SIZE_MODULUS]
  rw [hmod] at hlen
  unfold smbios_struct_get_data
  rw [hmod]
  generalize smbios_struct_get_length mem s = L at hL ⊢
  have key : (memcpy dest (read_bytes mem (s + offset) len)).take len
      = read_bytes mem (s + offset) len := by
    have := memcpy_take dest (read_bytes mem (s + offset) len)
    rwa [read_bytes_length] at this
  have key2 : (memcpy dest (read_bytes mem (s + offset) len)).drop len = dest.drop len := by
    have := memcpy_drop dest (read_bytes mem (s + offset) len)
    rwa [read_bytes_length] at this
  split_ifs with h1 h2 h3
  · refine ⟨⟨by simp, by omega⟩, by simp, by simp⟩
  · refine ⟨⟨by simp, by omega⟩, by simp, by simp⟩
  · refine ⟨⟨by simp, by omega⟩, by simp, by simp⟩
  · refine ⟨⟨fun _ => by omega, fun _ => rfl⟩, fun _ => ⟨key, key2⟩, by simp⟩

/-- C1 at a structure of formatted length 6: bytes 2 to 5 are copied. -/
theorem get_data_contract_witness :
    (smbios_struct_get_length [1, 6, 7, 8, 9, 10, 0, 0] 0 < 256 ∧ 2 < 256 ∧ 4 < SIZE_MODULUS) ∧
    (((smbios_struct_get_data [1, 6, 7, 8, 9, 10, 0, 0] 0 [0, 0, 0, 0, 99] 2 4).retval = 0
        ↔ 2 + 4 ≤ smbios_struct_get_length [1, 6, 7, 8, 9, 10, 0, 0] 0)
    ∧ ((smbios_struct_get_data [1, 6, 7, 8, 9, 10, 0, 0] 0 [0, 0, 0, 0, 99] 2 4).retval = 0 →
        (smbios_struct_get_data [1, 6, 7, 8, 9, 10, 0, 0] 0 [0, 0, 0, 0, 99] 2 4).dest.take 4
            = read_bytes [1, 6, 7, 8, 9, 10, 0, 0] (0 + 2) 4
        ∧ (smbios_struct_get_data [1, 6, 7, 8, 9, 10, 0, 0] 0 [0, 0, 0, 0, 99] 2 4).dest.drop 4
            = [0, 0, 0, 0, 99].drop 4)
    ∧ ((smbios_struct_get_data [1, 6, 7, 8, 9, 10, 0, 0] 0 [0, 0, 0, 0, 99] 2 4).retval ≠ 0 →
        (smbios_struct_get_data [1, 6, 7, 8, 9, 10, 0, 0] 0 [0, 0, 0, 0, 99] 2 4).retval = -1
        ∧ (smbios_struct_get_data [1, 6, 7, 8, 9, 10, 0, 0] 0 [0, 0, 0, 0, 99] 2 4).dest
            = [0, 0, 0, 0, 99])) :=
  ⟨⟨by decide, by decide, by norm_num [SIZE_MODULUS]⟩,
    get_data_contract [1, 6, 7, 8, 9, 10, 0, 0] 0 [0, 0, 0, 0, 99] 2 4 (by decide) (by decide)
      (by norm_num [SIZE_MODULUS])⟩

/-! ## The string-skipping loop -/

/-- The result of the loop does not depend on the bound once the bound covers
the distance to `table_length - 3`. -/
theorem skip_strings_fuel (mem : List Nat) (tl : Nat) :
    ∀ (f1 f2 data : Nat), tl ≤ f1 + data + 3 → tl ≤ f2 + data + 3 →
      skip_strings mem tl f1 data = skip_strings mem tl f2 data := by
  intro f1
  induction f1 with
  | zero =>
    intro f2 data h1 _
    cases f2 with
    | zero => rfl
    | succ f2 =>
      have hc : ¬ ((data : Int) < (tl : Int) - 3) := by omega
      simp [skip_strings, hc]
  | succ f1 ih =>
    intro f2 data h1 h2
    cases f2 with
    | zero =>
      have hc : ¬ ((data : Int) < (tl : Int) - 3) := by omega
      simp [skip_strings, hc]
    | succ f2 =>
      simp only [skip_strings]
      rw [ih f2 (data + 1) (by omega) (by omega)]

/-- The loop as the C code runs it: one test of the condition, then either one
more round from `data + 1` or the exit; the bound `tl` is never the reason to
stop. -/
theorem skip_strings_step (mem : List Nat) (tl data : Nat) :
    skip_strings mem tl tl data =
      if (data : Int) < (tl : Int) - 3 then
        if peek mem data ≠ 0 then
          ((skip_strings mem tl tl (data + 1)).1,
            data :: (skip_strings mem tl tl (data + 1)).2)
        else if peek mem (data + 1) ≠ 0 then
          ((skip_strings mem tl tl (data + 1)).1,
            data :: (data + 1) :: (skip_strings mem tl tl (data + 1)).2)
        else (data, [data, data + 1])
      else (data, []) := by
  cases tl with
  | zero =>
    have hc : ¬ ((data : Int) < ((0 : Nat) : Int) - 3) := by omega
    rw [if_neg hc]
    rfl
  | succ n =>
    rw [skip_strings_fuel mem (n + 1) (n + 1) n (data + 1) (by omega) (by omega)]
    simp only [skip_strings]

theorem skip_strings_ge (mem : List Nat) (tl : Nat) :
    ∀ (fuel data : Nat), data ≤ (skip_strings mem tl fuel data).1 := by
  intro fuel
  induction fuel with
  | zero => intro data; simp [skip_strings]
  | succ f ih =>
    intro data
    have := ih (data + 1)
    simp only [skip_strings]
    split_ifs <;> simp <;> omega

/-- Every read of the loop is the read of `data[0]` or of `data[1]` for a
`data` whose offset is below `table_length - 3`. -/
theorem skip_strings_reads (mem : List Nat) (tl : Nat) :
    ∀ (fuel data : Nat), ∀ r ∈ (skip_strings mem tl fuel data).2,
      ∃ d, data ≤ d ∧ (d : Int) < (tl : Int) - 3 ∧ (r = d ∨ r = d + 1) := by
  intro fuel
  induction fuel with
  | zero => intro data r hr; simp [skip_strings] at hr
  | succ f ih =>
    intro data r hr
    have hrec : r ∈ (skip_strings mem tl f (data + 1)).2 →
        ∃ d, data ≤ d ∧ (d : Int) < (tl : Int) - 3 ∧ (r = d ∨ r = d + 1) := by
      intro hm
      obtain ⟨d, hd1, hd2, hd3⟩ := ih (data + 1) r hm
      exact ⟨d, by omega, hd2, hd3⟩
    simp only [skip_strings] at hr
    split_ifs at hr with h1 h2 h3
    · simp only [List.mem_cons] at hr
      rcases hr with rfl | hr
      · exact ⟨r, le_refl _, h1, Or.inl rfl⟩
      · exact hrec hr
    · simp only [List.mem_cons] at hr
      rcases hr with rfl | rfl | hr
      · exact ⟨r, le_refl _, h1, Or.inl rfl⟩
      · exact ⟨data, le_refl _, h1, Or.inr rfl⟩
      · exact hrec hr
    · simp only [List.mem_cons, List.mem_singleton] at hr
      rcases hr with rfl | rfl | hr
      · exact ⟨r, le_refl _, h1, Or.inl rfl⟩
      · exact ⟨data, le_refl _, h1, Or.inr rfl⟩
      · simp at hr
    · simp at hr

/-- The loop reads nothing when it starts at or past `table_length - 3`. -/
theorem skip_strings_beyond (mem : List Nat) (tl fuel data : Nat)
    (h : ¬ ((data : Int) < (tl : Int) - 3)) :
    skip_strings mem tl fuel data = (data, []) := by
  cases fuel with
  | zero => rfl
  | succ f => simp [skip_strings, h]

/-- A structure that follows another one starts at least 2 bytes after it and
has its 4-byte header inside the declared table length. -/
theorem next_struct_bounds (t : smbios_table) (o o' : Nat)
    (h : (smbios_table_get_next_struct t (some o)).1 = some o') :
    o + 2 ≤ o' ∧ o' + 4 ≤ t.table_length := by
  unfold smbios_table_get_next_struct at h
  cases ht : t.table with
  | none => simp [ht] at h
  | some mem =>
    simp only [ht] at h
    have hge := skip_strings_ge mem t.table_length t.table_length
      (o + smbios_struct_get_length mem o)
    split_ifs at h with h1 h2
    all_goals simp only [Option.some.injEq, reduceCtorEq] at h
    constructor <;> omega

theorem next_struct_first (t : smbios_table) (o' : Nat)
    (h : (smbios_table_get_next_struct t none).1 = some o') : o' = 0 := by
  unfold smbios_table_get_next_struct at h
  cases ht : t.table with
  | none => simp [ht] at h
  | some mem => simp [ht] at h; omega

theorem seq_after_none_succ (t : smbios_table) (cur : Option Nat) (k : Nat)
    (h : seq_after t cur k = none) : seq_after t cur (k + 1) = none := by
  simp [seq_after, h]

theorem seq_after_succ (t : smbios_table) (cur : Option Nat) (k s : Nat)
    (h : seq_after t cur k = some s) :
    seq_after t cur (k + 1) = (smbios_table_get_next_struct t (some s)).1 := by
  simp [seq_after, h]

/-- The structure number `k ≥ 1` of the iteration starts at offset `2 * k` or
later and has its header inside the declared table length. -/
theorem nth_struct_bounds (t : smbios_table) :
    ∀ (k o : Nat), nth_struct t k = some o → 1 ≤ k →
      2 * k ≤ o ∧ o + 4 ≤ t.table_length := by
  intro k
  induction k with
  | zero => intro o _ hk; omega
  | succ k ih =>
    intro o h _
    unfold nth_struct at h ih
    cases hp : seq_after t none k with
    | none => rw [seq_after_none_succ t none k hp] at h; simp at h
    | some s =>
      rw [seq_after_succ t none k s hp] at h
      have hb := next_struct_bounds t s o h
      cases k with
      | zero =>
        have h0 : s = 0 := next_struct_first t s (by simpa [seq_after] using hp)
        omega
      | succ j =>
        have := ih s hp (by omega)
        omega

/-! ## Termination of the iteration (C3) and the reads of one step (C4) -/

/-- C3: for every handle, whatever its buffer holds and whatever table length
it declares, the iteration from an absent `cur` ends: a structure that follows
another one starts at least 2 bytes after it, every structure after the first
one has number `k` with `2 * k + 4 ≤ table_length`, the call number
`table_length / 2 + 1` returns `none`, and after `none` the iteration stays
at `none`. -/
theorem iteration_terminates (t : smbios_table) :
    (∀ k o o', nth_struct t k = some o → nth_struct t (k + 1) = some o' → o + 2 ≤ o')
    ∧ (∀ k o, nth_struct t k = some o → k = 0 ∨ 2 * k + 4 ≤ t.table_length)
    ∧ nth_struct t (t.table_length / 2 + 1) = none
    ∧ (∀ k j, nth_struct t k = none → k ≤ j → nth_struct t j = none) := by
  refine ⟨?_, ?_, ?_, ?_⟩
  · intro k o o' h1 h2
    unfold nth_struct at h1 h2
    rw [seq_after_succ t none k o h1] at h2
    exact (next_struct_bounds t o o' h2).1
  · intro k o h
    rcases Nat.eq_zero_or_pos k with hk | hk
    · exact Or.inl hk
    · have := nth_struct_bounds t k o h hk
      exact Or.inr (by omega)
  · cases h : nth_struct t (t.table_length / 2 + 1) with
    | none => rfl
    | some o =>
      have := nth_struct_bounds t _ o h (by omega)
      omega
  · intro k j h hkj
    induction j with
    | zero =>
      have : k = 0 := by omega
      subst this; exact h
    | succ j ih =>
      rcases Nat.eq_or_lt_of_le hkj with heq | hlt
      · subst heq; exact h
      · exact seq_after_none_succ t none j (ih (by omega))

/-- C4: when the header of `cur` lies inside the declared table length, every
offset `smbios_table_get_next_struct` reads is below `table_length`; each read
of the terminator scan is `data[0]` or `data[1]` for a `data` whose offset is
below `table_length - 3`; and when `cur` plus its formatted length already lies
at or past `table_length - 3`, the scan reads nothing at all. -/
theorem next_struct_reads_in_table (t : smbios_table) (mem : List Nat) (o : Nat)
    (ht : t.table = some mem) (ho : o + 4 ≤ t.table_length) :
    (∀ r ∈ (smbios_table_get_next_struct t (some o)).2, r < t.table_length)
    ∧ (∀ r ∈ (skip_strings mem t.table_length t.table_length
          (o + smbios_struct_get_length mem o)).2,
        ∃ d : Nat, (d : Int) < (t.table_length : Int) - 3 ∧ (r = d ∨ r = d + 1))
    ∧ (¬ ((o + smbios_struct_get_length mem o : Nat) : Int) < (t.table_length : Int) - 3 →
        ∀ r ∈ (smbios_table_get_next_struct t (some o)).2, r = o ∨ r = o + 1) := by
  have hscan := skip_strings_reads mem t.table_length t.table_length
    (o + smbios_struct_get_length mem o)
  refine ⟨?_, ?_, ?_⟩
  · intro r hr
    unfold smbios_table_get_next_struct at hr
    simp only [ht] at hr
    split_ifs at hr with h1 h2
    all_goals simp only [List.mem_cons, List.mem_singleton] at hr
    · rcases hr with rfl | hr
      · omega
      · simp at hr
    · rcases hr with rfl | rfl | hr
      · omega
      · omega
      · obtain ⟨d, _, hd, hd'⟩ := hscan r hr
        omega
    · rcases hr with rfl | rfl | hr
      · omega
      · omega
      · obtain ⟨d, _, hd, hd'⟩ := hscan r hr
        omega
  · intro r hr
    obtain ⟨d, _, hd, hd'⟩ := hscan r hr
    exact ⟨d, hd, hd'⟩
  · intro hb r hr
    unfold smbios_table_get_next_struct at hr
    simp only [ht] at hr
    rw [skip_strings_beyond mem _ _ _ hb] at hr
    split_ifs at hr with h1 h2
    all_goals simp at hr
    all_goals omega

/-- C4 on a 6-byte table whose only structure declares a formatted length of
200: the two header bytes are read and nothing else. -/
theorem next_struct_reads_in_table_witness :
    (smbios_table_get_next_struct (table_of [1, 200, 0, 0, 5, 6] 6) (some 0)).2 = [0, 1]
    ∧ (∀ r ∈ (smbios_table_get_next_struct (table_of [1, 200, 0, 0, 5, 6] 6) (some 0)).2,
        r < (table_of [1, 200, 0, 0, 5, 6] 6).table_length) :=
  ⟨by decide,
    (next_struct_reads_in_table (table_of [1, 200, 0, 0, 5, 6] 6) [1, 200, 0, 0, 5, 6] 0 rfl
      (by decide)).1⟩

/-! ## Strings: `smbios_struct_get_string_number` -/

theorem peek_drop (mem : List Nat) (p i : Nat) :
    peek mem (p + i) = (mem.drop p).getD i 0 := by
  simp [peek, List.getElem?_drop]

theorem peek_of_drop_cons (mem : List Nat) (p b : Nat) (l : List Nat)
    (h : mem.drop p = b :: l) : peek mem p = b := by
  have := peek_drop mem p 0
  simp only [Nat.add_zero] at this
  rw [this, h]; rfl

theorem drop_succ_of_drop_cons (mem : List Nat) (p b : Nat) (l : List Nat)
    (h : mem.drop p = b :: l) : mem.drop (p + 1) = l := by
  rw [← List.drop_drop, h]; rfl

theorem drop_add_of_drop_append (mem : List Nat) (p : Nat) (a l : List Nat)
    (h : mem.drop p = a ++ l) : mem.drop (p + a.length) = l := by
  rw [← List.drop_drop, h, List.drop_left]

/-- A run of non-zero bytes followed by a zero byte is a C string. -/
theorem takeWhile_string (a r : List Nat) (ha : ∀ b ∈ a, b ≠ 0) :
    (a ++ 0 :: r).takeWhile (fun b => b != 0) = a := by
  rw [List.takeWhile_append_of_pos (by simpa using ha)]
  simp

theorem strlen_of_drop (mem : List Nat) (p : Nat) (a r : List Nat)
    (h : mem.drop p = a ++ 0 :: r) (ha : ∀ b ∈ a, b ≠ 0) : strlen mem p = a.length := by
  unfold strlen
  rw [h, takeWhile_string a r ha]

theorem cstring_of_drop (mem : List Nat) (p : Nat) (a r : List Nat)
    (h : mem.drop p = a ++ 0 :: r) (ha : ∀ b ∈ a, b ≠ 0) : cstring mem p = a := by
  unfold cstring
  rw [h, takeWhile_string a r ha]

theorem string_table_cons (a : List Nat) (strs : List (List Nat)) :
    string_table (a :: strs) = a ++ 0 :: string_table strs := by
  simp [string_table]

theorem strings_ok_cons (a : List Nat) (strs : List (List Nat)) (h : strings_ok (a :: strs)) :
    (a ≠ [] ∧ ∀ b ∈ a, b ≠ 0) ∧ strings_ok strs := by
  unfold strings_ok at *
  exact ⟨h a (by simp), fun s hs => h s (by simp [hs])⟩

/-- The first byte of a string table with at least one string is not zero. -/
theorem string_table_head (strs : List (List Nat)) (hok : strings_ok strs) (hne : strs ≠ []) :
    ∃ b l, b ≠ 0 ∧ string_table strs = b :: l := by
  cases strs with
  | nil => exact absurd rfl hne
  | cons a strs =>
    obtain ⟨⟨ha, hz⟩, _⟩ := strings_ok_cons a strs hok
    cases a with
    | nil => exact absurd rfl ha
    | cons b a =>
      exact ⟨b, a ++ 0 :: string_table strs, hz b (by simp), by
        rw [string_table_cons]; rfl⟩

/-- The loop of `smbios_struct_get_string_number` on a string table of `k`
strings: for `1 ≤ i ≤ k` it stops on the `i`-th string. -/
theorem string_loop_found (mem : List Nat) (rest : List Nat) :
    ∀ (strs : List (List Nat)) (p i : Nat), strings_ok strs →
      mem.drop p = string_table strs ++ rest → 1 ≤ i → i ≤ strs.length →
      ∃ q, (string_loop mem i p).1 = some q ∧ strs[i - 1]? = some (cstring mem q)
        ∧ q = p + ((strs.take (i - 1)).flatMap (fun s => s ++ [0])).length := by
  intro strs
  induction strs with
  | nil => intro p i _ _ h1 h2; simp at h2; omega
  | cons a strs ih =>
    intro p i hok hmem h1 h2
    obtain ⟨⟨_, hz⟩, hok'⟩ := strings_ok_cons a strs hok
    rw [string_table_cons, List.append_assoc, List.cons_append] at hmem
    match i, h1, h2 with
    | 1, _, _ =>
      refine ⟨p, rfl, ?_, by simp⟩
      simp [cstring_of_drop mem p a _ hmem hz]
    | j + 2, _, h2 =>
      have hlen : strlen mem p = a.length := strlen_of_drop mem p a _ hmem hz
      have hdrop : mem.drop (p + a.length + 1) = string_table strs ++ rest := by
        have h1 := drop_add_of_drop_append mem p a _ hmem
        exact drop_succ_of_drop_cons mem _ 0 _ h1
      have hne : strs ≠ [] := by
        intro h; subst h; simp at h2
      obtain ⟨b, l, hb, hbl⟩ := string_table_head strs hok' hne
      have hpeek : peek mem (p + a.length + 1) = b := by
        apply peek_of_drop_cons mem _ b (l ++ rest)
        rw [hdrop, hbl]; rfl
      obtain ⟨q, hq1, hq2, hq3⟩ := ih (p + a.length + 1) (j + 1) hok' hdrop (by omega)
        (by simpa using h2)
      refine ⟨q, ?_, ?_, ?_⟩
      · simp only [string_loop, hlen, hpeek, hb, if_false]
        exact hq1
      · simpa using hq2
      · rw [hq3]
        simp [List.flatMap_cons]
        omega

/-- The loop of `smbios_struct_get_string_number` on a string table of `k ≥ 1`
strings: for `i > k` it meets the closing zero byte and gives up, and whatever
`i` is, it reads inside the string table only. -/
theorem string_loop_table (mem : List Nat) (rest : List Nat) :
    ∀ (strs : List (List Nat)) (a : List Nat) (p i : Nat), strings_ok (a :: strs) →
      mem.drop p = string_table (a :: strs) ++ rest →
      ((a :: strs).length < i → (string_loop mem i p).1 = none)
      ∧ ∀ r ∈ (string_loop mem i p).2, p ≤ r ∧ r < p + (string_table (a :: strs)).length := by
  intro strs
  induction strs with
  | nil =>
    intro a p i hok hmem
    obtain ⟨⟨_, hz⟩, _⟩ := strings_ok_cons a [] hok
    have hmem' : mem.drop p = a ++ 0 :: (0 :: rest) := by
      rw [hmem]; simp [string_table]
    have hlen : strlen mem p = a.length := strlen_of_drop mem p a _ hmem' hz
    have hpeek : peek mem (p + a.length + 1) = 0 := by
      apply peek_of_drop_cons mem _ 0 rest
      have h1 := drop_add_of_drop_append mem p a _ hmem'
      exact drop_succ_of_drop_cons mem _ 0 _ h1
    have hsz : (string_table [a]).length = a.length + 2 := by simp [string_table]
    match i with
    | 0 => simp [string_loop]
    | 1 => simp [string_loop]
    | j + 2 =>
      simp only [string_loop, hlen, hpeek, if_true, hsz]
      refine ⟨fun _ => trivial, ?_⟩
      intro r hr
      simp only [span, List.mem_append, List.mem_map, List.mem_range, List.mem_singleton] at hr
      rcases hr with ⟨x, hx, rfl⟩ | rfl <;> omega
  | cons b strs ih =>
    intro a p i hok hmem
    obtain ⟨⟨_, hz⟩, hok'⟩ := strings_ok_cons a (b :: strs) hok
    have hmem' : mem.drop p = a ++ 0 :: (string_table (b :: strs) ++ rest) := by
      rw [hmem, string_table_cons]; simp
    have hlen : strlen mem p = a.length := strlen_of_drop mem p a _ hmem' hz
    have hdrop : mem.drop (p + a.length + 1) = string_table (b :: strs) ++ rest := by
      have h1 := drop_add_of_drop_append mem p a _ hmem'
      exact drop_succ_of_drop_cons mem _ 0 _ h1
    obtain ⟨c, l, hc, hcl⟩ := string_table_head (b :: strs) hok' (by simp)
    have hpeek : peek mem (p + a.length + 1) = c := by
      apply peek_of_drop_cons mem _ c (l ++ rest)
      rw [hdrop, hcl]; rfl
    have hsz : (string_table (a :: b :: strs)).length
        = a.length + 1 + (string_table (b :: strs)).length := by
      rw [string_table_cons a]; simp; omega
    match i with
    | 0 => simp [string_loop]
    | 1 => simp [string_loop]
    | j + 2 =>
      obtain ⟨ih1, ih2⟩ := ih b (p + a.length + 1) (j + 1) hok' hdrop
      simp only [string_loop, hlen, hpeek, hc, if_false, hsz]
      refine ⟨fun h => ih1 (by simp at h ⊢; omega), ?_⟩
      intro r hr
      simp only [span, List.mem_append, List.mem_map, List.mem_range, List.mem_singleton] at hr
      have hpos : 0 < (string_table (b :: strs)).length := by
        rw [hcl]; simp
      rcases hr with (⟨x, hx, rfl⟩ | rfl) | hr
      · omega
      · omega
      · have := ih2 r hr
        omega

/-- The loop of `smbios_struct_get_string_number` where the formatted section
is followed by two zero bytes (no string): every index from 2 on gives `none`,
and the loop reads those two bytes only. -/
theorem string_loop_empty (mem : List Nat) (rest : List Nat) (p i : Nat)
    (hmem : mem.drop p = 0 :: 0 :: rest) :
    (2 ≤ i → (string_loop mem i p).1 = none)
    ∧ ∀ r ∈ (string_loop mem i p).2, p ≤ r ∧ r < p + 2 := by
  have hlen : strlen mem p = 0 := strlen_of_drop mem p [] _ hmem (by simp)
  have hpeek : peek mem (p + 1) = 0 :=
    peek_of_drop_cons mem _ 0 rest (drop_succ_of_drop_cons mem p 0 _ hmem)
  match i with
  | 0 => simp [string_loop]
  | 1 => simp [string_loop]
  | j + 2 =>
    simp only [string_loop, hlen, hpeek, if_true, Nat.add_zero]
    refine ⟨fun _ => trivial, ?_⟩
    intro r hr
    simp only [span, List.mem_append, List.mem_map, List.mem_range, List.mem_singleton] at hr
    rcases hr with ⟨x, hx, rfl⟩ | rfl <;> omega

/-- On the bytes that follow the formatted section of a well-formed record
(`k` strings closed by an extra zero byte, or two zero bytes when `k = 0`),
the loop gives `none` for every index above `k` other than index 1 of an empty
string table, and it reads inside those bytes only. -/
theorem string_loop_encoded (mem : List Nat) (rest : List Nat) (strs : List (List Nat))
    (p i : Nat) (hok : strings_ok strs) (hmem : mem.drop p = encode_strings strs ++ rest) :
    (strs.length < i → 2 ≤ i → (string_loop mem i p).1 = none)
    ∧ ∀ r ∈ (string_loop mem i p).2, p ≤ r ∧ r < p + (encode_strings strs).length := by
  cases strs with
  | nil =>
    have := string_loop_empty mem rest p i (by simpa [encode_strings] using hmem)
    exact ⟨fun _ h => this.1 h, by simpa [encode_strings] using this.2⟩
  | cons a strs =>
    have hE : encode_strings (a :: strs) = string_table (a :: strs) := by simp [encode_strings]
    rw [hE] at hmem ⊢
    have := string_loop_table mem rest strs a p i hok hmem
    exact ⟨fun h _ => this.1 h, this.2⟩

/-- C5: when the formatted section of the structure is followed by `k ≥ 1`
non-empty strings, each closed by a zero byte, and one more zero byte, then for
`1 ≤ i ≤ k` `smbios_struct_get_string_number(s, i)` returns a pointer to a C
string that is the `i`-th of them; the pointer lies after the first `i - 1`
strings and their terminators. -/
theorem get_string_number_found (mem : List Nat) (s : Nat) (strs : List (List Nat))
    (rest : List Nat) (i : Nat) (hok : strings_ok strs)
    (hmem : mem.drop (s + smbios_struct_get_length mem s) = string_table strs ++ rest)
    (h1 : 1 ≤ i) (h2 : i ≤ strs.length) :
    ∃ q, (smbios_struct_get_string_number mem s i).1 = some q
      ∧ strs[i - 1]? = some (cstring mem q)
      ∧ q = s + smbios_struct_get_length mem s
          + ((strs.take (i - 1)).flatMap (fun a => a ++ [0])).length := by
  obtain ⟨q, hq1, hq2, hq3⟩ := string_loop_found mem rest strs _ i hok hmem h1 h2
  refine ⟨q, ?_, hq2, hq3⟩
  unfold smbios_struct_get_string_number
  rw [if_neg (by omega)]
  exact hq1

/-- C5 on the spec's example: index 1 gives "Dell Inc." and index 2 gives
"System". -/
theorem get_string_number_found_witness :
    ((smbios_struct_get_string_number dell_struct 0 1).1 = some 4
      ∧ cstring dell_struct 4 = [68, 101, 108, 108, 32, 73, 110, 99, 46])
    ∧ ∃ q, (smbios_struct_get_string_number dell_struct 0 2).1 = some q
      ∧ [[68, 101, 108, 108, 32, 73, 110, 99, 46], [83, 121, 115, 116, 101, 109]][2 - 1]?
          = some (cstring dell_struct q)
      ∧ q = 0 + smbios_struct_get_length dell_struct 0
          + (([[68, 101, 108, 108, 32, 73, 110, 99, 46], [83, 121, 115, 116, 101, 109]].take
              (2 - 1)).flatMap (fun a => a ++ [0])).length :=
  ⟨by decide,
    get_string_number_found dell_struct 0
      [[68, 101, 108, 108, 32, 73, 110, 99, 46], [83, 121, 115, 116, 101, 109]] [] 2
      (by decide) (by decide) (by decide) (by decide)⟩

/-- C6, the failing input: a structure with no string (its formatted section
is followed by two zero bytes) and index 1.  The code returns a pointer to the
first of the two zero bytes, an empty string, not the null pointer; for index 2
the same structure gives the null pointer. -/
theorem get_string_number_empty_table :
    (smbios_struct_get_string_number [1, 4, 0, 0, 0, 0] 0 1).1 = some 4
    ∧ peek [1, 4, 0, 0, 0, 0] 4 = 0
    ∧ cstring [1, 4, 0, 0, 0, 0] 4 = []
    ∧ (smbios_struct_get_string_number [1, 4, 0, 0, 0, 0] 0 2).1 = none := by
  decide

/-- C7: `smbios_struct_get_string_number(s, 0)` gives the null pointer and
reads nothing; hence `smbios_struct_get_string_from_offset` gives the null
pointer when the byte at `offset` is 0 or `offset` is not below the formatted
length. -/
theorem get_string_number_zero (mem : List Nat) (s offset : Nat) :
    smbios_struct_get_string_number mem s 0 = (none, [])
    ∧ ((peek mem (s + offset) = 0 ∨ ¬ offset < smbios_struct_get_length mem s) →
        (smbios_struct_get_string_from_offset mem s offset).1 = none) := by
  refine ⟨rfl, ?_⟩
  intro h
  have hmod : SIZE_MODULUS = 18446744073709551616 := by norm_num [SIZE_MODULUS]
  unfold smbios_struct_get_string_from_offset smbios_struct_get_data
  rw [hmod]
  generalize smbios_struct_get_length mem s = L at h ⊢
  split_ifs with h1 h2 h3 h4 h5 h6 h7
  all_goals first
    | rfl
    | (exfalso; simp at *; done)
    | skip
  have hz : peek mem (s + offset) = 0 := by
    rcases h with h | h
    · exact h
    · exfalso; omega
  simp [memcpy, read_bytes, hz, smbios_struct_get_string_number]

/-- C7 on a structure whose byte 2 is 0 (formatted length 4) and at offset 4,
which is not below the formatted length. -/
theorem get_string_number_zero_witness :
    (smbios_struct_get_string_number dell_struct 0 0 = (none, [])
      ∧ ((peek dell_struct (0 + 2) = 0 ∨ ¬ 2 < smbios_struct_get_length dell_struct 0) →
          (smbios_struct_get_string_from_offset dell_struct 0 2).1 = none))
    ∧ (smbios_struct_get_string_from_offset dell_struct 0 2).1 = none
    ∧ (smbios_struct_get_string_from_offset dell_struct 0 4).1 = none :=
  ⟨get_string_number_zero dell_struct 0 2,
    (get_string_number_zero dell_struct 0 2).2 (Or.inl (by decide)),
    (get_string_number_zero dell_struct 0 4).2 (Or.inr (by decide))⟩

/-! ## Search by type and by handle -/

theorem by_type_loop_eq (t : smbios_table) (type : Nat) :
    ∀ (fuel : Nat) (cur : Option Nat),
      by_type_loop t type fuel cur
        = first_match t (fun s => decide (smbios_struct_get_type (t.table.getD []) s = type))
            fuel cur := by
  intro fuel
  induction fuel with
  | zero => intro cur; rfl
  | succ f ih =>
    intro cur
    simp only [by_type_loop, first_match, ih, decide_eq_true_eq]

theorem by_handle_loop_eq (t : smbios_table) (handle : Nat) :
    ∀ (fuel : Nat) (cur : Option Nat),
      by_handle_loop t handle fuel cur
        = first_match t (fun s => decide (smbios_struct_get_handle (t.table.getD []) s = handle))
            fuel cur := by
  intro fuel
  induction fuel with
  | zero => intro cur; rfl
  | succ f ih =>
    intro cur
    simp only [by_handle_loop, first_match, ih, decide_eq_true_eq]

theorem seq_after_shift (t : smbios_table) (cur : Option Nat) (s1 : Nat)
    (h : (smbios_table_get_next_struct t cur).1 = some s1) :
    ∀ k, seq_after t cur (k + 1) = seq_after t (some s1) k := by
  intro k
  induction k with
  | zero => simp [seq_after, h]
  | succ k ih =>
    have e1 : seq_after t cur (k + 1 + 1)
        = match seq_after t cur (k + 1) with
          | none => none
          | some s => (smbios_table_get_next_struct t (some s)).1 := rfl
    have e2 : seq_after t (some s1) (k + 1)
        = match seq_after t (some s1) k with
          | none => none
          | some s => (smbios_table_get_next_struct t (some s)).1 := rfl
    rw [e1, e2, ih]

theorem seq_after_of_none (t : smbios_table) (cur : Option Nat)
    (h : (smbios_table_get_next_struct t cur).1 = none) :
    ∀ k, seq_after t cur k = none := by
  intro k
  induction k with
  | zero => exact h
  | succ k ih => exact seq_after_none_succ t cur k ih

theorem calls_left_pos (t : smbios_table) (cur : Option Nat) : 1 ≤ calls_left t cur := by
  cases cur <;> simp [calls_left]

theorem calls_left_le (t : smbios_table) (cur : Option Nat) :
    calls_left t cur ≤ t.table_length + 2 := by
  cases cur <;> simp [calls_left]; omega

theorem calls_left_decreases (t : smbios_table) (cur : Option Nat) (s1 : Nat)
    (h : (smbios_table_get_next_struct t cur).1 = some s1) :
    calls_left t (some s1) < calls_left t cur := by
  cases cur with
  | none =>
    have := next_struct_first t s1 h
    simp [calls_left]; omega
  | some o =>
    have := next_struct_bounds t o s1 h
    simp [calls_left]; omega

/-- The search does not depend on the bound once the bound covers the calls
that are left. -/
theorem first_match_fuel (t : smbios_table) (p : Nat → Bool) :
    ∀ (f1 f2 : Nat) (cur : Option Nat), calls_left t cur ≤ f1 → calls_left t cur ≤ f2 →
      first_match t p f1 cur = first_match t p f2 cur := by
  intro f1
  induction f1 with
  | zero =>
    intro f2 cur h1 _
    have := calls_left_pos t cur
    omega
  | succ f1 ih =>
    intro f2 cur h1 h2
    cases f2 with
    | zero =>
      have := calls_left_pos t cur
      omega
    | succ f2 =>
      simp only [first_match]
      cases hn : (smbios_table_get_next_struct t cur).1 with
      | none => rfl
      | some s1 =>
        have hdec := calls_left_decreases t cur s1 hn
        simp only [ih f2 (some s1) (by omega) (by omega)]

/-- The search by type as the C loop runs it: one call of
`smbios_table_get_next_struct`, then the result, or the same search from
the structure just returned; the bound `table_length + 2` is never the reason
to stop. -/
theorem by_type_unfold (t : smbios_table) (cur : Option Nat) (type : Nat) :
    smbios_table_get_next_struct_by_type t cur type =
      match (smbios_table_get_next_struct t cur).1 with
      | none => none
      | some s =>
        if smbios_struct_get_type (t.table.getD []) s = type then some s
        else smbios_table_get_next_struct_by_type t (some s) type := by
  unfold smbios_table_get_next_struct_by_type
  rw [by_type_loop_eq]
  cases hn : (smbios_table_get_next_struct t cur).1 with
  | none => simp [first_match, hn]
  | some s1 =>
    have hdec := calls_left_decreases t cur s1 hn
    have hle := calls_left_le t cur
    simp only [by_type_loop_eq]
    rw [first_match_fuel t _ (t.table_length + 2) (t.table_length + 1) (some s1)
      (by omega) (by omega)]
    simp [first_match, hn]

/-- The search by handle as the C loop runs it. -/
theorem by_handle_unfold (t : smbios_table) (cur : Option Nat) (handle : Nat) :
    smbios_table_get_next_struct_by_handle t cur handle =
      match (smbios_table_get_next_struct t cur).1 with
      | none => none
      | some s =>
        if smbios_struct_get_handle (t.table.getD []) s = handle then some s
        else smbios_table_get_next_struct_by_handle t (some s) handle := by
  unfold smbios_table_get_next_struct_by_handle
  rw [by_handle_loop_eq]
  cases hn : (smbios_table_get_next_struct t cur).1 with
  | none => simp [first_match, hn]
  | some s1 =>
    have hdec := calls_left_decreases t cur s1 hn
    have hle := calls_left_le t cur
    simp only [by_handle_loop_eq]
    rw [first_match_fuel t _ (t.table_length + 2) (t.table_length + 1) (some s1)
      (by omega) (by omega)]
    simp [first_match, hn]

/-- What the search loop returns when its bound covers the calls that are
left: the first structure of the sequence after `cur` that satisfies `p`, or
`none` when there is none. -/
theorem first_match_spec (t : smbios_table) (p : Nat → Bool) :
    ∀ (fuel : Nat) (cur : Option Nat), calls_left t cur ≤ fuel →
      (∀ s, first_match t p fuel cur = some s →
        ∃ k, seq_after t cur k = some s ∧ p s = true
          ∧ ∀ j, j < k → ∀ s', seq_after t cur j = some s' → p s' = false)
      ∧ (first_match t p fuel cur = none →
        ∀ k s, seq_after t cur k = some s → p s = false) := by
  intro fuel
  induction fuel with
  | zero =>
    intro cur h
    have := calls_left_pos t cur
    omega
  | succ f ih =>
    intro cur hf
    cases hn : (smbios_table_get_next_struct t cur).1 with
    | none =>
      have hall := seq_after_of_none t cur hn
      constructor
      · intro s hs; simp [first_match, hn] at hs
      · intro _ k s hk; rw [hall k] at hk; simp at hk
    | some s1 =>
      have hshift := seq_after_shift t cur s1 hn
      have h0 : seq_after t cur 0 = some s1 := hn
      cases hp : p s1 with
      | true =>
        constructor
        · intro s hs
          simp [first_match, hn, hp] at hs
          subst hs
          exact ⟨0, h0, hp, fun j hj => by omega⟩
        · intro hs; simp [first_match, hn, hp] at hs
      | false =>
        have hdec := calls_left_decreases t cur s1 hn
        obtain ⟨ih1, ih2⟩ := ih (some s1) (by omega)
        have hfm : first_match t p (f + 1) cur = first_match t p f (some s1) := by
          simp [first_match, hn, hp]
        rw [hfm]
        constructor
        · intro s hs
          obtain ⟨k, hk1, hk2, hk3⟩ := ih1 s hs
          refine ⟨k + 1, by rw [hshift]; exact hk1, hk2, ?_⟩
          intro j hj s' hs'
          cases j with
          | zero =>
            rw [h0] at hs'
            simp only [Option.some.injEq] at hs'
            subst hs'; exact hp
          | succ j =>
            rw [hshift] at hs'
            exact hk3 j (by omega) s' hs'
        · intro hs k s hk
          cases k with
          | zero =>
            rw [h0] at hk
            simp only [Option.some.injEq] at hk
            subst hk; exact hp
          | succ k =>
            rw [hshift] at hk
            exact ih2 hs k s hk

/-- The search result in both directions: `some s` exactly when `s` is the
first structure after `cur` that satisfies `p`, and `none` exactly when
no structure after `cur` does. -/
theorem first_match_iff (t : smbios_table) (p : Nat → Bool) (cur : Option Nat) :
    (∀ s, first_match t p (t.table_length + 2) cur = some s ↔
        ∃ k, seq_after t cur k = some s ∧ p s = true
          ∧ ∀ j, j < k → ∀ s', seq_after t cur j = some s' → p s' = false)
    ∧ (first_match t p (t.table_length + 2) cur = none ↔
        ∀ k s, seq_after t cur k = some s → p s = false) := by
  obtain ⟨h1, h2⟩ := first_match_spec t p (t.table_length + 2) cur (calls_left_le t cur)
  constructor
  · intro s
    refine ⟨h1 s, ?_⟩
    rintro ⟨k, hk1, hk2, hk3⟩
    cases hr : first_match t p (t.table_length + 2) cur with
    | none =>
      have := h2 hr k s hk1
      rw [hk2] at this; simp at this
    | some s2 =>
      obtain ⟨k2, hk21, hk22, hk23⟩ := h1 s2 hr
      rcases Nat.lt_trichotomy k k2 with hlt | heq | hgt
      · have := hk23 k hlt s hk1
        rw [hk2] at this; simp at this
      · subst heq
        rw [hk1] at hk21
        exact hk21.symm
      · have := hk3 k2 hgt s2 hk21
        rw [hk22] at this; simp at this
  · refine ⟨h2, ?_⟩
    intro hall
    cases hr : first_match t p (t.table_length + 2) cur with
    | none => rfl
    | some s2 =>
      obtain ⟨k2, hk21, hk22, _⟩ := h1 s2 hr
      have := hall k2 s2 hk21
      rw [hk22] at this; simp at this

/-- C8: `smbios_table_get_next_struct_by_type` returns the first structure of
the sequence of `smbios_table_get_next_struct` results after `cur` whose type
byte is `type`, and `none` exactly when no structure of that sequence has that
type; `smbios_table_get_next_struct_by_handle` does the same with the 16-bit
handle. -/
theorem find_by_type_and_handle (t : smbios_table) (cur : Option Nat) (v : Nat) :
    ((∀ s, smbios_table_get_next_struct_by_type t cur v = some s ↔
        ∃ k, seq_after t cur k = some s ∧ smbios_struct_get_type (t.table.getD []) s = v
          ∧ ∀ j, j < k → ∀ s', seq_after t cur j = some s' →
              smbios_struct_get_type (t.table.getD []) s' ≠ v)
      ∧ (smbios_table_get_next_struct_by_type t cur v = none ↔
        ∀ k s, seq_after t cur k = some s → smbios_struct_get_type (t.table.getD []) s ≠ v))
    ∧ ((∀ s, smbios_table_get_next_struct_by_handle t cur v = some s ↔
        ∃ k, seq_after t cur k = some s ∧ smbios_struct_get_handle (t.table.getD []) s = v
          ∧ ∀ j, j < k → ∀ s', seq_after t cur j = some s' →
              smbios_struct_get_handle (t.table.getD []) s' ≠ v)
      ∧ (smbios_table_get_next_struct_by_handle t cur v = none ↔
        ∀ k s, seq_after t cur k = some s →
          smbios_struct_get_handle (t.table.getD []) s ≠ v)) := by
  constructor
  · have := first_match_iff t
      (fun s => decide (smbios_struct_get_type (t.table.getD []) s = v)) cur
    unfold smbios_table_get_next_struct_by_type
    rw [by_type_loop_eq]
    simpa using this
  · have := first_match_iff t
      (fun s => decide (smbios_struct_get_handle (t.table.getD []) s = v)) cur
    unfold smbios_table_get_next_struct_by_handle
    rw [by_handle_loop_eq]
    simpa using this

/-! ## Tables made of well-formed records -/

theorem skip_nonzero (mem : List Nat) (tl d b : Nat) (l : List Nat)
    (hm : mem.drop d = b :: l) (hb : b ≠ 0) (hd : d + 3 < tl) :
    (skip_strings mem tl tl d).1 = (skip_strings mem tl tl (d + 1)).1 := by
  have hp : peek mem d = b := peek_of_drop_cons mem d b l hm
  rw [skip_strings_step mem tl d]
  have hc : (d : Int) < (tl : Int) - 3 := by omega
  simp [hc, hp, hb]

theorem skip_zero_nonzero (mem : List Nat) (tl d b : Nat) (l : List Nat)
    (hm : mem.drop d = 0 :: b :: l) (hb : b ≠ 0) (hd : d + 3 < tl) :
    (skip_strings mem tl tl d).1 = (skip_strings mem tl tl (d + 1)).1 := by
  have hp : peek mem d = 0 := peek_of_drop_cons mem d 0 _ hm
  have hp1 : peek mem (d + 1) = b :=
    peek_of_drop_cons mem _ b l (drop_succ_of_drop_cons mem d 0 _ hm)
  rw [skip_strings_step mem tl d]
  have hc : (d : Int) < (tl : Int) - 3 := by omega
  simp [hc, hp, hp1, hb]

theorem skip_double_zero (mem : List Nat) (tl d : Nat) (l : List Nat)
    (hm : mem.drop d = 0 :: 0 :: l) :
    (skip_strings mem tl tl d).1 = d := by
  have hp : peek mem d = 0 := peek_of_drop_cons mem d 0 _ hm
  have hp1 : peek mem (d + 1) = 0 :=
    peek_of_drop_cons mem _ 0 l (drop_succ_of_drop_cons mem d 0 _ hm)
  rw [skip_strings_step mem tl d]
  simp only [hp, hp1, ne_eq, not_true_eq_false, if_false]
  split_ifs <;> rfl

/-- The loop runs over a run of non-zero bytes. -/
theorem skip_run (mem : List Nat) (tl : Nat) :
    ∀ (a : List Nat) (d : Nat) (l : List Nat), (∀ b ∈ a, b ≠ 0) → mem.drop d = a ++ l →
      d + a.length + 3 ≤ tl →
      (skip_strings mem tl tl d).1 = (skip_strings mem tl tl (d + a.length)).1 := by
  intro a
  induction a with
  | nil => intro d l _ _ _; simp
  | cons b a ih =>
    intro d l hz hm hd
    simp only [List.length_cons] at hd
    rw [skip_nonzero mem tl d b (a ++ l) hm (hz b (by simp)) (by omega)]
    rw [ih (d + 1) l (fun x hx => hz x (by simp [hx]))
      (drop_succ_of_drop_cons mem d b _ hm) (by omega)]
    simp only [List.length_cons]
    congr 2; omega

/-- On a string table the loop stops on the zero byte that closes the last
string, 2 bytes before the end of the string table. -/
theorem skip_string_table (mem : List Nat) (tl : Nat) (rest : List Nat) :
    ∀ (strs : List (List Nat)) (a : List Nat) (d : Nat), strings_ok (a :: strs) →
      mem.drop d = string_table (a :: strs) ++ rest →
      d + (string_table (a :: strs)).length + 1 ≤ tl →
      (skip_strings mem tl tl d).1 + 2 = d + (string_table (a :: strs)).length := by
  intro strs
  induction strs with
  | nil =>
    intro a d hok hmem hd
    obtain ⟨⟨_, hz⟩, _⟩ := strings_ok_cons a [] hok
    have hsz : (string_table [a]).length = a.length + 2 := by simp [string_table]
    have hmem' : mem.drop d = a ++ 0 :: (0 :: rest) := by
      rw [hmem]; simp [string_table]
    rw [hsz] at hd ⊢
    rw [skip_run mem tl a d _ hz hmem' (by omega)]
    rw [skip_double_zero mem tl _ rest (drop_add_of_drop_append mem d a _ hmem')]
    omega
  | cons b strs ih =>
    intro a d hok hmem hd
    obtain ⟨⟨_, hz⟩, hok'⟩ := strings_ok_cons a (b :: strs) hok
    have hsz : (string_table (a :: b :: strs)).length
        = a.length + 1 + (string_table (b :: strs)).length := by
      rw [string_table_cons a]; simp; omega
    obtain ⟨c, l, hc, hcl⟩ := string_table_head (b :: strs) hok' (by simp)
    have hmem' : mem.drop d = a ++ 0 :: (c :: (l ++ rest)) := by
      rw [hmem, string_table_cons, hcl]; simp
    have hbl : 1 ≤ b.length := List.length_pos.mpr (strings_ok_cons b strs hok').1.1
    have hpos : 2 ≤ (string_table (b :: strs)).length := by
      rw [string_table_cons]; simp; omega
    have hdrop : mem.drop (d + a.length) = 0 :: c :: (l ++ rest) :=
      drop_add_of_drop_append mem d a _ hmem'
    have hdrop1 : mem.drop (d + a.length + 1) = string_table (b :: strs) ++ rest := by
      rw [drop_succ_of_drop_cons mem _ 0 _ hdrop, hcl]; rfl
    rw [hsz] at hd ⊢
    rw [skip_run mem tl a d _ hz hmem' (by omega)]
    rw [skip_zero_nonzero mem tl _ c _ hdrop hc (by omega)]
    rw [ih b (d + a.length + 1) hok' hdrop1 (by omega)]
    omega

/-- On the bytes after the formatted section of a well-formed record the loop
stops 2 bytes before their end. -/
theorem skip_encoded (mem : List Nat) (tl : Nat) (rest : List Nat) (strs : List (List Nat))
    (d : Nat) (hok : strings_ok strs) (hmem : mem.drop d = encode_strings strs ++ rest)
    (hd : d + (encode_strings strs).length + 1 ≤ tl) :
    (skip_strings mem tl tl d).1 + 2 = d + (encode_strings strs).length := by
  cases strs with
  | nil =>
    have hm : mem.drop d = 0 :: 0 :: rest := by simpa [encode_strings] using hmem
    rw [skip_double_zero mem tl d rest hm]
    simp [encode_strings]
  | cons a strs =>
    have hE : encode_strings (a :: strs) = string_table (a :: strs) := by simp [encode_strings]
    rw [hE] at hmem hd ⊢
    exact skip_string_table mem tl rest strs a d hok hmem hd

theorem encode_length (r : record) :
    (encode r).length = 4 + r.fields.length + (encode_strings r.strings).length := by
  simp [encode]; omega

theorem encode_strings_length (strs : List (List Nat)) : 2 ≤ (encode_strings strs).length := by
  unfold encode_strings
  split_ifs with h
  · simp
  · cases strs with
    | nil => exact absurd rfl h
    | cons a strs => rw [string_table_cons]; simp [string_table]; omega

/-- One step of the iteration on a well-formed record that lies at offset
`pre.length`: the end marker gives `none`; any other record that is followed by
at least 4 bytes gives the offset right after its strings. -/
theorem next_struct_record (t : smbios_table) (pre post : List Nat) (r : record)
    (hr : well_formed r) (ht : t.table = some (pre ++ encode r ++ post))
    (hl : t.table_length = (pre ++ encode r ++ post).length) :
    (r.type = 0x7f → (smbios_table_get_next_struct t (some pre.length)).1 = none)
    ∧ (r.type ≠ 0x7f → 4 ≤ post.length →
        (smbios_table_get_next_struct t (some pre.length)).1
          = some (pre.length + (encode r).length)) := by
  obtain ⟨_, _, _, _, hok, _⟩ := hr
  have hdrop0 : (pre ++ encode r ++ post).drop pre.length = encode r ++ post := by
    rw [List.append_assoc, List.drop_left]
  have hdropE : (pre ++ encode r ++ post).drop pre.length
      = r.type :: (4 + r.fields.length) :: (r.handle % 256) :: (r.handle / 256)
          :: (r.fields ++ (encode_strings r.strings ++ post)) := by
    rw [hdrop0]; simp [encode]
  have htype : smbios_struct_get_type (pre ++ encode r ++ post) pre.length = r.type :=
    peek_of_drop_cons _ _ _ _ hdropE
  have hlen : smbios_struct_get_length (pre ++ encode r ++ post) pre.length
      = 4 + r.fields.length :=
    peek_of_drop_cons _ _ _ _ (drop_succ_of_drop_cons _ _ _ _ hdropE)
  have hstr : (pre ++ encode r ++ post).drop (pre.length + (4 + r.fields.length))
      = encode_strings r.strings ++ post := by
    have h1 := drop_succ_of_drop_cons _ _ _ _ hdropE
    have h2 := drop_succ_of_drop_cons _ _ _ _ h1
    have h3 := drop_succ_of_drop_cons _ _ _ _ h2
    have h4 := drop_succ_of_drop_cons _ _ _ _ h3
    have h5 := drop_add_of_drop_append _ _ _ _ h4
    have e : pre.length + (4 + r.fields.length) = pre.length + 1 + 1 + 1 + 1 + r.fields.length := by
      omega
    rw [e]; exact h5
  have hsize := encode_length r
  have htl : t.table_length = pre.length + (encode r).length + post.length := by
    rw [hl]; simp; omega
  unfold smbios_table_get_next_struct
  simp only [ht, htype, hlen]
  constructor
  · intro h7
    simp [h7]
  · intro h7 hpost
    have hskip := skip_encoded (pre ++ encode r ++ post) t.table_length post r.strings
      (pre.length + (4 + r.fields.length)) hok hstr (by omega)
    rw [if_neg h7]
    have hgt : ¬ (((skip_strings (pre ++ encode r ++ post) t.table_length t.table_length
        (pre.length + (4 + r.fields.length))).1 + 2 : Nat) : Int)
          > (t.table_length : Int) - 4 := by
      rw [hskip]; omega
    rw [if_neg hgt, hskip]
    simp only [Option.some.injEq]
    omega

theorem encode_length_ge (r : record) : 6 ≤ (encode r).length := by
  have := encode_strings_length r.strings
  rw [encode_length]; omega

theorem encode_table_cons (r : record) (rs : List record) :
    encode_table (r :: rs) = encode r ++ encode_table rs := by
  simp [encode_table]

theorem encode_table_append (rs1 rs2 : List record) :
    encode_table (rs1 ++ rs2) = encode_table rs1 ++ encode_table rs2 := by
  simp [encode_table]

/-- The table bytes around the record number `k`. -/
theorem encode_table_split (rs : List record) (k : Nat) (r : record) (hk : rs[k]? = some r) :
    encode_table rs
      = encode_table (rs.take k) ++ encode r ++ encode_table (rs.drop (k + 1)) := by
  have hlt : k < rs.length := by
    rcases Nat.lt_or_ge k rs.length with h | h
    · exact h
    · rw [List.getElem?_eq_none h] at hk; simp at hk
  have hget : rs[k] = r := by
    rw [List.getElem?_eq_getElem hlt] at hk
    simpa using hk
  have h1 : rs = rs.take k ++ (r :: rs.drop (k + 1)) := by
    rw [← hget, ← List.drop_eq_getElem_cons hlt, List.take_append_drop]
  conv_lhs => rw [h1]
  rw [encode_table_append, encode_table_cons, List.append_assoc]

theorem record_offset_succ (rs : List record) (k : Nat) (r : record) (hk : rs[k]? = some r) :
    record_offset rs (k + 1) = record_offset rs k + (encode r).length := by
  have hlt : k < rs.length := by
    rcases Nat.lt_or_ge k rs.length with h | h
    · exact h
    · rw [List.getElem?_eq_none h] at hk; simp at hk
  have hget : rs[k] = r := by
    rw [List.getElem?_eq_getElem hlt] at hk
    simpa using hk
  unfold record_offset
  rw [List.take_succ, hk]
  simp [encode_table_append, encode_table]

/-- The iteration over a table of well-formed records reaches the record
number `k` at its offset as long as no record before it is an end marker. -/
theorem nth_struct_records (t : smbios_table) (rs : List record)
    (hwf : ∀ r ∈ rs, well_formed r) (ht : t.table = some (encode_table rs))
    (hl : t.table_length = (encode_table rs).length) :
    ∀ k, k < rs.length → (∀ j, j < k → ∀ r, rs[j]? = some r → r.type ≠ 0x7f) →
      nth_struct t k = some (record_offset rs k) := by
  intro k
  induction k with
  | zero =>
    intro _ _
    simp [nth_struct, seq_after, smbios_table_get_next_struct, ht, record_offset, encode_table]
  | succ k ih =>
    intro hk hno
    have hprev := ih (by omega) (fun j hj => hno j (by omega))
    have hget : rs[k]? = some rs[k] := List.getElem?_eq_getElem (by omega)
    have hsplit := encode_table_split rs k rs[k] hget
    have hpost : 4 ≤ (encode_table (rs.drop (k + 1))).length := by
      have hlt : 0 < (rs.drop (k + 1)).length := by simp; omega
      match hd : rs.drop (k + 1), hlt with
      | r' :: rest, _ =>
        rw [encode_table_cons]
        have := encode_length_ge r'
        simp; omega
    have hstep := (next_struct_record t (encode_table (rs.take k))
      (encode_table (rs.drop (k + 1))) rs[k] (hwf _ (List.getElem_mem _))
      (by rw [ht, hsplit]) (by rw [hl, hsplit])).2 (hno k (by omega) _ hget) hpost
    unfold nth_struct at hprev ⊢
    rw [seq_after_succ t none k _ hprev, record_offset_succ rs k _ hget]
    exact hstep

/-- After the end marker the iteration over a table of well-formed records
returns `none`. -/
theorem nth_struct_end (t : smbios_table) (rs : List record)
    (hwf : ∀ r ∈ rs, well_formed r) (ht : t.table = some (encode_table rs))
    (hl : t.table_length = (encode_table rs).length) (k : Nat) (r : record)
    (hk : rs[k]? = some r) (h7 : r.type = 0x7f)
    (hprev : nth_struct t k = some (record_offset rs k)) :
    nth_struct t (k + 1) = none := by
  have hsplit := encode_table_split rs k r hk
  have hmem : r ∈ rs := List.getElem?_mem hk
  have hstep := (next_struct_record t (encode_table (rs.take k))
    (encode_table (rs.drop (k + 1))) r (hwf r hmem)
    (by rw [ht, hsplit]) (by rw [hl, hsplit])).1 h7
  unfold nth_struct at hprev ⊢
  rw [seq_after_succ t none k _ hprev]
  exact hstep

/-! ## C2: three records and an end marker -/

/-- C2 as stated fails on the spec's example: on the table of three
well-formed records followed by an end marker, the fourth call does not return
`none`; it returns the end marker itself (offset 25, type `0x7F`), and only the
fifth call returns `none`: four structures are produced, not three. -/
theorem end_marker_is_returned :
    (∀ r ∈ sample_records, well_formed r ∧ r.type ≠ 0x7f)
    ∧ (well_formed end_marker ∧ end_marker.type = 0x7f)
    ∧ (List.range 5).map (nth_struct (table_of (encode_table (sample_records ++ [end_marker]))
          (encode_table (sample_records ++ [end_marker])).length))
        = [some 0, some 8, some 16, some 25, none]
    ∧ nth_struct (table_of (encode_table (sample_records ++ [end_marker]))
          (encode_table (sample_records ++ [end_marker])).length) sample_records.length ≠ none
    ∧ smbios_struct_get_type (encode_table (sample_records ++ [end_marker])) 25 = 0x7f := by
  decide

/-- C2, amended: on a table of `n` well-formed records, none of type `0x7F`,
followed by an end marker record of type `0x7F`, with `table_length` the size
of the table, the iteration from an absent `cur` yields the `n` records in
address order (call `k` returns the offset of record `k`), then the end marker
record itself, and then `none`: `n + 1` structures. -/
theorem iteration_records_then_end_marker (t : smbios_table) (rs : List record) (e : record)
    (hwf : ∀ r ∈ rs, well_formed r ∧ r.type ≠ 0x7f)
    (he : well_formed e ∧ e.type = 0x7f)
    (ht : t.table = some (encode_table (rs ++ [e])))
    (hl : t.table_length = (encode_table (rs ++ [e])).length) :
    (∀ k, k < rs.length → nth_struct t k = some (record_offset (rs ++ [e]) k))
    ∧ nth_struct t rs.length = some (encode_table rs).length
    ∧ smbios_struct_get_type (encode_table (rs ++ [e])) (encode_table rs).length = 0x7f
    ∧ nth_struct t (rs.length + 1) = none := by
  have hall : ∀ r ∈ rs ++ [e], well_formed r := by
    intro r hr
    rcases List.mem_append.mp hr with h | h
    · exact (hwf r h).1
    · simp at h; subst h; exact he.1
  have hno : ∀ j, j < rs.length → ∀ r, (rs ++ [e])[j]? = some r → r.type ≠ 0x7f := by
    intro j hj r hr
    rw [List.getElem?_append_left hj] at hr
    exact (hwf r (List.getElem?_mem hr)).2
  have hreach := nth_struct_records t (rs ++ [e]) hall ht hl
  have hoff : record_offset (rs ++ [e]) rs.length = (encode_table rs).length := by
    simp [record_offset]
  have hlast : nth_struct t rs.length = some (encode_table rs).length := by
    rw [← hoff]
    exact hreach rs.length (by simp) (fun j hj => hno j hj)
  have hge : (rs ++ [e])[rs.length]? = some e := by simp
  refine ⟨?_, hlast, ?_, ?_⟩
  · intro k hk
    exact hreach k (by simp; omega) (fun j hj => hno j (by omega))
  · rw [encode_table_append]
    apply peek_of_drop_cons _ _ _
      ((4 + e.fields.length) :: (e.handle % 256) :: (e.handle / 256)
        :: (e.fields ++ encode_strings e.strings))
    rw [List.drop_left, ← he.2]
    simp [encode_table, encode]
  · exact nth_struct_end t (rs ++ [e]) hall ht hl rs.length e hge he.2 (by rw [hoff]; exact hlast)

/-- The amended C2 on the spec's example of three records and an end marker. -/
theorem iteration_records_then_end_marker_witness :
    (∀ k, k < sample_records.length →
        nth_struct (table_of (encode_table (sample_records ++ [end_marker])) 31) k
          = some (record_offset (sample_records ++ [end_marker]) k))
    ∧ nth_struct (table_of (encode_table (sample_records ++ [end_marker])) 31)
        sample_records.length = some (encode_table sample_records).length
    ∧ smbios_struct_get_type (encode_table (sample_records ++ [end_marker]))
        (encode_table sample_records).length = 0x7f
    ∧ nth_struct (table_of (encode_table (sample_records ++ [end_marker])) 31)
        (sample_records.length + 1) = none :=
  iteration_records_then_end_marker
    (table_of (encode_table (sample_records ++ [end_marker])) 31) sample_records end_marker
    (by decide) (by decide) rfl (by decide)

/-! ## C9: what the structure accessors read -/

/-- The reads of `smbios_struct_get_data`: the length byte of the structure,
and on success the bytes `offset .. offset + len - 1`, which lie inside the
formatted length. -/
theorem get_data_reads (mem : List Nat) (s : Nat) (dest : List Nat) (offset len : Nat)
    (hoff : offset < 256) (hlen : len < SIZE_MODULUS) :
    ∀ r ∈ (smbios_struct_get_data mem s dest offset len).reads,
      r = s + 1 ∨ (s + offset ≤ r ∧ r < s + smbios_struct_get_length mem s) := by
  have hmod : SIZE_MODULUS = 18446744073709551616 := by norm_num [SIZE_MODULUS]
  rw [hmod] at hlen
  intro r hr
  unfold smbios_struct_get_data at hr
  rw [hmod] at hr
  generalize smbios_struct_get_length mem s = L at hr ⊢
  split_ifs at hr with h1 h2 h3
  · simp at hr; exact Or.inl hr
  · simp at hr; exact Or.inl hr
  · simp at hr; exact Or.inl hr
  · simp only [span, List.mem_append, List.mem_cons, List.mem_map, List.mem_range] at hr
    rcases hr with (rfl | rfl | hr) | ⟨x, hx, rfl⟩
    · exact Or.inl rfl
    · exact Or.inl rfl
    · simp at hr
    · right; omega

/-- The reads of `smbios_struct_get_string_number` on a structure whose
formatted section is followed by a well-formed string table: the length byte
and bytes of the string table. -/
theorem get_string_number_reads (mem : List Nat) (s : Nat) (strs : List (List Nat))
    (rest : List Nat) (i : Nat) (hok : strings_ok strs)
    (hmem : mem.drop (s + smbios_struct_get_length mem s) = encode_strings strs ++ rest) :
    ∀ r ∈ (smbios_struct_get_string_number mem s i).2,
      r = s + 1 ∨ (s + smbios_struct_get_length mem s ≤ r
        ∧ r < s + smbios_struct_get_length mem s + (encode_strings strs).length) := by
  intro r hr
  unfold smbios_struct_get_string_number at hr
  split_ifs at hr with h0
  · simp at hr
  · simp only [List.mem_cons] at hr
    rcases hr with rfl | hr
    · exact Or.inl rfl
    · exact Or.inr ((string_loop_encoded mem rest strs _ i hok hmem).2 r hr)

/-- C9 as stated fails.  On the 10-byte table `01 04 00 00 00 00 02 ff 00 00`
the second structure of the iteration (offset 6) declares a formatted length of
255: `smbios_struct_get_data(s, dest, 4, 4)` succeeds and reads offsets 10 to
13.  On the 8-byte table `01 04 00 00 41 42 43 44`, whose strings have no zero
byte, `smbios_struct_get_string_number(s, 2)` on the first structure reads
offset 8. -/
theorem accessors_read_past_table :
    (nth_struct (table_of [1, 4, 0, 0, 0, 0, 2, 255, 0, 0] 10) 1 = some 6
      ∧ (table_of [1, 4, 0, 0, 0, 0, 2, 255, 0, 0] 10).table_length = 10
      ∧ (smbios_struct_get_data [1, 4, 0, 0, 0, 0, 2, 255, 0, 0] 6 [0, 0, 0, 0] 4 4).retval = 0
      ∧ (smbios_struct_get_data [1, 4, 0, 0, 0, 0, 2, 255, 0, 0] 6 [0, 0, 0, 0] 4 4).reads
          = [7, 7, 10, 11, 12, 13])
    ∧ (nth_struct (table_of [1, 4, 0, 0, 65, 66, 67, 68] 8) 0 = some 0
      ∧ (table_of [1, 4, 0, 0, 65, 66, 67, 68] 8).table_length = 8
      ∧ 8 ∈ (smbios_struct_get_string_number [1, 4, 0, 0, 65, 66, 67, 68] 0 2).2) := by
  decide

/-- C9, amended: for a structure `s` that the iteration over a table of at
least 4 bytes produces, `smbios_struct_get_data` reads below `table_length`
whenever the formatted section of `s` ends inside the declared table length,
and `smbios_struct_get_string_number` reads below `table_length` whenever the
formatted section is followed by a well-formed string table that ends inside
the declared table length. -/
theorem accessors_read_inside (t : smbios_table) (mem : List Nat) (k s : Nat)
    (ht : t.table = some mem) (htl : 4 ≤ t.table_length) (hs : nth_struct t k = some s) :
    (∀ dest offset len, offset < 256 → len < SIZE_MODULUS →
        s + smbios_struct_get_length mem s ≤ t.table_length →
        ∀ r ∈ (smbios_struct_get_data mem s dest offset len).reads, r < t.table_length)
    ∧ (∀ strs rest i, strings_ok strs →
        mem.drop (s + smbios_struct_get_length mem s) = encode_strings strs ++ rest →
        s + smbios_struct_get_length mem s + (encode_strings strs).length ≤ t.table_length →
        ∀ r ∈ (smbios_struct_get_string_number mem s i).2, r < t.table_length) := by
  have hhead : s + 4 ≤ t.table_length := by
    rcases Nat.eq_zero_or_pos k with hk | hk
    · subst hk
      have := next_struct_first t s hs
      omega
    · exact (nth_struct_bounds t k s hs hk).2
  constructor
  · intro dest offset len hoff hlen hL r hr
    rcases get_data_reads mem s dest offset len hoff hlen r hr with h | h <;> omega
  · intro strs rest i hok hmem hL r hr
    rcases get_string_number_reads mem s strs rest i hok hmem r hr with h | h <;> omega

/-- The amended C9 on the structure of the spec's example, as a 22-byte table:
a copy of bytes 2 and 3, and a lookup of string 3. -/
theorem accessors_read_inside_witness :
    (∀ r ∈ (smbios_struct_get_data dell_struct 0 [0, 0] 2 2).reads,
        r < (table_of dell_struct 22).table_length)
    ∧ (∀ r ∈ (smbios_struct_get_string_number dell_struct 0 3).2,
        r < (table_of dell_struct 22).table_length) :=
  ⟨(accessors_read_inside (table_of dell_struct 22) dell_struct 0 0 rfl (by decide)
      (by decide)).1 [0, 0] 2 2 (by decide) (by norm_num [SIZE_MODULUS]) (by decide),
    (accessors_read_inside (table_of dell_struct 22) dell_struct 0 0 rfl (by decide)
      (by decide)).2 [[68, 101, 108, 108, 32, 73, 110, 99, 46], [83, 121, 115, 116, 101, 109]]
      [] 3 (by decide) (by decide) (by decide)⟩

/-! ## The scan for the entry point -/

theorem read_tep_image (img : Nat → Nat) (fp : Nat) (tempTEP : List Nat) :
    read_tep (image_reader img) fp tempTEP = image_bytes img fp := by
  simp [read_tep, image_reader, image_bytes]

theorem round_tep_image (img : Nat → Nat) (ptr_bytes : List Nat) (fp : Nat)
    (tempTEP : List Nat) :
    round_tep (image_reader img) ptr_bytes fp tempTEP = candidate_tep img ptr_bytes fp := by
  simp [round_tep, candidate_tep, read_tep_image]

theorem round_breaks_image (img : Nat → Nat) (ptr_bytes : List Nat) (strict : Bool) (fp : Nat)
    (tempTEP : List Nat) :
    round_breaks (image_reader img) ptr_bytes strict fp tempTEP
      = accepts img ptr_bytes strict fp := by
  simp [round_breaks, accepts, read_tep_image, round_tep_image]

theorem not_dmi_of_sm (b : List Nat) (h : b.take 4 = SM_ANCHOR) : b.take 5 ≠ DMI_ANCHOR := by
  intro h5
  have : (b.take 5).take 4 = b.take 4 := by rw [List.take_take]; rfl
  rw [h5, h] at this
  revert this
  decide

/-- At an offset where the image holds the anchor `_SM_`, the round of the
scan loop leaves `tempTEP` as read and breaks exactly when
`validate_smbios_tep` accepts it. -/
theorem modern_candidate (img : Nat → Nat) (ptr_bytes : List Nat) (strict : Bool) (fp : Nat)
    (h : (image_bytes img fp).take 4 = SM_ANCHOR) :
    candidate_tep img ptr_bytes fp = image_bytes img fp
    ∧ accepts img ptr_bytes strict fp = validate_smbios_tep (image_bytes img fp) strict := by
  have h5 := not_dmi_of_sm _ h
  have hc : candidate_tep img ptr_bytes fp = image_bytes img fp := by
    simp [candidate_tep, round_tep, read_tep_image, h5]
  refine ⟨hc, ?_⟩
  unfold accepts round_breaks
  rw [round_tep_image, read_tep_image, hc]
  simp [h5, h]

theorem range_succ_map_stride (fp n : Nat) :
    (List.range (n + 1)).map (fun j => fp + 16 * j)
      = fp :: (List.range n).map (fun j => fp + 16 + 16 * j) := by
  rw [List.range_succ_eq_map]
  simp only [List.map_cons, List.map_map, Nat.mul_zero, Nat.add_zero]
  congr 1
  apply List.map_congr_left
  intro j _
  simp only [Function.comp, Nat.succ_eq_add_one]
  omega

/-- The offsets the scan loop hands to `memory_read` start at `fp`, grow by 16,
and each leaves room for `sizeof(tempTEP)` bytes strictly below `F_BLOCK_END`. -/
theorem tep_scan_loop_reads (rd : reader) (ptr_bytes : List Nat) (strict : Bool)
    (f_end : Nat) (hf : f_end + 16 ≤ ULONG_MODULUS) :
    ∀ (fuel fp : Nat) (tempTEP : List Nat), fp + TEP_SIZE < ULONG_MODULUS →
      (∀ r ∈ (tep_scan_loop rd ptr_bytes strict f_end fuel fp tempTEP).2.2, r + TEP_SIZE < f_end)
      ∧ ∃ m, (tep_scan_loop rd ptr_bytes strict f_end fuel fp tempTEP).2.2
          = (List.range m).map (fun j => fp + 16 * j) := by
  intro fuel
  induction fuel with
  | zero =>
    intro fp tempTEP _
    exact ⟨by simp [tep_scan_loop], 0, by simp [tep_scan_loop]⟩
  | succ fuel ih =>
    intro fp tempTEP hfp
    have hmod : (fp + TEP_SIZE) % ULONG_MODULUS = fp + TEP_SIZE := Nat.mod_eq_of_lt hfp
    simp only [tep_scan_loop, hmod]
    split_ifs with h1 h2
    · exact ⟨by simpa using h1, 1, by simp [List.range_succ]⟩
    · have h16 : (fp + 16) % ULONG_MODULUS = fp + 16 := by
        apply Nat.mod_eq_of_lt
        simp only [TEP_SIZE] at h1; omega
      rw [h16]
      obtain ⟨ih1, m, ih2⟩ := ih (fp + 16) (round_tep rd ptr_bytes fp tempTEP)
        (by simp only [TEP_SIZE] at h1 ⊢; omega)
      constructor
      · intro r hr
        simp only [List.mem_cons] at hr
        rcases hr with rfl | hr
        · exact h1
        · exact ih1 r hr
      · exact ⟨m + 1, by rw [range_succ_map_stride, ← ih2]⟩
    · exact ⟨by simp, 0, by simp⟩

/-- The scan loop does not depend on the bound once the bound covers the
rounds between `fp` and `F_BLOCK_END`; the bound `F_BLOCK_END` that
`smbios_get_tep_memory` passes does, whatever `E_BLOCK_START` is. -/
theorem tep_scan_loop_fuel (rd : reader) (ptr_bytes : List Nat) (strict : Bool)
    (f_end : Nat) (hf : f_end + 16 ≤ ULONG_MODULUS) :
    ∀ (f1 f2 fp : Nat) (tempTEP : List Nat), fp + TEP_SIZE < ULONG_MODULUS →
      f_end ≤ fp + TEP_SIZE + 16 * f1 → f_end ≤ fp + TEP_SIZE + 16 * f2 →
      tep_scan_loop rd ptr_bytes strict f_end f1 fp tempTEP
        = tep_scan_loop rd ptr_bytes strict f_end f2 fp tempTEP := by
  intro f1
  induction f1 with
  | zero =>
    intro f2 fp tempTEP hfp h1 _
    have hmod : (fp + TEP_SIZE) % ULONG_MODULUS = fp + TEP_SIZE := Nat.mod_eq_of_lt hfp
    cases f2 with
    | zero => rfl
    | succ f2 =>
      have hc : ¬ fp + TEP_SIZE < f_end := by omega
      simp [tep_scan_loop, hmod, hc]
  | succ f1 ih =>
    intro f2 fp tempTEP hfp h1 h2
    have hmod : (fp + TEP_SIZE) % ULONG_MODULUS = fp + TEP_SIZE := Nat.mod_eq_of_lt hfp
    cases f2 with
    | zero =>
      have hc : ¬ fp + TEP_SIZE < f_end := by omega
      simp [tep_scan_loop, hmod, hc]
    | succ f2 =>
      simp only [tep_scan_loop, hmod]
      by_cases hc : fp + TEP_SIZE < f_end
      · have h16 : (fp + 16) % ULONG_MODULUS = fp + 16 := by
          apply Nat.mod_eq_of_lt
          simp only [TEP_SIZE] at hc; omega
        rw [h16, ih f2 (fp + 16) (round_tep rd ptr_bytes fp tempTEP)
          (by simp only [TEP_SIZE] at hc ⊢; omega) (by omega) (by omega)]
      · simp [hc]

/-- The scan loop on an image whose reads succeed: it stops at the lowest
candidate that stops it, or runs until `fp + sizeof(tempTEP)` reaches
`F_BLOCK_END`. -/
theorem tep_scan_loop_spec (img : Nat → Nat) (ptr_bytes : List Nat) (strict : Bool)
    (f_end : Nat) (hf : f_end + 16 ≤ ULONG_MODULUS) :
    ∀ (fuel fp : Nat) (tempTEP : List Nat), fp + TEP_SIZE < ULONG_MODULUS →
      f_end ≤ fp + TEP_SIZE + 16 * fuel →
      (∀ n, fp + 16 * n + TEP_SIZE < f_end → accepts img ptr_bytes strict (fp + 16 * n) = true →
        (∀ j, j < n → accepts img ptr_bytes strict (fp + 16 * j) = false) →
        tep_scan_loop (image_reader img) ptr_bytes strict f_end fuel fp tempTEP
          = (fp + 16 * n, candidate_tep img ptr_bytes (fp + 16 * n),
              (List.range (n + 1)).map (fun j => fp + 16 * j)))
      ∧ ((∀ n, fp + 16 * n + TEP_SIZE < f_end →
            accepts img ptr_bytes strict (fp + 16 * n) = false) →
        ∃ m, (tep_scan_loop (image_reader img) ptr_bytes strict f_end fuel fp tempTEP).1
              = fp + 16 * m
          ∧ f_end ≤ fp + 16 * m + TEP_SIZE ∧ fp + 16 * m + TEP_SIZE < ULONG_MODULUS
          ∧ (tep_scan_loop (image_reader img) ptr_bytes strict f_end fuel fp tempTEP).2.2
              = (List.range m).map (fun j => fp + 16 * j)
          ∧ ∀ n, fp + 16 * n + TEP_SIZE < f_end → n < m) := by
  intro fuel
  induction fuel with
  | zero =>
    intro fp tempTEP hfp hfuel
    constructor
    · intro n hn _ _
      exfalso; omega
    · intro _
      refine ⟨0, by simp [tep_scan_loop], by omega, by omega, by simp [tep_scan_loop], ?_⟩
      intro n hn
      exfalso; omega
  | succ fuel ih =>
    intro fp tempTEP hfp hfuel
    have hmod : (fp + TEP_SIZE) % ULONG_MODULUS = fp + TEP_SIZE := Nat.mod_eq_of_lt hfp
    by_cases h1 : fp + TEP_SIZE < f_end
    · have h16 : (fp + 16) % ULONG_MODULUS = fp + 16 := by
        apply Nat.mod_eq_of_lt
        simp only [TEP_SIZE] at h1; omega
      cases hacc : accepts img ptr_bytes strict fp with
      | true =>
        have hloop : tep_scan_loop (image_reader img) ptr_bytes strict f_end (fuel + 1) fp tempTEP
            = (fp, candidate_tep img ptr_bytes fp, [fp]) := by
          simp [tep_scan_loop, hmod, h1, round_breaks_image, round_tep_image, hacc]
        constructor
        · intro n _ _ hbefore
          have hn0 : n = 0 := by
            rcases Nat.eq_zero_or_pos n with h | h
            · exact h
            · have := hbefore 0 h
              simp only [Nat.mul_zero, Nat.add_zero] at this
              rw [hacc] at this; simp at this
          subst hn0
          rw [hloop]; simp [List.range_succ]
        · intro hnone
          have := hnone 0 (by simpa using h1)
          simp only [Nat.mul_zero, Nat.add_zero] at this
          rw [hacc] at this; simp at this
      | false =>
        have hloop : tep_scan_loop (image_reader img) ptr_bytes strict f_end (fuel + 1) fp tempTEP
            = ((tep_scan_loop (image_reader img) ptr_bytes strict f_end fuel (fp + 16)
                  (candidate_tep img ptr_bytes fp)).1,
                (tep_scan_loop (image_reader img) ptr_bytes strict f_end fuel (fp + 16)
                  (candidate_tep img ptr_bytes fp)).2.1,
                fp :: (tep_scan_loop (image_reader img) ptr_bytes strict f_end fuel (fp + 16)
                  (candidate_tep img ptr_bytes fp)).2.2) := by
          simp [tep_scan_loop, hmod, h1, round_breaks_image, round_tep_image, hacc, h16]
        obtain ⟨ihA, ihB⟩ := ih (fp + 16) (candidate_tep img ptr_bytes fp)
          (by simp only [TEP_SIZE] at h1 ⊢; omega) (by omega)
        rw [hloop]
        constructor
        · intro n hn hyes hbefore
          cases n with
          | zero =>
            simp only [Nat.mul_zero, Nat.add_zero] at hyes
            rw [hacc] at hyes; simp at hyes
          | succ n =>
            have e : ∀ j, fp + 16 + 16 * j = fp + 16 * (j + 1) := fun j => by omega
            have := ihA n (by rw [e]; exact hn) (by rw [e]; exact hyes)
              (fun j hj => by rw [e]; exact hbefore (j + 1) (by omega))
            rw [this, range_succ_map_stride fp (n + 1), e]
        · intro hnone
          have e : ∀ j, fp + 16 + 16 * j = fp + 16 * (j + 1) := fun j => by omega
          obtain ⟨m, hm1, hm2, hm3, hm4, hm5⟩ := ihB (fun n hn => by
            rw [e]; exact hnone (n + 1) (by rw [← e]; exact hn))
          refine ⟨m + 1, by rw [hm1, e], by rw [← e]; exact hm2, by rw [← e]; exact hm3,
            by rw [range_succ_map_stride, ← hm4], ?_⟩
          intro n hn
          cases n with
          | zero => omega
          | succ n =>
            have := hm5 n (by rw [e]; exact hn)
            omega
    · have hloop : tep_scan_loop (image_reader img) ptr_bytes strict f_end (fuel + 1) fp tempTEP
          = (fp, tempTEP, []) := by
        simp [tep_scan_loop, hmod, h1]
      rw [hloop]
      constructor
      · intro n hn _ _
        exfalso; omega
      · intro _
        refine ⟨0, by simp, by simp; omega, by simpa using hfp, by simp, ?_⟩
        intro n hn
        exfalso; omega

theorem image_bytes_length (img : Nat → Nat) (fp : Nat) :
    (image_bytes img fp).length = 32 := by
  simp [image_bytes, TEP_SIZE]

theorem legacy_fixup_take_dmi (b ptr_bytes : List Nat) (hb : b.length = 32) :
    (legacy_fixup b ptr_bytes).take DMI_TEP_SIZE = ((b.take DMI_TEP_SIZE).set 6 2).set 7 0 := by
  unfold legacy_fixup
  rw [List.set_take, List.set_take, List.append_assoc,
    List.take_append_of_le_length (by simp [DMI_OFFSET, DMI_TEP_SIZE, hb]), List.take_take]
  simp [DMI_OFFSET, DMI_TEP_SIZE]

theorem legacy_fixup_take_anchor (b ptr_bytes : List Nat) (hb : b.length = 32) :
    (legacy_fixup b ptr_bytes).take 4 = b.take 4 := by
  unfold legacy_fixup
  rw [List.take_set_of_lt _ _ (by omega), List.take_set_of_lt _ _ (by omega),
    List.append_assoc, List.take_append_of_le_length (by simp [DMI_OFFSET, hb]),
    List.take_take]
  simp [DMI_OFFSET]

theorem not_sm_of_dmi (b : List Nat) (h : b.take 5 = DMI_ANCHOR) : b.take 4 ≠ SM_ANCHOR := by
  intro h4
  have : (b.take 5).take 4 = b.take 4 := by rw [List.take_take]; rfl
  rw [h, h4] at this
  revert this
  decide

/-- The test that ends the scan loop at `fp` is `scan_validates` on the image
bytes. -/
theorem accepts_eq_validates (img : Nat → Nat) (ptr_bytes : List Nat) (strict : Bool)
    (fp : Nat) : accepts img ptr_bytes strict fp = scan_validates img strict fp := by
  have hb := image_bytes_length img fp
  unfold accepts round_breaks scan_validates
  rw [round_tep_image, read_tep_image]
  unfold candidate_tep round_tep
  rw [read_tep_image]
  by_cases h5 : (image_bytes img fp).take 5 = DMI_ANCHOR
  · have h4 := not_sm_of_dmi _ h5
    simp only [h5, if_true, true_and, legacy_fixup_take_dmi _ ptr_bytes hb,
      legacy_fixup_take_anchor _ ptr_bytes hb, h4, false_and, if_false]
    cases validate_dmi_tep ((((image_bytes img fp).take DMI_TEP_SIZE).set 6 2).set 7 0) strict
      <;> simp
  · simp only [h5, if_false, false_and]
    by_cases h4 : (image_bytes img fp).take 4 = SM_ANCHOR
    · simp only [h4, true_and, if_true]
      cases validate_smbios_tep (image_bytes img fp) strict <;> simp
    · simp [h4]

theorem image_bytes_fields (img : Nat → Nat) (fp : Nat) :
    dmi_table_length (image_bytes img fp) = img (fp + 22) + 256 * img (fp + 23)
    ∧ dmi_table_address (image_bytes img fp)
        = img (fp + 24) + 256 * img (fp + 25) + 65536 * img (fp + 26)
            + 16777216 * img (fp + 27) := by
  simp [dmi_table_length, dmi_table_address, image_bytes, TEP_SIZE, List.getElem?_range]

/-- What the scan does on a backing image whose reads succeed:
`smbios_get_tep_memory` hands to `memory_read` the offsets
`E_BLOCK_START, E_BLOCK_START + 16, ...` in increasing order, each with
`offset + sizeof(tempTEP) < F_BLOCK_END`, so no read reaches `F_BLOCK_END`.
When the candidate number `n` is the lowest one with `scan_validates`, the scan
stops there (`n + 1` reads) and returns 1; if the image holds the anchor `_SM_`
there, `validate_smbios_tep` accepts the image bytes and the stored entry point
is the 32 image bytes at that offset, so its table length and table address are
the values encoded in the image.  When `scan_validates` holds of no candidate,
it returns 0, leaves the handle as it was, and has examined every candidate. -/
theorem tep_scan_contract (img : Nat → Nat) (ptr_bytes : List Nat) (e_start f_end : Nat)
    (table : smbios_table) (strict : Bool) (R : tep_memory_result)
    (hR : R = smbios_get_tep_memory (image_reader img) ptr_bytes e_start f_end table strict)
    (he : e_start + TEP_SIZE < ULONG_MODULUS) (hf : f_end + 16 ≤ ULONG_MODULUS) :
    (∀ r ∈ R.reads, r + TEP_SIZE < f_end)
    ∧ (∃ m, R.reads = (List.range m).map (fun j => e_start + 16 * j))
    ∧ (∀ n, e_start + 16 * n + TEP_SIZE < f_end →
        scan_validates img strict (e_start + 16 * n) = true →
        (∀ j, j < n → scan_validates img strict (e_start + 16 * j) = false) →
        R.retval = 1
        ∧ R.reads = (List.range (n + 1)).map (fun j => e_start + 16 * j)
        ∧ R.table.tep = candidate_tep img ptr_bytes (e_start + 16 * n)
        ∧ ((image_bytes img (e_start + 16 * n)).take 4 = SM_ANCHOR →
            validate_smbios_tep (image_bytes img (e_start + 16 * n)) strict = true
            ∧ R.table.tep = image_bytes img (e_start + 16 * n)
            ∧ dmi_table_length R.table.tep
                = img (e_start + 16 * n + 22) + 256 * img (e_start + 16 * n + 23)
            ∧ dmi_table_address R.table.tep
                = img (e_start + 16 * n + 24) + 256 * img (e_start + 16 * n + 25)
                  + 65536 * img (e_start + 16 * n + 26)
                  + 16777216 * img (e_start + 16 * n + 27)))
    ∧ ((∀ n, e_start + 16 * n + TEP_SIZE < f_end →
          scan_validates img strict (e_start + 16 * n) = false) →
        R.retval = 0 ∧ R.table = table
        ∧ ∀ n, e_start + 16 * n + TEP_SIZE < f_end → e_start + 16 * n ∈ R.reads) := by
  obtain ⟨hreads, hord⟩ := tep_scan_loop_reads (image_reader img) ptr_bytes strict f_end hf
    f_end e_start (List.replicate TEP_SIZE 0) he
  obtain ⟨hA, hB⟩ := tep_scan_loop_spec img ptr_bytes strict f_end hf f_end e_start
    (List.replicate TEP_SIZE 0) he (by omega)
  have hRreads : R.reads = (tep_scan_loop (image_reader img) ptr_bytes strict f_end f_end
      e_start (List.replicate TEP_SIZE 0)).2.2 := by
    rw [hR]; unfold smbios_get_tep_memory
    split_ifs <;> rfl
  refine ⟨by rw [hRreads]; exact hreads, by rw [hRreads]; exact hord, ?_, ?_⟩
  · intro n hn hyes hbefore
    rw [← accepts_eq_validates img ptr_bytes] at hyes
    have hloop := hA n hn hyes
      (fun j hj => by rw [accepts_eq_validates]; exact hbefore j hj)
    have hcond : ¬ (e_start + 16 * n + TEP_SIZE) % ULONG_MODULUS ≥ f_end := by
      rw [Nat.mod_eq_of_lt (by omega)]; omega
    have hRv : R = ⟨1, ⟨table.initialized, candidate_tep img ptr_bytes (e_start + 16 * n),
        table.table⟩, (List.range (n + 1)).map (fun j => e_start + 16 * j)⟩ := by
      rw [hR]; unfold smbios_get_tep_memory
      rw [hloop]
      simp only [if_neg hcond]
    refine ⟨by rw [hRv], by rw [hRv], by rw [hRv], ?_⟩
    intro hsm
    obtain ⟨hc, hv⟩ := modern_candidate img ptr_bytes strict (e_start + 16 * n) hsm
    have htep : R.table.tep = image_bytes img (e_start + 16 * n) := by rw [hRv]; exact hc
    refine ⟨by rw [← hv]; exact hyes, htep, ?_, ?_⟩
    · rw [htep]; exact (image_bytes_fields img _).1
    · rw [htep]; exact (image_bytes_fields img _).2
  · intro hnone
    obtain ⟨m, hm1, hm2, hm3, hm4, hm5⟩ := hB
      (fun n hn => by rw [accepts_eq_validates]; exact hnone n hn)
    have hcond : ((tep_scan_loop (image_reader img) ptr_bytes strict f_end f_end e_start
        (List.replicate TEP_SIZE 0)).1 + TEP_SIZE) % ULONG_MODULUS ≥ f_end := by
      rw [hm1, Nat.mod_eq_of_lt hm3]; exact hm2
    have hRv : R = ⟨0, table, (tep_scan_loop (image_reader img) ptr_bytes strict f_end f_end
        e_start (List.replicate TEP_SIZE 0)).2.2⟩ := by
      rw [hR]; unfold smbios_get_tep_memory
      simp only [if_pos hcond]
    refine ⟨by rw [hRv], by rw [hRv], ?_⟩
    intro n hn
    rw [hRreads, hm4]
    exact List.mem_map.mpr ⟨n, List.mem_range.mpr (hm5 n hn), rfl⟩

/-- The scan of an image that holds a valid modern entry point at address 48,
from 0 to 200: the scan passes the candidates 0, 16 and 32, stops at 48 and
stores the entry point with table length `0x0123` and table address
`0x000e1000`; no read reaches 200. -/
theorem tep_scan_contract_witness :
    ((smbios_get_tep_memory (image_reader sample_image) [] 0 200 (table_of [] 0) false).retval = 1
      ∧ (smbios_get_tep_memory (image_reader sample_image) [] 0 200 (table_of [] 0) false).reads
          = (List.range (3 + 1)).map (fun j => 0 + 16 * j)
      ∧ (smbios_get_tep_memory (image_reader sample_image) [] 0 200
          (table_of [] 0) false).table.tep = candidate_tep sample_image [] (0 + 16 * 3)
      ∧ ((image_bytes sample_image (0 + 16 * 3)).take 4 = SM_ANCHOR →
          validate_smbios_tep (image_bytes sample_image (0 + 16 * 3)) false = true
          ∧ (smbios_get_tep_memory (image_reader sample_image) [] 0 200
              (table_of [] 0) false).table.tep = image_bytes sample_image (0 + 16 * 3)
          ∧ dmi_table_length (smbios_get_tep_memory (image_reader sample_image) [] 0 200
              (table_of [] 0) false).table.tep
              = sample_image (0 + 16 * 3 + 22) + 256 * sample_image (0 + 16 * 3 + 23)
          ∧ dmi_table_address (smbios_get_tep_memory (image_reader sample_image) [] 0 200
              (table_of [] 0) false).table.tep
              = sample_image (0 + 16 * 3 + 24) + 256 * sample_image (0 + 16 * 3 + 25)
                + 65536 * sample_image (0 + 16 * 3 + 26)
                + 16777216 * sample_image (0 + 16 * 3 + 27)))
    ∧ (smbios_get_tep_memory (image_reader sample_image) [] 0 200 (table_of [] 0) false).reads
        = [0, 16, 32, 48]
    ∧ dmi_table_length
        (smbios_get_tep_memory (image_reader sample_image) [] 0 200 (table_of [] 0) false).table.tep
        = 0x0123
    ∧ dmi_table_address
        (smbios_get_tep_memory (image_reader sample_image) [] 0 200 (table_of [] 0) false).table.tep
        = 0x000e1000
    ∧ ∀ r ∈ (smbios_get_tep_memory (image_reader sample_image) [] 0 200
          (table_of [] 0) false).reads, r + TEP_SIZE < 200 :=
  ⟨(tep_scan_contract sample_image [] 0 200 (table_of [] 0) false _ rfl
      (by norm_num [TEP_SIZE, ULONG_MODULUS]) (by norm_num [ULONG_MODULUS])).2.2.1 3
      (by decide) (by decide) (by decide),
    by decide, by decide, by decide,
    (tep_scan_contract sample_image [] 0 200 (table_of [] 0) false _ rfl
      (by norm_num [TEP_SIZE, ULONG_MODULUS]) (by norm_num [ULONG_MODULUS])).1⟩

/-! ## C11, C12: the validators -/

theorem byte_sum_succ (ptr : List Nat) (n : Nat) :
    byte_sum ptr (n + 1) = byte_sum ptr n + ptr.getD n 0 := by
  simp [byte_sum, List.range_succ]

/-- The checksum loop computes the sum of the bytes modulo 256. -/
theorem checksum_eq (ptr : List Nat) (n : Nat) : checksum ptr n = byte_sum ptr n % 256 := by
  induction n with
  | zero => simp [checksum, byte_sum]
  | succ n ih =>
    have h : checksum ptr (n + 1) = (checksum ptr n + ptr.getD n 0) % 256 := by
      simp [checksum, List.range_succ]
    rw [h, ih, byte_sum_succ]
    omega

/-- The verdict of `validate_smbios_tep` is that of its three tests. -/
theorem validate_smbios_tep_iff (tep : List Nat) (strict : Bool) :
    validate_smbios_tep tep strict = true ↔
      byte_sum tep (min (eps_length tep) TEP_SIZE) % 256 = 0 ∧ major_ver tep = 0x02
        ∧ 0x0f ≤ eps_length tep := by
  unfold validate_smbios_tep
  simp only [checksum_eq]
  constructor
  · intro h
    split_ifs at h with h1 h2 h3
    exact ⟨by simpa using h3, by simpa using h2, by omega⟩
  · rintro ⟨h1, h2, h3⟩
    simp [h1, h2]
    omega

/-- The verdict of `validate_dmi_tep` is that of its two tests. -/
theorem validate_dmi_tep_iff (dmi : List Nat) (strict : Bool) :
    validate_dmi_tep dmi strict = true ↔
      dmi.take 5 = DMI_ANCHOR ∧ byte_sum dmi DMI_TEP_SIZE % 256 = 0 := by
  unfold validate_dmi_tep
  simp only [checksum_eq]
  constructor
  · intro h
    split_ifs at h with h1 h2
    exact ⟨by simpa using h2, by simpa using h1⟩
  · rintro ⟨h1, h2⟩
    simp [h1, h2]

/-- C11: `validate_smbios_tep` returns true exactly when the sum of the first
`min(eps_length, sizeof(struct smbios_table_entry_point))` bytes of the entry
point is 0 modulo 256, its major version byte is 2, and its `eps_length` byte is
at least `0x0f`. -/
theorem validate_smbios_tep_contract (tep : List Nat) (strict : Bool) :
    validate_smbios_tep tep strict = true ↔
      byte_sum tep (min (eps_length tep) TEP_SIZE) % 256 = 0
        ∧ major_ver tep = 2
        ∧ 0x0f ≤ eps_length tep := by
  have hsum : checksum tep (min (eps_length tep) TEP_SIZE)
      = byte_sum tep (min (eps_length tep) TEP_SIZE) % 256 := checksum_eq _ _
  unfold validate_smbios_tep
  rw [hsum]
  by_cases h1 : byte_sum tep (min (eps_length tep) TEP_SIZE) % 256 = 0
  · by_cases h2 : major_ver tep = 2
    · by_cases h3 : eps_length tep < 0x0f
      · simp [h1, h2, h3]
      · simp [h1, h2, h3]
        omega
    · simp [h1, h2]
  · simp [h1]

/-- C12 as stated fails on `sample_tep`: its embedded legacy entry point has the
anchor `_DMI_` but 15 bytes that sum to 3 modulo 256, so `validate_dmi_tep`
rejects the embedded part, and `validate_smbios_tep` accepts the entry point.
The same entry point with the embedded anchor spoiled (byte 16 set to 0 and the
main checksum byte adjusted) is accepted as well. -/
theorem nested_legacy_failure_accepted :
    (embedded_dmi sample_tep).take 5 = DMI_ANCHOR
    ∧ byte_sum (embedded_dmi sample_tep) DMI_TEP_SIZE % 256 = 3
    ∧ validate_dmi_tep (embedded_dmi sample_tep) false = false
    ∧ validate_smbios_tep sample_tep false = true
    ∧ (embedded_dmi ((sample_tep.set 16 0).set 4 0xd9)).take 5 ≠ DMI_ANCHOR
    ∧ validate_smbios_tep ((sample_tep.set 16 0).set 4 0xd9) false = true := by
  decide

/-- C12, amended: for a modern entry point whose embedded legacy entry point
carries the anchor `_DMI_` and has 15 bytes that do not sum to 0 modulo 256,
`validate_dmi_tep` rejects the embedded part, and `validate_smbios_tep`, which
calls it without using its result, returns true exactly when its own three
tests pass (main checksum, major version, `eps_length`). -/
theorem nested_checksum_not_consulted (tep : List Nat) (strict : Bool)
    (hanchor : (embedded_dmi tep).take 5 = DMI_ANCHOR)
    (hsum : byte_sum (embedded_dmi tep) DMI_TEP_SIZE % 256 ≠ 0) :
    validate_dmi_tep (embedded_dmi tep) strict = false
    ∧ (validate_smbios_tep tep strict = true ↔
        byte_sum tep (min (eps_length tep) TEP_SIZE) % 256 = 0 ∧ major_ver tep = 2
          ∧ 0x0f ≤ eps_length tep) := by
  refine ⟨?_, validate_smbios_tep_iff tep strict⟩
  cases h : validate_dmi_tep (embedded_dmi tep) strict with
  | false => rfl
  | true =>
    have := (validate_dmi_tep_iff _ strict).mp h
    exact absurd this.2 hsum

/-- The amended C12 on `sample_tep`: the embedded part is rejected and the
entry point is accepted. -/
theorem nested_checksum_not_consulted_witness :
    validate_dmi_tep (embedded_dmi sample_tep) false = false
    ∧ validate_smbios_tep sample_tep false = true :=
  ⟨(nested_checksum_not_consulted sample_tep false (by decide) (by decide)).1,
    (nested_checksum_not_consulted sample_tep false (by decide) (by decide)).2.mpr
      (by decide)⟩

/-! ## C13, C14: a spoiled checksum byte, and legacy entry points in the scan -/

theorem getD_set_ne (l : List Nat) (k i v : Nat) (h : k ≠ i) :
    (l.set k v).getD i 0 = l.getD i 0 := by
  simp [List.getElem?_set_ne h]

theorem getD_set_self (l : List Nat) (k v : Nat) (h : k < l.length) :
    (l.set k v).getD k 0 = v := by
  simp [List.getElem?_set_self h]

theorem byte_sum_set_ge (l : List Nat) (k v : Nat) :
    ∀ n, n ≤ k → byte_sum (l.set k v) n = byte_sum l n := by
  intro n
  induction n with
  | zero => intro _; simp [byte_sum]
  | succ n ih =>
    intro h
    rw [byte_sum_succ, byte_sum_succ, ih (by omega), getD_set_ne l k n v (by omega)]

/-- Replacing the byte `k` changes the sum of the first `n > k` bytes by the
difference of the two values. -/
theorem byte_sum_set_lt (l : List Nat) (k v : Nat) (hk : k < l.length) :
    ∀ n, k < n → byte_sum (l.set k v) n + l.getD k 0 = byte_sum l n + v := by
  intro n
  induction n with
  | zero => intro h; omega
  | succ n ih =>
    intro h
    rw [byte_sum_succ, byte_sum_succ]
    rcases Nat.lt_or_ge k n with hlt | hge
    · have := ih hlt
      rw [getD_set_ne l k n v (by omega)]
      omega
    · have hkn : k = n := by omega
      subst hkn
      rw [byte_sum_set_ge l k v k (le_refl _), getD_set_self l k v hk]
      omega

/-- An entry point that `validate_smbios_tep` accepts is rejected once its
checksum byte (byte 4) holds another byte value. -/
theorem validate_smbios_tep_corrupt (tep : List Nat) (v : Nat) (strict : Bool)
    (hlen : 4 < tep.length) (hb : tep.getD 4 0 < 256) (hv : v < 256) (hne : v ≠ tep.getD 4 0)
    (hok : validate_smbios_tep tep strict = true) :
    validate_smbios_tep (tep.set 4 v) strict = false := by
  obtain ⟨h1, h2, h3⟩ := (validate_smbios_tep_iff tep strict).mp hok
  cases h : validate_smbios_tep (tep.set 4 v) strict with
  | false => rfl
  | true =>
    obtain ⟨g1, _, _⟩ := (validate_smbios_tep_iff _ strict).mp h
    have he : eps_length (tep.set 4 v) = eps_length tep := getD_set_ne tep 4 5 v (by omega)
    rw [he] at g1
    have hs := byte_sum_set_lt tep 4 v hlen (min (eps_length tep) TEP_SIZE)
      (by simp only [TEP_SIZE]; omega)
    exfalso; omega

/-- A legacy entry point that `validate_dmi_tep` accepts is rejected once its
checksum byte (byte 5) holds another byte value. -/
theorem validate_dmi_tep_corrupt (dmi : List Nat) (v : Nat) (strict : Bool)
    (hlen : 5 < dmi.length) (hb : dmi.getD 5 0 < 256) (hv : v < 256) (hne : v ≠ dmi.getD 5 0)
    (hok : validate_dmi_tep dmi strict = true) :
    validate_dmi_tep (dmi.set 5 v) strict = false := by
  obtain ⟨_, h2⟩ := (validate_dmi_tep_iff dmi strict).mp hok
  cases h : validate_dmi_tep (dmi.set 5 v) strict with
  | false => rfl
  | true =>
    obtain ⟨_, g2⟩ := (validate_dmi_tep_iff _ strict).mp h
    have hs := byte_sum_set_lt dmi 5 v hlen DMI_TEP_SIZE (by simp [DMI_TEP_SIZE])
    exfalso; omega

theorem image_bytes_getD (img : Nat → Nat) (fp i : Nat) (hi : i < 32) :
    (image_bytes img fp).getD i 0 = img (fp + i) := by
  simp [image_bytes, TEP_SIZE, List.getElem?_range, hi]

/-- A replaced byte outside the 32 bytes of a candidate leaves the candidate
as it was. -/
theorem image_bytes_poke_outside (img : Nat → Nat) (p v fp : Nat)
    (h : p < fp ∨ fp + 32 ≤ p) : image_bytes (poke img p v) fp = image_bytes img fp := by
  unfold image_bytes
  apply List.map_congr_left
  intro k hk
  have hk' : k < 32 := by simpa [TEP_SIZE] using hk
  have : fp + k ≠ p := by omega
  simp [poke, this]

/-- A replaced byte inside the 32 bytes of a candidate. -/
theorem image_bytes_poke_inside (img : Nat → Nat) (i v fp : Nat) (hi : i < 32) :
    image_bytes (poke img (fp + i) v) fp = (image_bytes img fp).set i v := by
  apply List.ext_getElem?
  intro k
  rcases Nat.lt_or_ge k 32 with hk | hk
  · by_cases hki : k = i
    · subst hki
      rw [List.getElem?_set_self (by simpa [image_bytes_length] using hk)]
      simp [image_bytes, TEP_SIZE, List.getElem?_range, hk, poke]
    · rw [List.getElem?_set_ne (by omega)]
      have : fp + k ≠ fp + i := by omega
      simp [image_bytes, TEP_SIZE, List.getElem?_range, hk, poke, hki]
  · rw [List.getElem?_eq_none (by simpa [image_bytes_length] using hk),
      List.getElem?_eq_none (by simpa [image_bytes_length] using hk)]

theorem validates_congr (img1 img2 : Nat → Nat) (strict : Bool) (fp : Nat)
    (h : image_bytes img1 fp = image_bytes img2 fp) :
    scan_validates img1 strict fp = scan_validates img2 strict fp := by
  unfold scan_validates
  rw [h]

theorem take_set_same (l : List Nat) (k v : Nat) : (l.set k v).take k = l.take k := by
  rw [List.set_take, List.set_eq_of_length_le (by simp)]

/-- A candidate at which the scan stops is one at which it does not stop any
more once its checksum byte holds another byte value. -/
theorem validates_poke_self (img : Nat → Nat) (strict : Bool) (fp v : Nat)
    (hval : scan_validates img strict fp = true)
    (hb : img (fp + checksum_index (image_bytes img fp)) < 256) (hv : v < 256)
    (hne : v ≠ img (fp + checksum_index (image_bytes img fp))) :
    scan_validates (poke img (fp + checksum_index (image_bytes img fp)) v) strict fp = false := by
  have hblen := image_bytes_length img fp
  by_cases h5 : (image_bytes img fp).take 5 = DMI_ANCHOR
  · have hidx : checksum_index (image_bytes img fp) = 5 := by simp [checksum_index, h5]
    rw [hidx] at hb hne ⊢
    have hd : validate_dmi_tep ((((image_bytes img fp).take DMI_TEP_SIZE).set 6 2).set 7 0)
        strict = true := by
      simpa [scan_validates, h5] using hval
    unfold scan_validates
    rw [image_bytes_poke_inside img 5 v fp (by omega), take_set_same, if_pos h5, List.set_take,
      List.set_comm v 2 _ (by omega : (5 : Nat) ≠ 6),
      List.set_comm v 0 _ (by omega : (5 : Nat) ≠ 7)]
    apply validate_dmi_tep_corrupt _ v strict _ _ hv _ hd
    · simp [DMI_TEP_SIZE, hblen]
    · rw [getD_set_ne _ 7 5 0 (by omega), getD_set_ne _ 6 5 2 (by omega)]
      have : ((image_bytes img fp).take DMI_TEP_SIZE).getD 5 0 = (image_bytes img fp).getD 5 0 := by
        simp [DMI_TEP_SIZE, List.getElem?_take]
      rw [this, image_bytes_getD img fp 5 (by omega)]
      exact hb
    · rw [getD_set_ne _ 7 5 0 (by omega), getD_set_ne _ 6 5 2 (by omega)]
      have : ((image_bytes img fp).take DMI_TEP_SIZE).getD 5 0 = (image_bytes img fp).getD 5 0 := by
        simp [DMI_TEP_SIZE, List.getElem?_take]
      rw [this, image_bytes_getD img fp 5 (by omega)]
      exact hne
  · have hidx : checksum_index (image_bytes img fp) = 4 := by simp [checksum_index, h5]
    rw [hidx] at hb hne ⊢
    have h4 : (image_bytes img fp).take 4 = SM_ANCHOR := by
      by_contra hc
      simp [scan_validates, h5, hc] at hval
    have hs : validate_smbios_tep (image_bytes img fp) strict = true := by
      simpa [scan_validates, h5, h4] using hval
    have h4' : ((image_bytes img fp).set 4 v).take 4 = SM_ANCHOR := by
      rw [take_set_same]; exact h4
    unfold scan_validates
    rw [image_bytes_poke_inside img 4 v fp (by omega), if_neg (not_dmi_of_sm _ h4'), if_pos h4']
    apply validate_smbios_tep_corrupt _ v strict (by omega) _ hv _ hs
    · rw [image_bytes_getD img fp 4 (by omega)]; exact hb
    · rw [image_bytes_getD img fp 4 (by omega)]; exact hne

/-- When the scan stops at no candidate, `smbios_get_tep_memory` returns 0 and
leaves the handle as it was. -/
theorem get_tep_memory_not_found (img : Nat → Nat) (ptr_bytes : List Nat) (e_start f_end : Nat)
    (table : smbios_table) (strict : Bool)
    (he : e_start + TEP_SIZE < ULONG_MODULUS) (hf : f_end + 16 ≤ ULONG_MODULUS)
    (hnone : ∀ n, e_start + 16 * n + TEP_SIZE < f_end →
      scan_validates img strict (e_start + 16 * n) = false) :
    (smbios_get_tep_memory (image_reader img) ptr_bytes e_start f_end table strict).retval = 0
    ∧ (smbios_get_tep_memory (image_reader img) ptr_bytes e_start f_end table strict).table
        = table := by
  obtain ⟨_, hB⟩ := tep_scan_loop_spec img ptr_bytes strict f_end hf f_end e_start
    (List.replicate TEP_SIZE 0) he (by omega)
  obtain ⟨m, hm1, hm2, hm3, _, _⟩ := hB
    (fun n hn => by rw [accepts_eq_validates]; exact hnone n hn)
  have hcond : ((tep_scan_loop (image_reader img) ptr_bytes strict f_end f_end e_start
      (List.replicate TEP_SIZE 0)).1 + TEP_SIZE) % ULONG_MODULUS ≥ f_end := by
    rw [hm1, Nat.mod_eq_of_lt hm3]; exact hm2
  unfold smbios_get_tep_memory
  simp only [if_pos hcond, and_self]

/-- When the candidate number `n` is the lowest one the scan stops at,
`smbios_get_tep_memory` returns 1 and stores `tempTEP` of that round. -/
theorem get_tep_memory_found (img : Nat → Nat) (ptr_bytes : List Nat) (e_start f_end : Nat)
    (table : smbios_table) (strict : Bool)
    (he : e_start + TEP_SIZE < ULONG_MODULUS) (hf : f_end + 16 ≤ ULONG_MODULUS) (n : Nat)
    (hn : e_start + 16 * n + TEP_SIZE < f_end)
    (hyes : scan_validates img strict (e_start + 16 * n) = true)
    (hbefore : ∀ j, j < n → scan_validates img strict (e_start + 16 * j) = false) :
    smbios_get_tep_memory (image_reader img) ptr_bytes e_start f_end table strict
      = ⟨1, ⟨table.initialized, candidate_tep img ptr_bytes (e_start + 16 * n), table.table⟩,
          (List.range (n + 1)).map (fun j => e_start + 16 * j)⟩ := by
  obtain ⟨hA, _⟩ := tep_scan_loop_spec img ptr_bytes strict f_end hf f_end e_start
    (List.replicate TEP_SIZE 0) he (by omega)
  rw [← accepts_eq_validates img ptr_bytes] at hyes
  have hloop := hA n hn hyes (fun j hj => by rw [accepts_eq_validates]; exact hbefore j hj)
  have hcond : ¬ (e_start + 16 * n + TEP_SIZE) % ULONG_MODULUS ≥ f_end := by
    rw [Nat.mod_eq_of_lt (by omega)]; omega
  unfold smbios_get_tep_memory
  rw [hloop]
  simp only [if_neg hcond]

/-- C13 as stated fails on `overlap_image`, scanned from 0 to 200.  The entry
point at 48 is the only candidate that passes validation and the scan finds it
(reads 0, 16, 32, 48).  With its checksum byte (address 52, value `0x7a`)
replaced by `0x7b`, `validate_smbios_tep` rejects it, but the scan does not
report not-found: the replaced byte is also byte 20 of the candidate at 32,
whose checksum now fits, and the scan stops there (reads 0, 16, 32) and returns
1. -/
theorem spoiled_checksum_other_candidate :
    (∀ n, n < 11 → (passes_validation overlap_image false (16 * n) = true ↔ n = 3))
    ∧ validate_smbios_tep (image_bytes overlap_image 48) false = true
    ∧ (smbios_get_tep_memory (image_reader overlap_image) [] 0 200 (table_of [] 0) false).retval
        = 1
    ∧ (smbios_get_tep_memory (image_reader overlap_image) [] 0 200 (table_of [] 0) false).reads
        = [0, 16, 32, 48]
    ∧ overlap_image 52 = 0x7a
    ∧ validate_smbios_tep (image_bytes (poke overlap_image 52 0x7b) 48) false = false
    ∧ (smbios_get_tep_memory (image_reader (poke overlap_image 52 0x7b)) [] 0 200
        (table_of [] 0) false).retval = 1
    ∧ (smbios_get_tep_memory (image_reader (poke overlap_image 52 0x7b)) [] 0 200
        (table_of [] 0) false).reads = [0, 16, 32] := by
  decide

/-- On a candidate that does not hold the anchor `_DMI_`, what the scan makes
of it is what its validator says. -/
theorem scan_validates_eq_passes (img : Nat → Nat) (strict : Bool) (fp : Nat)
    (h : (image_bytes img fp).take 5 ≠ DMI_ANCHOR) :
    scan_validates img strict fp = passes_validation img strict fp := by
  simp only [scan_validates, passes_validation, h, if_false]

theorem passes_validation_congr (img1 img2 : Nat → Nat) (strict : Bool) (fp : Nat)
    (h : image_bytes img1 fp = image_bytes img2 fp) :
    passes_validation img1 strict fp = passes_validation img2 strict fp := by
  unfold passes_validation
  rw [h]

/-- A modern candidate that passes validation neither passes it nor stops the
scan once its checksum byte holds another byte value. -/
theorem modern_candidate_spoiled (img : Nat → Nat) (ptr_bytes : List Nat) (strict : Bool)
    (fp v : Nat) (hsm : (image_bytes img fp).take 4 = SM_ANCHOR)
    (hval : validate_smbios_tep (image_bytes img fp) strict = true)
    (hb : img (fp + 4) < 256) (hv : v < 256) (hne : v ≠ img (fp + 4)) :
    (image_bytes (poke img (fp + 4) v) fp).take 5 ≠ DMI_ANCHOR
    ∧ scan_validates (poke img (fp + 4) v) strict fp = false
    ∧ passes_validation (poke img (fp + 4) v) strict fp = false
    ∧ accepts (poke img (fp + 4) v) ptr_bytes strict fp = false := by
  have h5 := not_dmi_of_sm _ hsm
  have hidx : checksum_index (image_bytes img fp) = 4 := by simp [checksum_index, h5]
  have hscan : scan_validates img strict fp = true := by
    simp [scan_validates, h5, hsm, hval]
  have hself := validates_poke_self img strict fp v hscan (by rw [hidx]; exact hb) hv
    (by rw [hidx]; exact hne)
  rw [hidx] at hself
  have h4 : (image_bytes (poke img (fp + 4) v) fp).take 4 = SM_ANCHOR := by
    rw [image_bytes_poke_inside img 4 v fp (by omega), take_set_same]
    exact hsm
  have h5p := not_dmi_of_sm _ h4
  refine ⟨h5p, hself, ?_, ?_⟩
  · rw [← scan_validates_eq_passes _ strict fp h5p]
    exact hself
  · rw [accepts_eq_validates]
    exact hself

/-- C13, amended: an entry point that `validate_smbios_tep` (resp.
`validate_dmi_tep`) accepts is rejected by the same validator once its checksum
byte (byte 4, resp. byte 5) holds another byte value.  In the scan over an image
whose reads succeed, a modern candidate so spoiled does not pass validation and
its round does not stop the scan.  When it was the only candidate that passed
validation and the candidate 16 bytes below it, whose 32 bytes hold the replaced
byte, does not pass validation after the replacement, the scan stops at no
candidate without the anchor `_DMI_`: `smbios_get_tep_memory` returns 0 and
leaves the handle as it was, or it stops at a candidate that holds the anchor
`_DMI_`; it returns 0 when no candidate holds that anchor.  What the scan makes
of candidates with the anchor `_DMI_` is left open. -/
theorem spoiled_checksum (img : Nat → Nat) (ptr_bytes : List Nat) (e_start f_end : Nat)
    (table : smbios_table) (strict : Bool) (n v : Nat)
    (he : e_start + TEP_SIZE < ULONG_MODULUS) (hf : f_end + 16 ≤ ULONG_MODULUS)
    (hn : e_start + 16 * n + TEP_SIZE < f_end)
    (hsm : (image_bytes img (e_start + 16 * n)).take 4 = SM_ANCHOR)
    (hval : validate_smbios_tep (image_bytes img (e_start + 16 * n)) strict = true)
    (honly : ∀ j, j ≠ n → e_start + 16 * j + TEP_SIZE < f_end →
      passes_validation img strict (e_start + 16 * j) = false)
    (hb : img (e_start + 16 * n + 4) < 256) (hv : v < 256)
    (hne : v ≠ img (e_start + 16 * n + 4))
    (hbelow : ∀ m, m + 1 = n →
      passes_validation (poke img (e_start + 16 * n + 4) v) strict (e_start + 16 * m)
        = false) :
    (∀ tep w, 4 < tep.length → tep.getD 4 0 < 256 → w < 256 → w ≠ tep.getD 4 0 →
        validate_smbios_tep tep strict = true → validate_smbios_tep (tep.set 4 w) strict = false)
    ∧ (∀ dmi w, 5 < dmi.length → dmi.getD 5 0 < 256 → w < 256 → w ≠ dmi.getD 5 0 →
        validate_dmi_tep dmi strict = true → validate_dmi_tep (dmi.set 5 w) strict = false)
    ∧ passes_validation (poke img (e_start + 16 * n + 4) v) strict (e_start + 16 * n) = false
    ∧ accepts (poke img (e_start + 16 * n + 4) v) ptr_bytes strict (e_start + 16 * n) = false
    ∧ (((smbios_get_tep_memory (image_reader (poke img (e_start + 16 * n + 4) v)) ptr_bytes
            e_start f_end table strict).retval = 0
          ∧ (smbios_get_tep_memory (image_reader (poke img (e_start + 16 * n + 4) v)) ptr_bytes
            e_start f_end table strict).table = table)
        ∨ ((smbios_get_tep_memory (image_reader (poke img (e_start + 16 * n + 4) v)) ptr_bytes
            e_start f_end table strict).retval = 1
          ∧ ∃ j, e_start + 16 * j + TEP_SIZE < f_end
              ∧ (image_bytes (poke img (e_start + 16 * n + 4) v) (e_start + 16 * j)).take 5
                  = DMI_ANCHOR
              ∧ (smbios_get_tep_memory (image_reader (poke img (e_start + 16 * n + 4) v))
                  ptr_bytes e_start f_end table strict).reads
                  = (List.range (j + 1)).map (fun i => e_start + 16 * i)))
    ∧ ((∀ j, e_start + 16 * j + TEP_SIZE < f_end →
          (image_bytes (poke img (e_start + 16 * n + 4) v) (e_start + 16 * j)).take 5
            ≠ DMI_ANCHOR) →
        (smbios_get_tep_memory (image_reader (poke img (e_start + 16 * n + 4) v)) ptr_bytes
            e_start f_end table strict).retval = 0
        ∧ (smbios_get_tep_memory (image_reader (poke img (e_start + 16 * n + 4) v)) ptr_bytes
            e_start f_end table strict).table = table) := by
  obtain ⟨_, hself, hpass, hacc⟩ := modern_candidate_spoiled img ptr_bytes strict
    (e_start + 16 * n) v hsm hval hb hv hne
  have hnodmi : ∀ j, e_start + 16 * j + TEP_SIZE < f_end →
      (image_bytes (poke img (e_start + 16 * n + 4) v) (e_start + 16 * j)).take 5 ≠ DMI_ANCHOR →
      scan_validates (poke img (e_start + 16 * n + 4) v) strict (e_start + 16 * j) = false := by
    intro j hj h5
    rw [scan_validates_eq_passes _ strict _ h5]
    rcases Nat.lt_trichotomy j n with hlt | heq | hgt
    · rcases Nat.lt_or_ge (j + 1) n with h2 | h2
      · rw [passes_validation_congr _ img strict _
          (image_bytes_poke_outside img _ v _ (Or.inr (by omega)))]
        exact honly j (by omega) hj
      · exact hbelow j (by omega)
    · subst heq; exact hpass
    · rw [passes_validation_congr _ img strict _
        (image_bytes_poke_outside img _ v _ (Or.inl (by omega)))]
      exact honly j (by omega) hj
  have hor : ((smbios_get_tep_memory (image_reader (poke img (e_start + 16 * n + 4) v)) ptr_bytes
            e_start f_end table strict).retval = 0
          ∧ (smbios_get_tep_memory (image_reader (poke img (e_start + 16 * n + 4) v)) ptr_bytes
            e_start f_end table strict).table = table)
        ∨ ((smbios_get_tep_memory (image_reader (poke img (e_start + 16 * n + 4) v)) ptr_bytes
            e_start f_end table strict).retval = 1
          ∧ ∃ j, e_start + 16 * j + TEP_SIZE < f_end
              ∧ (image_bytes (poke img (e_start + 16 * n + 4) v) (e_start + 16 * j)).take 5
                  = DMI_ANCHOR
              ∧ (smbios_get_tep_memory (image_reader (poke img (e_start + 16 * n + 4) v))
                  ptr_bytes e_start f_end table strict).reads
                  = (List.range (j + 1)).map (fun i => e_start + 16 * i)) := by
    by_cases hex : ∃ j, e_start + 16 * j + TEP_SIZE < f_end
        ∧ scan_validates (poke img (e_start + 16 * n + 4) v) strict (e_start + 16 * j) = true
    · right
      obtain ⟨hj, hyes⟩ := Nat.find_spec hex
      have hfound := get_tep_memory_found (poke img (e_start + 16 * n + 4) v) ptr_bytes e_start
        f_end table strict he hf (Nat.find hex) hj hyes
        (fun j hlt => by
          have hmin := Nat.find_min hex hlt
          cases hs : scan_validates (poke img (e_start + 16 * n + 4) v) strict
              (e_start + 16 * j) with
          | false => rfl
          | true => exact absurd ⟨by omega, hs⟩ hmin)
      refine ⟨by rw [hfound], Nat.find hex, hj, ?_, by rw [hfound]⟩
      by_contra h5
      rw [hnodmi _ hj h5] at hyes
      exact Bool.false_ne_true hyes
    · left
      apply get_tep_memory_not_found _ ptr_bytes e_start f_end table strict he hf
      intro j hj
      cases hs : scan_validates (poke img (e_start + 16 * n + 4) v) strict
          (e_start + 16 * j) with
      | false => rfl
      | true => exact absurd ⟨j, hj, hs⟩ hex
  refine ⟨fun tep w h1 h2 h3 h4 h5 => validate_smbios_tep_corrupt tep w strict h1 h2 h3 h4 h5,
    fun dmi w h1 h2 h3 h4 h5 => validate_dmi_tep_corrupt dmi w strict h1 h2 h3 h4 h5,
    hpass, hacc, hor, ?_⟩
  intro hno
  exact get_tep_memory_not_found _ ptr_bytes e_start f_end table strict he hf
    (fun j hj => hnodmi j hj (hno j hj))

/-- The amended C13 on `sample_image`, scanned from 0 to 200: with the checksum
byte of the entry point at 48 replaced by `0x7b`, the candidate does not pass
validation, its round does not stop the scan, and the scan returns 0 (the
candidate at 64 holds the anchor `_DMI_` of the embedded legacy entry point,
and the scan does not stop there). -/
theorem spoiled_checksum_witness :
    (passes_validation (poke sample_image (0 + 16 * 3 + 4) 0x7b) false (0 + 16 * 3) = false
      ∧ accepts (poke sample_image (0 + 16 * 3 + 4) 0x7b) [] false (0 + 16 * 3) = false
      ∧ (((smbios_get_tep_memory (image_reader (poke sample_image (0 + 16 * 3 + 4) 0x7b)) []
              0 200 (table_of [] 0) false).retval = 0
            ∧ (smbios_get_tep_memory (image_reader (poke sample_image (0 + 16 * 3 + 4) 0x7b)) []
              0 200 (table_of [] 0) false).table = table_of [] 0)
          ∨ ((smbios_get_tep_memory (image_reader (poke sample_image (0 + 16 * 3 + 4) 0x7b)) []
              0 200 (table_of [] 0) false).retval = 1
            ∧ ∃ j, 0 + 16 * j + TEP_SIZE < 200
                ∧ (image_bytes (poke sample_image (0 + 16 * 3 + 4) 0x7b) (0 + 16 * j)).take 5
                    = DMI_ANCHOR
                ∧ (smbios_get_tep_memory (image_reader (poke sample_image (0 + 16 * 3 + 4) 0x7b))
                    [] 0 200 (table_of [] 0) false).reads
                    = (List.range (j + 1)).map (fun i => 0 + 16 * i))))
    ∧ (smbios_get_tep_memory (image_reader (poke sample_image 52 0x7b)) [] 0 200
        (table_of [] 0) false).retval = 0 := by
  have h := spoiled_checksum sample_image [] 0 200 (table_of [] 0) false 3 0x7b
    (by norm_num [TEP_SIZE, ULONG_MODULUS]) (by norm_num [ULONG_MODULUS]) (by decide)
    (by decide) (by decide)
    (fun j hj hr => by
      have hlt : j < 11 := by simp only [TEP_SIZE] at hr; omega
      interval_cases j <;> first | decide | exact absurd rfl hj)
    (by decide) (by decide) (by decide)
    (fun m hm => by
      have h2 : m = 2 := by omega
      subst h2; decide)
  exact ⟨⟨h.2.2.1, h.2.2.2.1, h.2.2.2.2.1⟩, by decide⟩

/-- C14, the failing input: the image `legacy_image`, scanned from 0 to 200.
The lowest candidate that holds an anchor is the one at 48; it holds
`legacy_tep`, which passes `validate_dmi_tep` as it lies in the image (table
length `0x0123`).  The scan does not stop there: before it validates, the
`_DMI_` branch sets `major_ver` and `minor_ver` of `tempTEP`, which are bytes
6 and 7 of the legacy entry point (its table length), so the checksum fails;
`smbios_get_tep_memory` returns 0 and leaves the handle as it was. -/
theorem legacy_entry_point_not_found (ptr_bytes : List Nat) (table : smbios_table) :
    validate_dmi_tep ((image_bytes legacy_image 48).take DMI_TEP_SIZE) false = true
    ∧ (image_bytes legacy_image 48).take 5 = DMI_ANCHOR
    ∧ (∀ n, n < 3 → (image_bytes legacy_image (16 * n)).take 5 ≠ DMI_ANCHOR
        ∧ (image_bytes legacy_image (16 * n)).take 4 ≠ SM_ANCHOR)
    ∧ validate_dmi_tep
        ((((image_bytes legacy_image 48).take DMI_TEP_SIZE).set 6 2).set 7 0) false = false
    ∧ (smbios_get_tep_memory (image_reader legacy_image) ptr_bytes 0 200 table false).retval = 0
    ∧ (smbios_get_tep_memory (image_reader legacy_image) ptr_bytes 0 200 table false).table
        = table := by
  refine ⟨by decide, by decide, by decide, by decide, ?_⟩
  apply get_tep_memory_not_found legacy_image ptr_bytes 0 200 table false
    (by norm_num [TEP_SIZE, ULONG_MODULUS]) (by norm_num [ULONG_MODULUS])
  intro j hr
  have hlt : j < 11 := by simp only [TEP_SIZE] at hr; omega
  interval_cases j <;> decide

/-! ## C17, C18: failure of the acquisition -/

/-- What `smbios_get_tep_memory` does to the handle: nothing when it returns 0,
and it only stores the entry point otherwise. -/
theorem get_tep_memory_handle (rd : reader) (ptr_bytes : List Nat) (e_start f_end : Nat)
    (m : smbios_table) (strict : Bool) :
    ((smbios_get_tep_memory rd ptr_bytes e_start f_end m strict).retval = 0 →
      (smbios_get_tep_memory rd ptr_bytes e_start f_end m strict).table = m)
    ∧ (smbios_get_tep_memory rd ptr_bytes e_start f_end m strict).table.initialized
        = m.initialized
    ∧ (smbios_get_tep_memory rd ptr_bytes e_start f_end m strict).table.table = m.table := by
  unfold smbios_get_tep_memory
  split_ifs <;> simp

/-- What `smbios_get_table_memory` leaves in the handle when it fails. -/
theorem get_table_memory_failure (rd : reader) (ptr_bytes : List Nat) (e_start f_end : Nat)
    (m : smbios_table)
    (hfail : (smbios_get_table_memory rd ptr_bytes e_start f_end m).retval < 0) :
    (smbios_get_table_memory rd ptr_bytes e_start f_end m).table.initialized = m.initialized
    ∧ ((smbios_get_tep_memory rd ptr_bytes e_start f_end m false).retval = 0 →
        (smbios_get_table_memory rd ptr_bytes e_start f_end m).table = m)
    ∧ ((smbios_get_tep_memory rd ptr_bytes e_start f_end m false).retval ≠ 0 →
        (smbios_get_table_memory rd ptr_bytes e_start f_end m).table.table = none
        ∧ (smbios_get_table_memory rd ptr_bytes e_start f_end m).table.tep
            = (smbios_get_tep_memory rd ptr_bytes e_start f_end m false).table.tep) := by
  obtain ⟨h0, hinit, _⟩ := get_tep_memory_handle rd ptr_bytes e_start f_end m false
  unfold smbios_get_table_memory at hfail ⊢
  by_cases hr : (smbios_get_tep_memory rd ptr_bytes e_start f_end m false).retval = 0
  · simp only [if_pos hr]
    exact ⟨hinit, fun _ => h0 hr, fun h => absurd hr h⟩
  · simp only [if_neg hr] at hfail ⊢
    cases hrd : rd
      (dmi_table_address (smbios_get_tep_memory rd ptr_bytes e_start f_end m false).table.tep)
      (dmi_table_length (smbios_get_tep_memory rd ptr_bytes e_start f_end m false).table.tep) with
    | none =>
      simp only [hrd]
      exact ⟨hinit, fun h => absurd h hr, fun _ => by simp⟩
    | some bytes =>
      rw [hrd] at hfail
      simp at hfail

/-- C17 as stated fails: on an image that holds a valid entry point at 48
(table of `0x0123` bytes at address `0x000e1000`) and with a `memory_read`
that fails beyond address 4096, `smbios_get_table_memory` on a fresh handle
finds the entry point, fails to copy the table, returns -1, and leaves the
found entry point in `tep`, which held zero bytes before the call. -/
theorem table_memory_failure_keeps_tep :
    (smbios_get_tep_memory (low_reader sample_image) [] 0 200 fresh_table false).retval = 1
    ∧ (smbios_get_table_memory (low_reader sample_image) [] 0 200 fresh_table).retval = -1
    ∧ (smbios_get_table_memory (low_reader sample_image) [] 0 200 fresh_table).table.tep
        = sample_tep
    ∧ fresh_table.tep = List.replicate 32 0
    ∧ (smbios_get_table_memory (low_reader sample_image) [] 0 200 fresh_table).table.tep
        ≠ fresh_table.tep
    ∧ (smbios_get_table_memory (low_reader sample_image) [] 0 200 fresh_table).table.table
        = none := by
  decide

/-- C17, amended: when `smbios_get_table_memory` returns a negative value, the
flag of the handle is as before; if no entry point was found, the whole handle
(entry point and table pointer) is as before the call; if an entry point was
found and the copy of the table bytes failed, the table pointer is null and
`tep` holds the entry point that was found. -/
theorem table_memory_failure_state (rd : reader) (ptr_bytes : List Nat) (e_start f_end : Nat)
    (m : smbios_table)
    (hfail : (smbios_get_table_memory rd ptr_bytes e_start f_end m).retval < 0) :
    (smbios_get_table_memory rd ptr_bytes e_start f_end m).table.initialized = m.initialized
    ∧ ((smbios_get_tep_memory rd ptr_bytes e_start f_end m false).retval = 0 →
        (smbios_get_table_memory rd ptr_bytes e_start f_end m).table.tep = m.tep
        ∧ (smbios_get_table_memory rd ptr_bytes e_start f_end m).table.table = m.table)
    ∧ ((smbios_get_tep_memory rd ptr_bytes e_start f_end m false).retval ≠ 0 →
        (smbios_get_table_memory rd ptr_bytes e_start f_end m).table.table = none
        ∧ (smbios_get_table_memory rd ptr_bytes e_start f_end m).table.tep
            = (smbios_get_tep_memory rd ptr_bytes e_start f_end m false).table.tep) := by
  obtain ⟨h1, h2, h3⟩ := get_table_memory_failure rd ptr_bytes e_start f_end m hfail
  refine ⟨h1, fun h => ?_, h3⟩
  rw [h2 h]
  exact ⟨rfl, rfl⟩

/-- The amended C17 on the two ways to fail: no entry point in an image of zero
bytes (handle as before), and the entry point of `sample_image` with a copy
that fails (null table pointer, the found entry point in `tep`). -/
theorem table_memory_failure_state_witness :
    ((smbios_get_table_memory (image_reader (fun _ => 0)) [] 0 200 fresh_table).table.tep
        = fresh_table.tep
      ∧ (smbios_get_table_memory (image_reader (fun _ => 0)) [] 0 200 fresh_table).table.table
        = fresh_table.table)
    ∧ ((smbios_get_table_memory (low_reader sample_image) [] 0 200 fresh_table).table.table
        = none
      ∧ (smbios_get_table_memory (low_reader sample_image) [] 0 200 fresh_table).table.tep
        = (smbios_get_tep_memory (low_reader sample_image) [] 0 200 fresh_table false).table.tep) :=
  ⟨(table_memory_failure_state (image_reader (fun _ => 0)) [] 0 200 fresh_table
      (by decide)).2.1 (by decide),
    (table_memory_failure_state (low_reader sample_image) [] 0 200 fresh_table
      (by decide)).2.2 (by decide)⟩

theorem memory_strategy_fails_clean (rd : reader) (ptr_bytes : List Nat) (e_start f_end : Nat)
    (hmem : ∀ h, (smbios_get_table_memory rd ptr_bytes e_start f_end h).retval < 0) :
    fails_clean (memory_strategy rd ptr_bytes e_start f_end) := by
  intro h
  obtain ⟨h1, h2, h3⟩ := get_table_memory_failure rd ptr_bytes e_start f_end h (hmem h)
  refine ⟨hmem h, h1, fun hnone => ?_⟩
  by_cases hr : (smbios_get_tep_memory rd ptr_bytes e_start f_end h false).retval = 0
  · show (smbios_get_table_memory rd ptr_bytes e_start f_end h).table.table = none
    rw [h2 hr]; exact hnone
  · exact (h3 hr).1

/-- When the four strategies fail, `init_smbios_struct` leaves the flag set and,
on a handle without table buffer, no table buffer. -/
theorem init_all_fail (efi mem wmi firm : strategy) (m : smbios_table)
    (h1 : fails_clean efi) (h2 : fails_clean mem) (h3 : fails_clean wmi)
    (h4 : fails_clean firm) (hm : m.table = none) :
    (init_smbios_struct efi mem wmi firm m).initialized = 1
    ∧ (init_smbios_struct efi mem wmi firm m).table = none := by
  obtain ⟨a1, a2, a3⟩ := h1 ⟨1, m.tep, m.table⟩
  obtain ⟨b1, b2, b3⟩ := h2 (efi ⟨1, m.tep, m.table⟩).2
  obtain ⟨c1, c2, c3⟩ := h3 (mem (efi ⟨1, m.tep, m.table⟩).2).2
  obtain ⟨d1, d2, d3⟩ := h4 (wmi (mem (efi ⟨1, m.tep, m.table⟩).2).2).2
  have e : init_smbios_struct efi mem wmi firm m
      = (firm (wmi (mem (efi ⟨1, m.tep, m.table⟩).2).2).2).2 := by
    unfold init_smbios_struct
    simp only [ge_iff_le, if_neg (not_le.mpr a1), if_neg (not_le.mpr b1),
      if_neg (not_le.mpr c1)]
  rw [e]
  exact ⟨by rw [d2, c2, b2, a2], d3 (c3 (b3 (a3 hm)))⟩

theorem next_struct_no_table (t : smbios_table) (cur : Option Nat) (h : t.table = none) :
    smbios_table_get_next_struct t cur = (none, []) := by
  simp [smbios_table_get_next_struct, h]

/-- C18 as stated fails: with an EFI, a WMI and a firmware-table strategy that
fail, and a memory scan over an image of zero bytes, which fails as well,
`init_smbios_struct` on a fresh handle leaves the flag `initialized` at 1, and
so does `smbios_table_factory`, for the singleton and for a new handle. -/
theorem failed_handle_is_initialized :
    (failing_strategy ⟨1, fresh_table.tep, fresh_table.table⟩).1 < 0
    ∧ (memory_strategy (image_reader (fun _ => 0)) [] 0 200
        ⟨1, fresh_table.tep, fresh_table.table⟩).1 < 0
    ∧ (init_smbios_struct failing_strategy (memory_strategy (image_reader (fun _ => 0)) [] 0 200)
        failing_strategy failing_strategy fresh_table).initialized = 1
    ∧ (smbios_table_factory failing_strategy
        (memory_strategy (image_reader (fun _ => 0)) [] 0 200) failing_strategy failing_strategy
        id 0 1 fresh_table 0).initialized = 1
    ∧ (smbios_table_factory failing_strategy
        (memory_strategy (image_reader (fun _ => 0)) [] 0 200) failing_strategy failing_strategy
        id 0 1 fresh_table 2).initialized = 1 := by
  decide

/-- C18, amended: when the four strategies fail (the three that are not among
the sources keeping the flag and adding no table buffer when they fail), then
after `init_smbios_struct` on a handle without table buffer, and after
`smbios_table_factory` on a singleton that is not initialized or on a new
handle, the flag `initialized` is set (1), the handle has no table buffer, and
`smbios_table_get_next_struct` returns `none` for every `cur`. -/
theorem all_strategies_fail (efi wmi firm : strategy)
    (do_smbios_fixups : smbios_table → smbios_table) (rd : reader) (ptr_bytes : List Nat)
    (e_start f_end defaults get_singleton flags : Nat) (singleton m : smbios_table)
    (hefi : fails_clean efi) (hwmi : fails_clean wmi) (hfirm : fails_clean firm)
    (hmem : ∀ h, (smbios_get_table_memory rd ptr_bytes e_start f_end h).retval < 0)
    (hfix : ∀ h, h.table = none → do_smbios_fixups h = h)
    (hm : m.table = none)
    (hs : singleton.initialized = 0 ∧ singleton.table = none) :
    ((init_smbios_struct efi (memory_strategy rd ptr_bytes e_start f_end) wmi firm m).initialized
        = 1
      ∧ (init_smbios_struct efi (memory_strategy rd ptr_bytes e_start f_end) wmi firm m).table
        = none
      ∧ ∀ cur, smbios_table_get_next_struct
          (init_smbios_struct efi (memory_strategy rd ptr_bytes e_start f_end) wmi firm m) cur
          = (none, []))
    ∧ ((smbios_table_factory efi (memory_strategy rd ptr_bytes e_start f_end) wmi firm
          do_smbios_fixups defaults get_singleton singleton flags).initialized = 1
      ∧ (smbios_table_factory efi (memory_strategy rd ptr_bytes e_start f_end) wmi firm
          do_smbios_fixups defaults get_singleton singleton flags).table = none
      ∧ ∀ cur, smbios_table_get_next_struct
          (smbios_table_factory efi (memory_strategy rd ptr_bytes e_start f_end) wmi firm
            do_smbios_fixups defaults get_singleton singleton flags) cur = (none, [])) := by
  have hmc := memory_strategy_fails_clean rd ptr_bytes e_start f_end hmem
  have hinit : ∀ h : smbios_table, h.table = none →
      (init_smbios_struct efi (memory_strategy rd ptr_bytes e_start f_end) wmi firm h).initialized
        = 1
      ∧ (init_smbios_struct efi (memory_strategy rd ptr_bytes e_start f_end) wmi firm h).table
        = none
      ∧ ∀ cur, smbios_table_get_next_struct
          (init_smbios_struct efi (memory_strategy rd ptr_bytes e_start f_end) wmi firm h) cur
          = (none, []) := by
    intro h hh
    obtain ⟨i1, i2⟩ := init_all_fail efi _ wmi firm h hefi hmc hwmi hfirm hh
    exact ⟨i1, i2, fun cur => next_struct_no_table _ cur i2⟩
  refine ⟨hinit m hm, ?_⟩
  have hsel : ∀ h : smbios_table, h.initialized = 0 → h.table = none →
      (if h.initialized ≠ 0 then h
        else do_smbios_fixups (init_smbios_struct efi
          (memory_strategy rd ptr_bytes e_start f_end) wmi firm h))
      = init_smbios_struct efi (memory_strategy rd ptr_bytes e_start f_end) wmi firm h := by
    intro h h0 hh
    rw [if_neg (by simp [h0]), hfix _ (hinit h hh).2.1]
  unfold smbios_table_factory
  by_cases hflag : (if flags = defaults then get_singleton else flags) &&& get_singleton ≠ 0
  · simp only [if_pos hflag]
    rw [hsel singleton hs.1 hs.2]
    exact hinit singleton hs.2
  · simp only [if_neg hflag]
    rw [hsel fresh_table rfl rfl]
    exact hinit fresh_table rfl

/-- The amended C18 with three strategies that fail and a memory scan over an
image of zero bytes from 0 to 200. -/
theorem all_strategies_fail_witness :
    (init_smbios_struct failing_strategy (memory_strategy (image_reader (fun _ => 0)) [] 0 200)
        failing_strategy failing_strategy fresh_table).initialized = 1
    ∧ (init_smbios_struct failing_strategy (memory_strategy (image_reader (fun _ => 0)) [] 0 200)
        failing_strategy failing_strategy fresh_table).table = none
    ∧ ∀ cur, smbios_table_get_next_struct
        (init_smbios_struct failing_strategy
          (memory_strategy (image_reader (fun _ => 0)) [] 0 200)
          failing_strategy failing_strategy fresh_table) cur = (none, []) :=
  (all_strategies_fail failing_strategy failing_strategy failing_strategy id
    (image_reader (fun _ => 0)) [] 0 200 0 1 0 fresh_table fresh_table
    (fun _ => ⟨by simp [failing_strategy], rfl, fun hh => hh⟩) (fun _ => ⟨by simp [failing_strategy], rfl, fun hh => hh⟩)
    (fun _ => ⟨by simp [failing_strategy], rfl, fun hh => hh⟩)
    (fun h => by
      have hz := (get_tep_memory_not_found (fun _ => 0) [] 0 200 h false
        (by norm_num [TEP_SIZE, ULONG_MODULUS]) (by norm_num [ULONG_MODULUS])
        (fun n hn => by
          have hlt : n < 11 := by simp only [TEP_SIZE] at hn; omega
          interval_cases n <;> decide)).1
      simp [smbios_get_table_memory, hz])
    (fun h _ => rfl) rfl ⟨rfl, rfl⟩).1

/-! ## C19: the visitor walk -/

theorem range_succ_map_shift (f : Nat → Option Nat) (n : Nat) :
    (List.range (n + 1)).map f = f 0 :: (List.range n).map (fun k => f (k + 1)) := by
  rw [List.range_succ_eq_map]
  simp [List.map_map, Function.comp]

/-- From a structure `o`, the walk calls the visitor with `o` and then with
the structures that follow it, up to the first `none`, which it does not pass
on. -/
theorem walk_loop_spec (t : smbios_table) :
    ∀ (fuel o : Nat), calls_left t (some o) ≤ fuel →
      ∃ n, walk_loop t fuel (some o) = some o :: (List.range n).map (seq_after t (some o))
        ∧ (∀ k, k < n → seq_after t (some o) k ≠ none)
        ∧ seq_after t (some o) n = none := by
  intro fuel
  induction fuel with
  | zero =>
    intro o h
    have := calls_left_pos t (some o)
    omega
  | succ fuel ih =>
    intro o h
    cases hn : (smbios_table_get_next_struct t (some o)).1 with
    | none =>
      refine ⟨0, by simp [walk_loop, hn], fun k hk => by omega, hn⟩
    | some s1 =>
      have hdec := calls_left_decreases t (some o) s1 hn
      obtain ⟨n, h1, h2, h3⟩ := ih s1 (by omega)
      have hshift := seq_after_shift t (some o) s1 hn
      have h0 : seq_after t (some o) 0 = some s1 := hn
      refine ⟨n + 1, ?_, ?_, ?_⟩
      · rw [range_succ_map_shift, h0]
        simp only [walk_loop, hn, h1, hshift]
      · intro k hk
        cases k with
        | zero => rw [h0]; simp
        | succ k => rw [hshift]; exact h2 k (by omega)
      · rw [hshift]; exact h3

/-- On a handle with a table buffer the walk calls the visitor once with each
structure of the iteration, in order, and with nothing else. -/
theorem walk_with_buffer (t : smbios_table) (mem : List Nat) (ht : t.table = some mem) :
    ∃ n, smbios_table_walk t = (List.range (n + 1)).map (nth_struct t)
      ∧ (∀ k, k ≤ n → nth_struct t k ≠ none)
      ∧ nth_struct t (n + 1) = none := by
  have hfirst : (smbios_table_get_next_struct t none).1 = some 0 := by
    simp [smbios_table_get_next_struct, ht]
  obtain ⟨n, h1, h2, h3⟩ := walk_loop_spec t (t.table_length + 3) 0
    (by simp [calls_left])
  have hshift := seq_after_shift t none 0 hfirst
  have h0 : nth_struct t 0 = some 0 := hfirst
  refine ⟨n, ?_, ?_, ?_⟩
  · unfold smbios_table_walk
    rw [hfirst, h1, range_succ_map_shift, h0]
    congr 1
    apply List.map_congr_left
    intro k _
    exact (hshift k).symm
  · intro k hk
    cases k with
    | zero => rw [h0]; simp
    | succ k =>
      show seq_after t none (k + 1) ≠ none
      rw [hshift]; exact h2 k (by omega)
  · show seq_after t none (n + 1) = none
    rw [hshift]; exact h3

/-- C19, the failing input: a handle without table buffer.  The do-while loop
of `smbios_table_walk` calls the visitor once, with the null pointer, before it
looks at the result of `smbios_table_get_next_struct`; on the table of the
spec's example the visitor is called with the four structures in order. -/
theorem walk_without_buffer :
    fresh_table.table = none
    ∧ smbios_table_walk fresh_table = [none]
    ∧ smbios_table_walk (table_of (encode_table (sample_records ++ [end_marker])) 31)
        = [some 0, some 8, some 16, some 25] := by
  decide

/-! ## C20: the offsets of the records -/

/-- C20: on a table made of `n ≥ 1` well-formed records of which only the last
one has type `0x7F`, with `table_length` the size of the table, call `k` (from
0) of the iteration returns the structure at the sum of the encoded sizes of
the `k` records before it, for every `k < n`, and the call after the last
record returns `none`. -/
theorem record_offsets (t : smbios_table) (rs : List record)
    (hne : rs ≠ []) (hwf : ∀ r ∈ rs, well_formed r)
    (hlast : ∀ j r, rs[j]? = some r → (r.type = 0x7f ↔ j + 1 = rs.length))
    (ht : t.table = some (encode_table rs))
    (hl : t.table_length = (encode_table rs).length) :
    (∀ k, k < rs.length → nth_struct t k = some (record_offset rs k))
    ∧ nth_struct t rs.length = none := by
  have hreach : ∀ k, k < rs.length → nth_struct t k = some (record_offset rs k) := by
    intro k hk
    apply nth_struct_records t rs hwf ht hl k hk
    intro j hj r hr h7
    have := (hlast j r hr).mp h7
    omega
  refine ⟨hreach, ?_⟩
  have hpos : 0 < rs.length := List.length_pos.mpr hne
  have hget : rs[rs.length - 1]? = some rs[rs.length - 1] :=
    List.getElem?_eq_getElem (by omega)
  have h7 : (rs[rs.length - 1]).type = 0x7f := (hlast _ _ hget).mpr (by omega)
  have := nth_struct_end t rs hwf ht hl (rs.length - 1) _ hget h7 (hreach _ (by omega))
  rwa [Nat.sub_add_cancel hpos] at this

/-- C20 on the three records of the spec's example followed by the end marker:
offsets 0, 8, 16 and 25, then `none`. -/
theorem record_offsets_witness :
    (∀ k, k < (sample_records ++ [end_marker]).length →
        nth_struct (table_of (encode_table (sample_records ++ [end_marker])) 31) k
          = some (record_offset (sample_records ++ [end_marker]) k))
    ∧ nth_struct (table_of (encode_table (sample_records ++ [end_marker])) 31)
        (sample_records ++ [end_marker]).length = none
    ∧ (List.range 4).map (record_offset (sample_records ++ [end_marker])) = [0, 8, 16, 25] :=
  ⟨(record_offsets (table_of (encode_table (sample_records ++ [end_marker])) 31)
      (sample_records ++ [end_marker]) (by simp) (by decide)
      (fun j r hr => by
        have hlt : j < 4 := by
          rcases Nat.lt_or_ge j 4 with h | h
          · exact h
          · rw [List.getElem?_eq_none (by simpa using h)] at hr; simp at hr
        interval_cases j <;> simp [sample_records, end_marker] at hr <;> subst hr <;> decide)
      rfl (by decide)).1,
    (record_offsets (table_of (encode_table (sample_records ++ [end_marker])) 31)
      (sample_records ++ [end_marker]) (by simp) (by decide)
      (fun j r hr => by
        have hlt : j < 4 := by
          rcases Nat.lt_or_ge j 4 with h | h
          · exact h
          · rw [List.getElem?_eq_none (by simpa using h)] at hr; simp at hr
        interval_cases j <;> simp [sample_records, end_marker] at hr <;> subst hr <;> decide)
      rfl (by decide)).2,
    by decide⟩

/-! ## The accessor after an error or under the close hint -/

theorem remap_failed (os : os_calls) (d : linux_data) (offset : Nat) (rw : Bool)
    (hd : d.lastMapping ≠ mapping.failed)
    (h : (remap os d offset rw).lastMapping = mapping.failed) :
    remap_errno os d offset rw 0 = os.mmap_errno
    ∧ (∀ e, remap_errno os d offset rw e = os.mmap_errno)
    ∧ os.mmap_ok (offset - offset % d.mappingSize) rw = false := by
  unfold remap at h
  unfold remap_errno
  split_ifs at h with h1 h2
  · exact absurd h hd
  · simp [h1, h2]

/-- When the copy loop leaves through `err_out`, a `mmap` has failed and
`errno` is the one it left. -/
theorem copy_loop_err (os : os_calls) (offset length : Nat) (rw : Bool) :
    ∀ (fuel : Nat) (st : copy_state), st.data.lastMapping ≠ mapping.failed →
      (copy_loop os offset length rw fuel st).1 = loop_exit.err_out →
      (copy_loop os offset length rw fuel st).2.errno = os.mmap_errno
      ∧ ∃ base, os.mmap_ok base rw = false := by
  intro fuel
  induction fuel with
  | zero => intro st _ h; simp [copy_loop] at h
  | succ fuel ih =>
    intro st hd h
    by_cases hlt : st.bytesCopied < length
    · by_cases hz : st.data.mappingSize = 0
      · simp [copy_loop, hlt, hz] at h
      · cases hm : (remap os st.data ((offset + st.bytesCopied) % U64_MODULUS) rw).lastMapping
          with
        | failed =>
          obtain ⟨_, h2, h3⟩ := remap_failed os st.data _ rw hd hm
          simp only [copy_loop, hlt, if_true, hz, if_false, hm]
          exact ⟨h2 _, _, h3⟩
        | null =>
          simp [copy_loop, hlt, hz, hm] at h
        | window base writable =>
          by_cases hc : can_access os writable rw = true
          · simp only [copy_loop, hlt, if_true, hz, if_false, hm, hc] at h ⊢
            exact ih _ (by simp [hm]) h
          · simp [copy_loop, hlt, hz, hm, hc] at h
    · simp [copy_loop, hlt] at h

/-- When `copy_mmap` returns an error, or returns at all while the close hint
is set, the accessor is closed and unmapped: no file handle, `lastMapping`
null, `lastMappedOffset` the sentinel `(u64)-1`.  After an error `mem_errno`
holds the `errno` that `perror` left when entered with the one of the `fopen`
that failed or of the `mmap` that failed; after a success `mem_errno` is 0. -/
theorem copy_mmap_closes (os : os_calls) (should_close : Bool) (d : linux_data)
    (store : Nat → Nat) (buffer : List Nat) (offset length : Nat) (rw : Bool)
    (r : copy_result)
    (hr : copy_mmap os should_close d store buffer offset length rw = some r)
    (hclose : r.retval ≠ 0 ∨ should_close = true) :
    r.data.fd = false ∧ r.data.lastMapping = mapping.null
    ∧ r.data.lastMappedOffset = INVALID_OFFSET
    ∧ (r.retval ≠ 0 → r.retval = -1 ∧ r.data.mem_errno = r.errno)
    ∧ (r.retval ≠ 0 → d.lastMapping ≠ mapping.failed →
        (r.errno = os.perror_errno os.fopen_errno ∧ os.fopen_ok rw = false)
        ∨ (r.errno = os.perror_errno os.mmap_errno ∧ ∃ base, os.mmap_ok base rw = false))
    ∧ (r.retval = 0 → r.data.mem_errno = 0) := by
  have hfin : ∀ (ex : loop_exit) (st : copy_state),
      copy_finish os should_close ex st = some r →
      r.data.fd = false ∧ r.data.lastMapping = mapping.null
      ∧ r.data.lastMappedOffset = INVALID_OFFSET
      ∧ (r.retval ≠ 0 → r.retval = -1 ∧ r.data.mem_errno = r.errno)
      ∧ (r.retval ≠ 0 → ex = loop_exit.err_out ∧ r.errno = os.perror_errno st.errno)
      ∧ (r.retval = 0 → r.data.mem_errno = st.data.mem_errno) := by
    intro ex st h
    cases ex with
    | done =>
      simp only [copy_finish, Option.some.injEq] at h
      subst h
      rcases hclose with hc | hc
      · exact absurd rfl hc
      · simp [hc, closefds]
    | err_out =>
      simp only [copy_finish, Option.some.injEq] at h
      subst h
      simp [closefds]
    | fault => simp [copy_finish] at h
  have hmem : ∀ (fuel : Nat) (st : copy_state),
      (copy_loop os offset length rw fuel st).2.data.mem_errno = st.data.mem_errno := by
    intro fuel
    induction fuel with
    | zero => intro st; rfl
    | succ fuel ih =>
      intro st
      by_cases hlt : st.bytesCopied < length
      · have hre : (remap os st.data ((offset + st.bytesCopied) % U64_MODULUS) rw).mem_errno
            = st.data.mem_errno := by
          unfold remap; split_ifs <;> rfl
        by_cases hz : st.data.mappingSize = 0
        · simp [copy_loop, hlt, hz]
        · cases hm : (remap os st.data ((offset + st.bytesCopied) % U64_MODULUS) rw).lastMapping
            with
          | failed => simp only [copy_loop, hlt, if_true, hz, if_false, hm]; exact hre
          | null => simp only [copy_loop, hlt, if_true, hz, if_false, hm]; exact hre
          | window base writable =>
            by_cases hc : can_access os writable rw = true
            · simp only [copy_loop, hlt, if_true, hz, if_false, hm, hc]
              rw [ih]; exact hre
            · simp only [copy_loop, hlt, if_true, hz, if_false, hm, hc]
              exact hre
      · simp [copy_loop, hlt]
  unfold copy_mmap at hr
  split_ifs at hr with h1 h2
  · obtain ⟨a1, a2, a3, a4, a5, a6⟩ := hfin _ _ hr
    refine ⟨a1, a2, a3, a4, fun hne _ => Or.inl ⟨(a5 hne).2, ?_⟩, fun h0 => ?_⟩
    · simpa [reopen] using h2
    · rw [a6 h0]; rfl
  · obtain ⟨a1, a2, a3, a4, a5, a6⟩ := hfin _ _ hr
    refine ⟨a1, a2, a3, a4, fun hne _ => Or.inr ?_, fun h0 => ?_⟩
    · obtain ⟨b1, b2⟩ := a5 hne
      obtain ⟨c1, c2⟩ := copy_loop_err os offset length rw length _ (by simp [reopen]) b1
      exact ⟨by rw [b2, c1], c2⟩
    · rw [a6 h0, hmem]; rfl
  · obtain ⟨a1, a2, a3, a4, a5, a6⟩ := hfin _ _ hr
    refine ⟨a1, a2, a3, a4, fun hne hd => Or.inr ?_, fun h0 => ?_⟩
    · obtain ⟨b1, b2⟩ := a5 hne
      obtain ⟨c1, c2⟩ := copy_loop_err os offset length rw length _ (by simpa using hd) b1
      exact ⟨by rw [b2, c1], c2⟩
    · rw [a6 h0, hmem]

/-! ## A write followed by a read -/

/-- Inside the range of `size_t` the clipped length is `min(length, W - offset % W)`,
and it is at least 1 when `length` is. -/
theorem chunk_length_eq (W offset length : Nat) (hW : 0 < W)
    (hsum : length + offset % W < U64_MODULUS) :
    chunk_length W offset length = min length (W - offset % W)
    ∧ (1 ≤ length → 1 ≤ chunk_length W offset length)
    ∧ chunk_length W offset length ≤ length
    ∧ offset % W + chunk_length W offset length ≤ W := by
  have hm : offset % W < W := Nat.mod_lt _ hW
  unfold chunk_length
  rw [Nat.mod_eq_of_lt hsum]
  split_ifs with h
  · refine ⟨?_, ?_, ?_, ?_⟩ <;> omega
  · refine ⟨?_, ?_, ?_, ?_⟩ <;> omega

theorem can_access_self (os : os_calls) (rw : Bool) : can_access os rw rw = true := by
  cases rw <;> simp [can_access]

/-- With a `mmap` that succeeds and a cached window that allows the copy,
`remap` leaves the window of `offset` mapped with a protection that allows the
copy, and touches nothing else. -/
theorem remap_ok (os : os_calls) (hmap : ∀ b p, os.mmap_ok b p = true) (d : linux_data)
    (offset : Nat) (rw : Bool) (errno : Int) (hd : accessor_ok d) (hfit : window_fits os rw d)
    (hoff : offset < INVALID_OFFSET) :
    (∃ p, (remap os d offset rw).lastMapping
          = mapping.window (offset - offset % d.mappingSize) p
        ∧ can_access os p rw = true)
    ∧ accessor_ok (remap os d offset rw)
    ∧ window_fits os rw (remap os d offset rw)
    ∧ (remap os d offset rw).mappingSize = d.mappingSize
    ∧ (remap os d offset rw).fd = d.fd
    ∧ (remap os d offset rw).rw = d.rw
    ∧ remap_errno os d offset rw errno = errno := by
  by_cases h : offset - offset % d.mappingSize = d.lastMappedOffset
  · have hw : ∃ p, d.lastMapping = mapping.window (offset - offset % d.mappingSize) p
        ∧ can_access os p rw = true := by
      unfold accessor_ok at hd
      unfold window_fits at hfit
      cases hl : d.lastMapping with
      | null =>
        rw [hl] at hd
        simp only at hd
        exfalso; omega
      | failed => rw [hl] at hd; exact absurd hd (by simp)
      | window base p =>
        rw [hl] at hd hfit
        simp only at hd hfit
        exact ⟨p, by rw [h, hd], hfit⟩
    have e1 : remap os d offset rw = d := by simp [remap, h]
    have e2 : remap_errno os d offset rw errno = errno := by simp [remap_errno, h]
    rw [e1, e2]
    exact ⟨hw, hd, hfit, rfl, rfl, rfl, rfl⟩
  · have e1 : remap os d offset rw
        = ⟨d.fd, d.mem_errno, d.rw, mapping.window (offset - offset % d.mappingSize) rw,
            offset - offset % d.mappingSize, d.mappingSize⟩ := by
      simp [remap, h, hmap]
    have e2 : remap_errno os d offset rw errno = errno := by simp [remap_errno, h, hmap]
    rw [e1, e2]
    exact ⟨⟨rw, rfl, can_access_self os rw⟩, by simp [accessor_ok],
      by simp [window_fits, can_access_self], rfl, rfl, rfl, rfl⟩

theorem store_read_length (store : Nat → Nat) (pos n : Nat) :
    (store_read store pos n).length = n := by
  simp [store_read]

theorem store_read_append (store : Nat → Nat) (pos n m : Nat) :
    store_read store pos (n + m) = store_read store pos n ++ store_read store (pos + n) m := by
  unfold store_read
  rw [List.range_add, List.map_append, List.map_map]
  congr 1
  apply List.map_congr_left
  intro k _
  simp [Function.comp, Nat.add_assoc]

theorem span_append (start n m : Nat) :
    span start (n + m) = span start n ++ span (start + n) m := by
  have := store_read_append (fun a => a) start n m
  simpa [store_read, span] using this

/-- The chunks of the spec cover the range once, in order, each chunk holds at
least one byte and stays inside one window. -/
theorem spec_chunks_cover (W : Nat) (hW : 0 < W) :
    ∀ (fuel offset remaining : Nat), remaining ≤ fuel →
      (spec_chunks W fuel offset remaining).flatMap (fun c => span c.1 c.2)
        = span offset remaining
      ∧ ∀ c ∈ spec_chunks W fuel offset remaining,
          1 ≤ c.2 ∧ c.1 % W + c.2 ≤ W ∧ offset ≤ c.1 ∧ c.1 + c.2 ≤ offset + remaining := by
  intro fuel
  induction fuel with
  | zero =>
    intro offset remaining h
    have : remaining = 0 := by omega
    subst this
    simp [spec_chunks, span]
  | succ fuel ih =>
    intro offset remaining h
    by_cases h0 : remaining = 0
    · subst h0
      simp [spec_chunks, span]
    · have hm : offset % W < W := Nat.mod_lt _ hW
      have hmin1 : 1 ≤ min remaining (W - offset % W) := by omega
      have hmin2 : min remaining (W - offset % W) ≤ remaining := Nat.min_le_left _ _
      have hmin3 : min remaining (W - offset % W) ≤ W - offset % W := Nat.min_le_right _ _
      obtain ⟨ih1, ih2⟩ := ih (offset + min remaining (W - offset % W))
        (remaining - min remaining (W - offset % W)) (by omega)
      simp only [spec_chunks, if_neg h0]
      constructor
      · rw [List.flatMap_cons, ih1, ← span_append]
        congr 1
        omega
      · intro c hc
        simp only [List.mem_cons] at hc
        rcases hc with rfl | hc
        · simp only
          omega
        · have := ih2 c hc
          omega

theorem buffer_write_length (buffer : List Nat) (bufpos : Nat) (bytes : List Nat)
    (h : bufpos + bytes.length ≤ buffer.length) :
    (buffer_write buffer bufpos bytes).length = buffer.length := by
  simp [buffer_write]
  omega

theorem buffer_write_take (buffer : List Nat) (bufpos : Nat) (bytes : List Nat)
    (h : bufpos ≤ buffer.length) :
    (buffer_write buffer bufpos bytes).take (bufpos + bytes.length)
      = buffer.take bufpos ++ bytes := by
  unfold buffer_write
  have hl : (buffer.take bufpos ++ bytes).length = bufpos + bytes.length := by
    simp [Nat.min_eq_left h]
  rw [List.take_append_of_le_length (by omega), ← hl, List.take_length]

/-- One round of the copy loop when `mmap` succeeds and the cached window
allows the copy: the window of `offset + bytesCopied` is mapped and one chunk
is copied at that offset. -/
theorem copy_loop_round (os : os_calls) (hmap : ∀ b p, os.mmap_ok b p = true)
    (offset length : Nat) (rw : Bool) (hrange : offset + length < U64_MODULUS)
    (fuel : Nat) (st : copy_state) (hacc : accessor_ok st.data)
    (hfit : window_fits os rw st.data)
    (hW : 0 < st.data.mappingSize) (hlt : st.bytesCopied < length) :
    copy_loop os offset length rw (fuel + 1) st
      = copy_loop os offset length rw fuel
          ⟨remap os st.data (offset + st.bytesCopied) rw,
            if rw then
              store_write st.store (offset + st.bytesCopied) st.buffer st.bytesCopied
                (chunk_length st.data.mappingSize (offset + st.bytesCopied)
                  (length - st.bytesCopied))
            else st.store,
            if rw then st.buffer
            else
              buffer_write st.buffer st.bytesCopied
                (store_read st.store (offset + st.bytesCopied)
                  (chunk_length st.data.mappingSize (offset + st.bytesCopied)
                    (length - st.bytesCopied))),
            st.bytesCopied + chunk_length st.data.mappingSize (offset + st.bytesCopied)
              (length - st.bytesCopied),
            st.errno,
            st.chunks ++ [(offset + st.bytesCopied,
              chunk_length st.data.mappingSize (offset + st.bytesCopied)
                (length - st.bytesCopied))]⟩ := by
  have hU : U64_MODULUS = 18446744073709551616 := by norm_num [U64_MODULUS]
  have hI : INVALID_OFFSET = 18446744073709551615 := by norm_num [INVALID_OFFSET]
  have hmod : (offset + st.bytesCopied) % U64_MODULUS = offset + st.bytesCopied :=
    Nat.mod_eq_of_lt (by omega)
  obtain ⟨⟨p, r1, hp⟩, _, _, _, _, _, r6⟩ := remap_ok os hmap st.data
    (offset + st.bytesCopied) rw st.errno hacc hfit (by omega)
  have hbase : offset + st.bytesCopied - (offset + st.bytesCopied) % st.data.mappingSize
      + (offset + st.bytesCopied) % st.data.mappingSize = offset + st.bytesCopied :=
    Nat.sub_add_cancel (Nat.mod_le _ _)
  have hz : ¬ st.data.mappingSize = 0 := by omega
  simp only [copy_loop, hlt, if_true, hz, if_false, hmod, r1, hp, r6, hbase]

theorem remap_mem_errno (os : os_calls) (d : linux_data) (offset : Nat) (rw : Bool) :
    (remap os d offset rw).mem_errno = d.mem_errno := by
  unfold remap
  split_ifs <;> rfl

/-- With nothing left to copy the effects of the loop are empty. -/
theorem copy_nothing_left (offset length : Nat) (store : Nat → Nat) (buffer : List Nat)
    (hlen : buffer.length = length) :
    (fun a => if offset + length ≤ a ∧ a < offset + length then buffer.getD (a - offset) 0
      else store a) = store
    ∧ buffer.take length ++ store_read store (offset + length) (length - length) = buffer := by
  constructor
  · funext a
    have : ¬ (offset + length ≤ a ∧ a < offset + length) := by omega
    simp only [this, if_false]
  · simp [store_read, List.take_of_length_le (Nat.le_of_eq hlen)]

/-- The copy loop when every `mmap` succeeds, the cached window allows the
copy and the range does not wrap: it ends normally, its chunks are those of `spec_chunks`, a write puts the rest of
the buffer into the store and a read puts the rest of the range into the
buffer. -/
theorem copy_loop_ok (os : os_calls) (hmap : ∀ b p, os.mmap_ok b p = true)
    (offset length : Nat) (rw : Bool) (hrange : offset + length < U64_MODULUS) :
    ∀ (fuel : Nat) (st : copy_state), accessor_ok st.data → window_fits os rw st.data →
      0 < st.data.mappingSize →
      st.bytesCopied ≤ length → length - st.bytesCopied ≤ fuel → st.buffer.length = length →
      (copy_loop os offset length rw fuel st).1 = loop_exit.done
      ∧ accessor_ok (copy_loop os offset length rw fuel st).2.data
      ∧ window_fits os rw (copy_loop os offset length rw fuel st).2.data
      ∧ (copy_loop os offset length rw fuel st).2.data.mappingSize = st.data.mappingSize
      ∧ (copy_loop os offset length rw fuel st).2.data.fd = st.data.fd
      ∧ (copy_loop os offset length rw fuel st).2.data.rw = st.data.rw
      ∧ (copy_loop os offset length rw fuel st).2.data.mem_errno = st.data.mem_errno
      ∧ (copy_loop os offset length rw fuel st).2.chunks
          = st.chunks ++ spec_chunks st.data.mappingSize fuel (offset + st.bytesCopied)
              (length - st.bytesCopied)
      ∧ (rw = true →
          (copy_loop os offset length rw fuel st).2.buffer = st.buffer
          ∧ (copy_loop os offset length rw fuel st).2.store
              = fun a => if offset + st.bytesCopied ≤ a ∧ a < offset + length then
                  st.buffer.getD (a - offset) 0 else st.store a)
      ∧ (rw = false →
          (copy_loop os offset length rw fuel st).2.store = st.store
          ∧ (copy_loop os offset length rw fuel st).2.buffer
              = st.buffer.take st.bytesCopied
                  ++ store_read st.store (offset + st.bytesCopied) (length - st.bytesCopied)) := by
  intro fuel
  induction fuel with
  | zero =>
    intro st hacc hfit hW hbc hfuel hlen
    have hbc2 : st.bytesCopied = length := by omega
    obtain ⟨e1, e2⟩ := copy_nothing_left offset length st.store st.buffer hlen
    simp only [copy_loop, spec_chunks, List.append_nil, hbc2, e1, e2]
    exact ⟨trivial, hacc, hfit, trivial, trivial, trivial, trivial, trivial,
      fun _ => ⟨trivial, trivial⟩, fun _ => ⟨trivial, trivial⟩⟩
  | succ fuel ih =>
    intro st hacc hfit hW hbc hfuel hlen
    by_cases hlt : st.bytesCopied < length
    · have hU : U64_MODULUS = 18446744073709551616 := by norm_num [U64_MODULUS]
      have hI : INVALID_OFFSET = 18446744073709551615 := by norm_num [INVALID_OFFSET]
      obtain ⟨_, r2, rfit, r3, r4, r5, _⟩ := remap_ok os hmap st.data
        (offset + st.bytesCopied) rw st.errno hacc hfit (by omega)
      have hmodle : (offset + st.bytesCopied) % st.data.mappingSize ≤ offset + st.bytesCopied :=
        Nat.mod_le _ _
      obtain ⟨c1, c2, c3, c4⟩ := chunk_length_eq st.data.mappingSize (offset + st.bytesCopied)
        (length - st.bytesCopied) hW (by omega)
      have c2 := c2 (by omega)
      rw [copy_loop_round os hmap offset length rw hrange fuel st hacc hfit hW hlt]
      generalize hn : chunk_length st.data.mappingSize (offset + st.bytesCopied)
        (length - st.bytesCopied) = n at c1 c2 c3 c4 ⊢
      have hblen : (if rw then st.buffer
          else buffer_write st.buffer st.bytesCopied
            (store_read st.store (offset + st.bytesCopied) n)).length = length := by
        split_ifs
        · exact hlen
        · rw [buffer_write_length _ _ _ (by rw [store_read_length]; omega)]
          exact hlen
      obtain ⟨i1, i2, ifit, i3, i4, i5, i6, i7, i8, i9⟩ := ih
        ⟨remap os st.data (offset + st.bytesCopied) rw,
          if rw then store_write st.store (offset + st.bytesCopied) st.buffer st.bytesCopied n
          else st.store,
          if rw then st.buffer
          else buffer_write st.buffer st.bytesCopied
            (store_read st.store (offset + st.bytesCopied) n),
          st.bytesCopied + n, st.errno, st.chunks ++ [(offset + st.bytesCopied, n)]⟩
        r2 rfit (by rw [r3]; exact hW) (by show st.bytesCopied + n ≤ length; omega)
        (by show length - (st.bytesCopied + n) ≤ fuel; omega) hblen
      refine ⟨i1, i2, ifit, i3.trans r3, i4.trans r4, i5.trans r5,
        i6.trans (remap_mem_errno os st.data _ rw), ?_, ?_, ?_⟩
      · rw [i7]
        have hne : length - st.bytesCopied ≠ 0 := by omega
        simp only [spec_chunks, hne, if_false, r3, ← c1, List.append_assoc, List.singleton_append]
        have e1 : offset + (st.bytesCopied + n) = offset + st.bytesCopied + n := by omega
        have e2 : length - (st.bytesCopied + n) = length - st.bytesCopied - n := by omega
        rw [e1, e2]
      · intro hrw
        obtain ⟨b1, b2⟩ := i8 hrw
        subst hrw
        simp only [if_true] at b1 b2 ⊢
        refine ⟨b1, ?_⟩
        rw [b2]
        funext a
        simp only [store_write]
        split_ifs <;> first | rfl | (exfalso; omega) | (congr 1; omega)
      · intro hrw
        obtain ⟨b1, b2⟩ := i9 hrw
        subst hrw
        simp only [Bool.false_eq_true, if_false] at b1 b2 ⊢
        refine ⟨b1, ?_⟩
        rw [b2]
        have hsl : (store_read st.store (offset + st.bytesCopied) n).length = n :=
          store_read_length _ _ _
        have ht := buffer_write_take st.buffer st.bytesCopied
          (store_read st.store (offset + st.bytesCopied) n) (by omega)
        rw [hsl] at ht
        have e3 : length - st.bytesCopied = n + (length - (st.bytesCopied + n)) := by omega
        have e1 : offset + (st.bytesCopied + n) = offset + st.bytesCopied + n := by omega
        rw [ht, e3, store_read_append, List.append_assoc, e1]
    · have hbc2 : st.bytesCopied = length := by omega
      obtain ⟨e1, e2⟩ := copy_nothing_left offset length st.store st.buffer hlen
      have hdone : copy_loop os offset length rw (fuel + 1) st = (loop_exit.done, st) := by
        simp only [copy_loop, hlt, if_false]
      rw [hdone]
      rw [Nat.sub_self] at e2
      simp only [spec_chunks, List.append_nil, hbc2, e1, e2, Nat.sub_self, if_true]
      exact ⟨trivial, hacc, hfit, trivial, trivial, trivial, trivial, trivial,
        fun _ => ⟨trivial, trivial⟩, fun _ => ⟨trivial, trivial⟩⟩

theorem accessor_ok_closefds (d : linux_data) : accessor_ok (closefds d) := by
  simp [accessor_ok, closefds]

theorem accessor_ok_reopen (os : os_calls) (d : linux_data) (rw : Bool) :
    accessor_ok (reopen os d rw) := by
  simp [accessor_ok, reopen]

theorem window_fits_closefds (os : os_calls) (rw : Bool) (d : linux_data) :
    window_fits os rw (closefds d) := by
  simp [window_fits, closefds]

theorem window_fits_reopen (os : os_calls) (rw mode : Bool) (d : linux_data) :
    window_fits os rw (reopen os d mode) := by
  simp [window_fits, reopen]

/-- The copy loop from its initial variables and the end of `copy_mmap`, when
every `mmap` succeeds and the cached window allows the copy. -/
theorem copy_finish_ok (os : os_calls) (hmap : ∀ b p, os.mmap_ok b p = true)
    (should_close : Bool) (d0 : linux_data) (store : Nat → Nat) (buffer : List Nat)
    (offset length : Nat) (rw : Bool) (hd : accessor_ok d0) (hfit : window_fits os rw d0)
    (hW : 0 < d0.mappingSize)
    (hrange : offset + length < U64_MODULUS) (hlen : buffer.length = length) :
    ∃ r, copy_finish os should_close
          (copy_loop os offset length rw length ⟨d0, store, buffer, 0, 0, []⟩).1
          (copy_loop os offset length rw length ⟨d0, store, buffer, 0, 0, []⟩).2 = some r
      ∧ r.retval = 0 ∧ accessor_ok r.data ∧ window_fits os rw r.data
      ∧ (should_close = true → r.data.lastMapping = mapping.null)
      ∧ r.data.mappingSize = d0.mappingSize
      ∧ r.chunks = spec_chunks d0.mappingSize length offset length
      ∧ (rw = true → r.buffer = buffer
          ∧ r.store = fun a => if offset ≤ a ∧ a < offset + length then
              buffer.getD (a - offset) 0 else store a)
      ∧ (rw = false → r.store = store ∧ r.buffer = store_read store offset length) := by
  obtain ⟨i1, i2, ifit, i3, _, _, _, i7, i8, i9⟩ := copy_loop_ok os hmap offset length rw hrange
    length ⟨d0, store, buffer, 0, 0, []⟩ hd hfit hW (Nat.zero_le _) (Nat.sub_le _ _) hlen
  rw [i1]
  refine ⟨_, rfl, rfl, ?_, ?_, ?_, ?_, ?_, ?_, ?_⟩
  · show accessor_ok (if should_close then closefds _ else _)
    split_ifs
    · exact accessor_ok_closefds _
    · exact i2
  · show window_fits os rw (if should_close then closefds _ else _)
    split_ifs
    · exact window_fits_closefds os rw _
    · exact ifit
  · intro hc
    show (if should_close then closefds _ else _).lastMapping = mapping.null
    rw [if_pos hc]
    rfl
  · show (if should_close then closefds _ else _).mappingSize = _
    split_ifs
    · exact i3
    · exact i3
  · simpa using i7
  · intro hrw
    simpa using i8 hrw
  · intro hrw
    simpa using i9 hrw

/-- A whole call of `copy_mmap` when `fopen` and every `mmap` succeed, the
cached window allows the copy and the range does not wrap: it returns 0, leaves
an accessor that is good for the next call in the same direction, copies the
chunks of `spec_chunks`, and a write puts the buffer into the store, a read
puts the range of the store into the buffer. -/
theorem copy_mmap_ok (os : os_calls) (hopen : ∀ m, os.fopen_ok m = true)
    (hmap : ∀ b p, os.mmap_ok b p = true)
    (should_close : Bool) (d : linux_data) (store : Nat → Nat) (buffer : List Nat)
    (offset length : Nat) (rw : Bool) (hd : accessor_ok d) (hfit : window_fits os rw d)
    (hW : 0 < d.mappingSize)
    (hrange : offset + length < U64_MODULUS) (hlen : buffer.length = length) :
    ∃ r, copy_mmap os should_close d store buffer offset length rw = some r
      ∧ r.retval = 0 ∧ accessor_ok r.data ∧ window_fits os rw r.data
      ∧ (should_close = true → r.data.lastMapping = mapping.null)
      ∧ r.data.mappingSize = d.mappingSize
      ∧ r.chunks = spec_chunks d.mappingSize length offset length
      ∧ (rw = true → r.buffer = buffer
          ∧ r.store = fun a => if offset ≤ a ∧ a < offset + length then
              buffer.getD (a - offset) 0 else store a)
      ∧ (rw = false → r.store = store ∧ r.buffer = store_read store offset length) := by
  unfold copy_mmap
  split_ifs with h1 h2
  · simp [reopen, hopen] at h2
  · exact copy_finish_ok os hmap should_close _ store buffer offset length rw
      (accessor_ok_reopen os _ rw) (window_fits_reopen os rw rw _) hW hrange hlen
  · exact copy_finish_ok os hmap should_close _ store buffer offset length rw hd hfit hW
      hrange hlen

/-- Reading back a range that holds the bytes of `B` gives `B`. -/
theorem store_read_written (store : Nat → Nat) (B : List Nat) (offset : Nat) :
    store_read (fun a => if offset ≤ a ∧ a < offset + B.length then B.getD (a - offset) 0
      else store a) offset B.length = B := by
  apply List.ext_getElem
  · simp [store_read]
  · intro i h1 h2
    simp [store_read, h2]

/-- Any window serves a read when a page mapped with `PROT_WRITE` can be read,
and so does an accessor without mapping. -/
theorem window_fits_read (os : os_calls) (d : linux_data)
    (h : d.lastMapping = mapping.null ∨ os.write_implies_read = true) :
    window_fits os false d := by
  unfold window_fits
  cases hl : d.lastMapping with
  | null => trivial
  | failed => trivial
  | window base p =>
    rcases h with h | h
    · rw [hl] at h; cases h
    · simp [can_access, h]

/-- From an accessor whose cached window, if any, allows a write: with windows
of `W > 0` bytes, a range that does not wrap, and an `fopen` and `mmap` that
succeed, a write of `B` at `(offset, length)` followed by a read of
`(offset, length)` through the accessor the write left returns 0 both times and
the read buffer is `B`, when the accessor is closed after the write or a page
mapped with `PROT_WRITE` can be read.  Each call copies the chunks of
`spec_chunks`, the first of `min(remaining, W - offset % W)` bytes and each
next one from where the last ended; every chunk is at least 1 byte and lies in
one window, and the chunks in order are exactly the addresses of the range. -/
theorem write_then_read (os : os_calls) (hopen : ∀ m, os.fopen_ok m = true)
    (hmap : ∀ b p, os.mmap_ok b p = true) (close_after_write close_after_read : Bool)
    (d : linux_data) (store : Nat → Nat) (B buffer : List Nat) (offset length : Nat)
    (hd : accessor_ok d) (hfit : window_fits os true d)
    (hread : close_after_write = true ∨ os.write_implies_read = true)
    (hW : 0 < d.mappingSize) (hrange : offset + length < U64_MODULUS)
    (hB : B.length = length) (hbuf : buffer.length = length) :
    ∃ w r, copy_mmap os close_after_write d store B offset length true = some w
      ∧ w.retval = 0
      ∧ copy_mmap os close_after_read w.data w.store buffer offset length false = some r
      ∧ r.retval = 0
      ∧ r.buffer = B
      ∧ w.chunks = spec_chunks d.mappingSize length offset length
      ∧ r.chunks = spec_chunks d.mappingSize length offset length
      ∧ (∀ c ∈ w.chunks, 1 ≤ c.2 ∧ c.1 % d.mappingSize + c.2 ≤ d.mappingSize)
      ∧ w.chunks.flatMap (fun c => span c.1 c.2) = span offset length := by
  obtain ⟨w, hw, w1, w2, wfit, wnull, w3, w4, w5, _⟩ :=
    copy_mmap_ok os hopen hmap close_after_write d store B offset length true hd hfit hW
      hrange hB
  obtain ⟨_, w6⟩ := w5 rfl
  have wread : window_fits os false w.data :=
    window_fits_read os w.data (hread.imp wnull id)
  obtain ⟨r, hr, r1, _, _, _, _, r4, _, r6⟩ :=
    copy_mmap_ok os hopen hmap close_after_read w.data w.store buffer offset length false
      w2 wread (by rw [w3]; exact hW) hrange hbuf
  obtain ⟨_, r7⟩ := r6 rfl
  obtain ⟨k1, k2⟩ := spec_chunks_cover d.mappingSize hW length offset length (Nat.le_refl _)
  refine ⟨w, r, hw, w1, hr, r1, ?_, w4, ?_, ?_, ?_⟩
  · rw [r7, w6]
    subst hB
    exact store_read_written store B offset
  · rw [r4, w3]
  · intro c hc
    rw [w4] at hc
    exact ⟨(k2 c hc).1, (k2 c hc).2.1⟩
  · rw [w4]
    exact k1

/-- With windows of 16 bytes: 40 bytes written at offset 10 through a fresh
accessor, which straddles three window boundaries, and read back after the
file was left open. -/
theorem write_then_read_fresh :
    ∃ w r, copy_mmap os_ok false (init_linux_data 16) sample_store (List.range 40) 10 40 true
          = some w
      ∧ w.retval = 0
      ∧ copy_mmap os_ok true w.data w.store (List.replicate 40 0) 10 40 false = some r
      ∧ r.retval = 0
      ∧ r.buffer = List.range 40
      ∧ w.chunks = spec_chunks (init_linux_data 16).mappingSize 40 10 40
      ∧ r.chunks = spec_chunks (init_linux_data 16).mappingSize 40 10 40
      ∧ (∀ c ∈ w.chunks, 1 ≤ c.2
          ∧ c.1 % (init_linux_data 16).mappingSize + c.2 ≤ (init_linux_data 16).mappingSize)
      ∧ w.chunks.flatMap (fun c => span c.1 c.2) = span 10 40 :=
  write_then_read os_ok (fun _ => rfl) (fun _ _ => rfl) false true (init_linux_data 16)
    sample_store (List.range 40) (List.replicate 40 0) 10 40
    (by simp [accessor_ok, init_linux_data]) (by simp [window_fits, init_linux_data])
    (Or.inr rfl) (by decide) (by norm_num [U64_MODULUS]) (by simp) (by simp)

/-- The chunks of the example. -/
theorem spec_chunks_example :
    spec_chunks 16 40 10 40 = [(10, 6), (16, 16), (32, 16), (48, 2)] := by
  decide

theorem chunk_length_pos (W offset length : Nat) (hW : 0 < W) (hl : 1 ≤ length) :
    1 ≤ chunk_length W offset length := by
  have := Nat.mod_lt offset hW
  unfold chunk_length
  split_ifs <;> omega

/-- The bound on the rounds of the copy loop is never what ends it: every
round that goes on copies at least one byte, so any two bounds of at least
`length - bytesCopied` give the same result. -/
theorem copy_loop_fuel (os : os_calls) (offset length : Nat) (rw : Bool) :
    ∀ (fuel fuel2 : Nat) (st : copy_state), length - st.bytesCopied ≤ fuel →
      length - st.bytesCopied ≤ fuel2 →
      copy_loop os offset length rw fuel st = copy_loop os offset length rw fuel2 st := by
  intro fuel
  induction fuel with
  | zero =>
    intro fuel2 st h1 _
    have hlt : ¬ st.bytesCopied < length := by omega
    cases fuel2 with
    | zero => rfl
    | succ k => simp only [copy_loop, hlt, if_false]
  | succ fuel ih =>
    intro fuel2 st h1 h2
    by_cases hlt : st.bytesCopied < length
    · cases fuel2 with
      | zero => omega
      | succ k =>
        by_cases hz : st.data.mappingSize = 0
        · simp only [copy_loop, hlt, if_true, hz]
        · have hpos := chunk_length_pos st.data.mappingSize
            ((offset + st.bytesCopied) % U64_MODULUS) (length - st.bytesCopied)
            (by omega) (by omega)
          cases hm : (remap os st.data ((offset + st.bytesCopied) % U64_MODULUS) rw).lastMapping
            with
          | failed => simp only [copy_loop, hlt, if_true, hz, if_false, hm]
          | null => simp only [copy_loop, hlt, if_true, hz, if_false, hm]
          | window base writable =>
            by_cases hc : can_access os writable rw = true
            · simp only [copy_loop, hlt, if_true, hz, if_false, hm, hc]
              apply ih
              · show length - (st.bytesCopied + _) ≤ fuel
                omega
              · show length - (st.bytesCopied + _) ≤ k
                omega
            · simp only [copy_loop, hlt, if_true, hz, if_false, hm, hc, Bool.false_eq_true]
    · cases fuel2 with
      | zero => simp only [copy_loop, hlt, if_false]
      | succ k => simp only [copy_loop, hlt, if_false]

/-- An error return with the file left open by the hint: a read of 40 bytes at
offset 10 with windows of 16 bytes where the `mmap` of the window at 32 fails
and `perror` leaves `errno` as it is. -/
theorem copy_mmap_closes_example :
    ∃ r, copy_mmap (os_fails_at 32 12) false (init_linux_data 16) sample_store
          (List.replicate 40 0) 10 40 false = some r
      ∧ r.retval = -1
      ∧ r.data.fd = false ∧ r.data.lastMapping = mapping.null
      ∧ r.data.lastMappedOffset = INVALID_OFFSET
      ∧ r.data.mem_errno = 12 := by
  have hs : (copy_mmap (os_fails_at 32 12) false (init_linux_data 16) sample_store
      (List.replicate 40 0) 10 40 false).isSome = true := by decide
  obtain ⟨r, hr⟩ := Option.isSome_iff_exists.mp hs
  have hm : (copy_mmap (os_fails_at 32 12) false (init_linux_data 16) sample_store
      (List.replicate 40 0) 10 40 false).map (fun x => (x.retval, x.errno))
      = some (-1, 12) := by decide
  rw [hr] at hm
  have hret : r.retval = -1 := by simpa using congrArg (fun o => o.map Prod.fst) hm
  have herr : r.errno = 12 := by simpa using congrArg (fun o => o.map Prod.snd) hm
  obtain ⟨c1, c2, c3, c4, _, _⟩ := copy_mmap_closes (os_fails_at 32 12) false
    (init_linux_data 16) sample_store (List.replicate 40 0) 10 40 false r hr
    (Or.inl (by rw [hret]; decide))
  exact ⟨r, hr, hret, c1, c2, c3, by rw [(c4 (by rw [hret]; decide)).2, herr]⟩

/-! ## C21: the header of the first structure -/

/-- C21, the failing input: an image whose entry point declares a table of 2
bytes.  `smbios_get_table_memory` succeeds and leaves a buffer of 2 bytes, and
`smbios_table_get_next_struct` without `cur` returns the structure at offset 0,
as it does for every handle with a buffer whatever the entry point declares:
the test against `table_length - 4` is made only after a `cur`.  The header of
that structure takes offsets 0 to 3, of which 2 and 3 (the handle) lie outside
the declared table. -/
theorem first_struct_header_outside :
    (∀ (initialized : Int) (tep mem : List Nat),
        smbios_table_get_next_struct ⟨initialized, tep, some mem⟩ none = (some 0, []))
    ∧ (smbios_get_table_memory (image_reader short_table_image) [] 0 200 fresh_table).retval = 0
    ∧ (smbios_get_table_memory (image_reader short_table_image) [] 0 200 fresh_table).table.table
        = some [1, 4]
    ∧ (smbios_get_table_memory (image_reader short_table_image) [] 0 200
        fresh_table).table.table_length = 2
    ∧ (smbios_table_get_next_struct
        (smbios_get_table_memory (image_reader short_table_image) [] 0 200 fresh_table).table
        none).1 = some 0
    ∧ ¬ (0 + 4 ≤ (smbios_get_table_memory (image_reader short_table_image) [] 0 200
        fresh_table).table.table_length) := by
  constructor
  · intro initialized tep mem
    rfl
  · decide

/-! ## C22: the least Entry Point Length -/

/-- C22, the failing input: an entry point whose Entry Point Length field is
`0x0f`, below the `0x1f` of the comment.  `validate_smbios_tep` accepts it, and
it accepts its first 15 bytes followed by any bytes at all, so the table length
and the table address of an accepted entry point need not be covered by the
checksum; the scan returns it as found. -/
theorem short_entry_point_accepted :
    eps_length short_eps_tep = 0x0f
    ∧ validate_smbios_tep short_eps_tep false = true
    ∧ (∀ (rest : List Nat) (strict : Bool),
        validate_smbios_tep (short_eps_tep.take 15 ++ rest) strict = true)
    ∧ (smbios_get_tep_memory (image_reader short_eps_image) [] 0 200 fresh_table false).retval = 1
    ∧ (smbios_get_tep_memory (image_reader short_eps_image) [] 0 200 fresh_table false).table.tep
        = short_eps_tep := by
  refine ⟨by decide, by decide, ?_, by decide, by decide⟩
  intro rest strict
  rw [validate_smbios_tep_iff]
  simp [byte_sum, eps_length, major_ver, short_eps_tep, TEP_SIZE, List.range_succ]

/-! ## C10: the scan and the legacy candidates -/

/-- C10, the failing inputs, scanned from 0 to 200.  On
`legacy_below_modern_image` the lowest candidate that passes validation is the
legacy entry point at 48, yet the scan does not stop there: it goes on to 64
and returns the modern entry point.  With the checksum byte of the legacy entry
point (address 53) replaced by `0x1f` the lowest candidate that passes
validation is the modern entry point at 64, yet the scan stops at 48 and stores
a `tempTEP` that still holds the anchor `_DMI_`.  On `legacy_image` with the
same replacement no candidate passes validation, yet the scan returns 1. -/
theorem scan_misjudges_legacy_candidates (ptr_bytes : List Nat) (table : smbios_table) :
    (∀ n, n < 11 →
        (passes_validation legacy_below_modern_image false (16 * n) = true ↔ n = 3 ∨ n = 4))
    ∧ smbios_get_tep_memory (image_reader legacy_below_modern_image) ptr_bytes 0 200 table false
        = ⟨1, ⟨table.initialized, sample_tep, table.table⟩, [0, 16, 32, 48, 64]⟩
    ∧ (∀ n, n < 11 →
        (passes_validation (poke legacy_below_modern_image 53 0x1f) false (16 * n) = true
          ↔ n = 4))
    ∧ (smbios_get_tep_memory (image_reader (poke legacy_below_modern_image 53 0x1f)) ptr_bytes
        0 200 table false).retval = 1
    ∧ (smbios_get_tep_memory (image_reader (poke legacy_below_modern_image 53 0x1f)) ptr_bytes
        0 200 table false).reads = [0, 16, 32, 48]
    ∧ (smbios_get_tep_memory (image_reader (poke legacy_below_modern_image 53 0x1f)) ptr_bytes
        0 200 table false).table.tep.take 4 ≠ SM_ANCHOR
    ∧ (∀ n, n < 11 → passes_validation (poke legacy_image 53 0x1f) false (16 * n) = false)
    ∧ (smbios_get_tep_memory (image_reader (poke legacy_image 53 0x1f)) ptr_bytes
        0 200 table false).retval = 1 := by
  have he : 0 + TEP_SIZE < ULONG_MODULUS := by norm_num [TEP_SIZE, ULONG_MODULUS]
  have hf : 200 + 16 ≤ ULONG_MODULUS := by norm_num [ULONG_MODULUS]
  have h1 := get_tep_memory_found legacy_below_modern_image ptr_bytes 0 200 table false he hf 4
    (by decide) (by decide) (fun j hj => by interval_cases j <;> decide)
  have h2 := get_tep_memory_found (poke legacy_below_modern_image 53 0x1f) ptr_bytes 0 200 table
    false he hf 3 (by decide) (by decide) (fun j hj => by interval_cases j <;> decide)
  have h3 := get_tep_memory_found (poke legacy_image 53 0x1f) ptr_bytes 0 200 table
    false he hf 3 (by decide) (by decide) (fun j hj => by interval_cases j <;> decide)
  have hc1 : candidate_tep legacy_below_modern_image ptr_bytes (0 + 16 * 4) = sample_tep := by
    rw [(modern_candidate legacy_below_modern_image ptr_bytes false (0 + 16 * 4)
      (by decide)).1]
    decide
  have hc2 : (candidate_tep (poke legacy_below_modern_image 53 0x1f) ptr_bytes
      (0 + 16 * 3)).take 4 ≠ SM_ANCHOR := by
    have h5 : (image_bytes (poke legacy_below_modern_image 53 0x1f) (0 + 16 * 3)).take 5
        = DMI_ANCHOR := by decide
    unfold candidate_tep round_tep
    rw [read_tep_image, if_pos h5, legacy_fixup_take_anchor _ ptr_bytes (image_bytes_length _ _)]
    exact not_sm_of_dmi _ h5
  refine ⟨fun n hn => by interval_cases n <;> decide, ?_,
    fun n hn => by interval_cases n <;> decide, ?_, ?_, ?_,
    fun n hn => by interval_cases n <;> decide, ?_⟩
  · rw [h1, hc1]
    rfl
  · rw [h2]
  · rw [h2]
    rfl
  · rw [h2]
    exact hc2
  · rw [h3]

/-! ## C15: a write through a window that a read has mapped -/

/-- C15, the failing input: an accessor with windows of 16 bytes and the file
left open between the calls.  A write at offset 0 opens the file for writing
and maps the window at 0 with `PROT_WRITE`; a read at offset 16 then maps the
window at 16 with `PROT_READ`; the write of the claim, 4 bytes at offset 16,
finds the file open for writing and the window of its offset cached, so `remap`
maps nothing and `memcpy` stores into the read-only window: the process faults
and `copy_mmap` does not return.  From a fresh accessor the same write returns
0. -/
theorem stale_read_window_faults :
    ∃ w r, copy_mmap os_ok false (init_linux_data 16) sample_store [1, 2, 3, 4] 0 4 true = some w
      ∧ w.retval = 0
      ∧ w.data = ⟨true, 0, true, mapping.window 0 true, 0, 16⟩
      ∧ copy_mmap os_ok false w.data w.store [0, 0, 0, 0] 16 4 false = some r
      ∧ r.retval = 0
      ∧ r.data = ⟨true, 0, true, mapping.window 16 false, 16, 16⟩
      ∧ copy_mmap os_ok false r.data r.store [5, 6, 7, 8] 16 4 true = none
      ∧ (copy_mmap os_ok false (init_linux_data 16) r.store [5, 6, 7, 8] 16 4 true).map
          (fun x => x.retval) = some 0 :=
  ⟨_, _, rfl, rfl, rfl, rfl, rfl, rfl, rfl, rfl⟩

/-! ## C16: the error code in `mem_errno` -/

/-- C16, the failing input: a read of 40 bytes at offset 10 with windows of 16
bytes where the `mmap` of the window at 32 fails with `ENOMEM` (12) and the
`perror` of the error path leaves `errno` at 22.  `copy_mmap` returns -1 and
leaves the accessor closed and unmapped, but `mem_errno` holds 22, the `errno`
after `perror`, not the error code of the `mmap` that failed. -/
theorem error_code_not_recorded :
    ∃ r, copy_mmap (os_fails_at 32 22) false (init_linux_data 16) sample_store
          (List.replicate 40 0) 10 40 false = some r
      ∧ r.retval = -1
      ∧ r.data = ⟨false, 22, false, mapping.null, INVALID_OFFSET, 16⟩
      ∧ r.chunks = [(10, 6), (16, 16)]
      ∧ (os_fails_at 32 22).mmap_errno = 12
      ∧ r.data.mem_errno ≠ (os_fails_at 32 22).mmap_errno :=
  ⟨_, rfl, rfl, rfl, rfl, rfl, by decide⟩

end Smbios
